import Mathlib

set_option linter.unreachableTactic false
set_option linter.unusedTactic false

/-!
Verification of the interval / time-set algebra of the `diane` repository
(`src/tracking.py`).

The Python code stores timestamps as zone-aware datetimes, but every
comparison the algebra performs (`__eq__`, `__lt__`) first normalises to the
absolute UTC moment.  The algebra itself never does timestamp arithmetic:
it only compares moments.  We therefore embed timestamps by their absolute
moment, modelled as `ℚ` (any unbounded dense linear order is
order-isomorphic to the fragment the code inspects, and keeps every
definition decidable/executable).

`None` bounds are embedded as `Option.none`; Python functions that can
`raise` are embedded as `Except String`-valued functions, a `.error`
result standing for a raised exception.
-/

namespace Diane

/-- Decidable equality of `Except` values, so that concrete runs of the
fallible operations can be checked by `decide`. -/
instance {ε α : Type} [DecidableEq ε] [DecidableEq α] : DecidableEq (Except ε α)
  | .error a, .error b =>
    if h : a = b then isTrue (congrArg Except.error h)
    else isFalse fun hh => h (Except.error.inj hh)
  | .error _, .ok _ => isFalse Except.noConfusion
  | .ok _, .error _ => isFalse Except.noConfusion
  | .ok a, .ok b =>
    if h : a = b then isTrue (congrArg Except.ok h)
    else isFalse fun hh => h (Except.ok.inj hh)

/-- Absolute timestamp moment (UTC-normalised comparison value). -/
abbrev Ts : Type := ℚ

/-- `Timestamp`: an aware datetime.  The `zoneinfo` library guarantees
that `astimezone` re-labels the display zone while preserving the
absolute moment, so a timestamp is embedded as its absolute (UTC) moment
together with the IANA name of the display zone; the zone database is an
explicit parameter standing for the external tzdata source. -/
structure Timestamp : Type where
  moment : Int
  zone : String
deriving DecidableEq

/-- `Timestamp.__eq__`: compares the two timestamps in UTC, i.e. by
absolute moment, ignoring the display zone. -/
def Timestamp.eqUTC (a b : Timestamp) : Bool := a.moment == b.moment

/-- `Timestamp.to_timezone(timezone_iana)`: `ZoneInfo(name)` succeeds
exactly for names the zone database `db` resolves, and raises
(`ValueError` here) otherwise; `astimezone` preserves the moment. -/
def Timestamp.to_timezone (db : List String) (t : Timestamp) (timezone_iana : String) :
    Except String Timestamp :=
  if timezone_iana ∈ db then .ok ⟨t.moment, timezone_iana⟩
  else .error "Invalid IANA time zone"

/-- `Timestamp.to_utc()`: converts to the process-wide UTC zone constant,
preserving the moment. -/
def Timestamp.to_utc (t : Timestamp) : Timestamp := ⟨t.moment, "Etc/UTC"⟩

/-- `TimeInterval.Kind` : the eleven interval shapes.  The Python
`Kind.OPEN` is called `opn` because `open` is a Lean keyword. -/
inductive Kind : Type where
  | empty
  | point
  | opn
  | closed
  | closedOpen
  | openClosed
  | rightOpen
  | rightClosed
  | leftOpen
  | leftClosed
  | timeline
deriving DecidableEq

/-- `TimeInterval` : the frozen dataclass `(_kind, _start, _end)`.  The
field `_end` is called `endp` because `end` is a Lean keyword. -/
structure TimeInterval : Type where
  kind : Kind
  start : Option Ts
  endp : Option Ts
deriving DecidableEq

/-- Membership in `_START_SPECIFIED_KINDS`. -/
def Kind.startSpecified : Kind → Bool
  | .point | .opn | .closed | .closedOpen | .openClosed
  | .rightOpen | .rightClosed => true
  | _ => false

/-- Membership in `_END_SPECIFIED_KINDS`. -/
def Kind.endSpecified : Kind → Bool
  | .point | .opn | .closed | .closedOpen | .openClosed
  | .leftOpen | .leftClosed => true
  | _ => false

/-- Membership in `_START_INCLUDED_KINDS`. -/
def Kind.startIncluded : Kind → Bool
  | .point | .closed | .closedOpen | .rightClosed => true
  | _ => false

/-- Membership in `_END_INCLUDED_KINDS`. -/
def Kind.endIncluded : Kind → Bool
  | .point | .closed | .openClosed | .leftClosed => true
  | _ => false

/-- Membership in `_BOUNDED_KINDS`. -/
def Kind.bounded : Kind → Bool
  | .empty | .point | .opn | .closed | .closedOpen | .openClosed => true
  | _ => false

namespace TimeInterval

/-- `TimeInterval._is_valid`. -/
def is_valid (i : TimeInterval) : Bool :=
  match i.kind with
  | .empty => i.start == none && i.endp == none
  | .point =>
    match i.start, i.endp with
    | some s, some e => s == e
    | _, _ => false
  | .opn | .closed | .closedOpen | .openClosed =>
    match i.start, i.endp with
    | some s, some e => decide (s < e)
    | _, _ => false
  | .rightOpen | .rightClosed => i.start != none && i.endp == none
  | .leftOpen | .leftClosed => i.start == none && i.endp != none
  | .timeline => i.start == none && i.endp == none

/-- `TimeInterval.is_empty`. -/
def is_empty (i : TimeInterval) : Bool := i.kind == .empty

/-- `TimeInterval.is_nonempty`. -/
def is_nonempty (i : TimeInterval) : Bool := !(i.kind == .empty)

/-- `TimeInterval.is_timeline`. -/
def is_timeline (i : TimeInterval) : Bool := i.kind == .timeline

/-- `TimeInterval.is_bounded`. -/
def is_bounded (i : TimeInterval) : Bool := i.kind.bounded

/-- `TimeInterval.is_start_specified`. -/
def is_start_specified (i : TimeInterval) : Bool := i.kind.startSpecified

/-- `TimeInterval.is_end_specified`. -/
def is_end_specified (i : TimeInterval) : Bool := i.kind.endSpecified

/-- `TimeInterval.is_start_included` (`None` when the start is not
specified). -/
def is_start_included (i : TimeInterval) : Option Bool :=
  if i.kind.startSpecified then some i.kind.startIncluded else none

/-- `TimeInterval.is_end_included` (`None` when the end is not
specified). -/
def is_end_included (i : TimeInterval) : Option Bool :=
  if i.kind.endSpecified then some i.kind.endIncluded else none

/-- `TimeInterval.empty()`. -/
def emptyI : TimeInterval := ⟨.empty, none, none⟩

/-- `TimeInterval.point(moment)`. -/
def point (moment : Ts) : TimeInterval := ⟨.point, some moment, some moment⟩

/-- `TimeInterval.open(start, end)` — raises unless `start < end`. -/
def openE (s e : Ts) : Except String TimeInterval :=
  if s ≥ e then .error "open: start not before end"
  else .ok ⟨.opn, some s, some e⟩

/-- `TimeInterval.closed(start, end)` — raises unless `start < end`. -/
def closedE (s e : Ts) : Except String TimeInterval :=
  if s ≥ e then .error "closed: start not before end"
  else .ok ⟨.closed, some s, some e⟩

/-- `TimeInterval.closedopen(start, end)` — raises unless `start < end`. -/
def closedopenE (s e : Ts) : Except String TimeInterval :=
  if s ≥ e then .error "closedopen: start not before end"
  else .ok ⟨.closedOpen, some s, some e⟩

/-- `TimeInterval.openclosed(start, end)` — raises unless `start < end`. -/
def openclosedE (s e : Ts) : Except String TimeInterval :=
  if s ≥ e then .error "openclosed: start not before end"
  else .ok ⟨.openClosed, some s, some e⟩

/-- `TimeInterval.rightclosed(start)`. -/
def rightclosed (s : Ts) : TimeInterval := ⟨.rightClosed, some s, none⟩

/-- `TimeInterval.rightopen(start)`. -/
def rightopen (s : Ts) : TimeInterval := ⟨.rightOpen, some s, none⟩

/-- `TimeInterval.right_ray(start, start_included)`. -/
def right_ray (s : Ts) (start_included : Bool) : TimeInterval :=
  if start_included then rightclosed s else rightopen s

/-- `TimeInterval.leftclosed(end)`. -/
def leftclosed (e : Ts) : TimeInterval := ⟨.leftClosed, none, some e⟩

/-- `TimeInterval.leftopen(end)`. -/
def leftopen (e : Ts) : TimeInterval := ⟨.leftOpen, none, some e⟩

/-- `TimeInterval.left_ray(end, end_included)`. -/
def left_ray (e : Ts) (end_included : Bool) : TimeInterval :=
  if end_included then leftclosed e else leftopen e

/-- `TimeInterval.timeline()`. -/
def timelineI : TimeInterval := ⟨.timeline, none, none⟩

/-- `TimeInterval.from_boundaries(start, end, start_included, end_included)`.
A Python `bool | None` flag is an `Option Bool`; a bare `if flag:` test on
such a flag is truthy exactly for `some true`. -/
def from_boundaries (start endp : Option Ts)
    (start_included end_included : Option Bool) : Except String TimeInterval :=
  match start, endp with
  | some s, some e =>
    match start_included, end_included with
    | some si, some ei =>
      if si && ei then
        if s > e then .error "from_boundaries: start after end"
        else if s == e then .ok (point s)
        else closedE s e
      else if si && !ei then
        if s ≥ e then .error "from_boundaries: closed-open start not before end"
        else closedopenE s e
      else if !si && ei then
        if s ≥ e then .error "from_boundaries: open-closed start not before end"
        else openclosedE s e
      else
        if s ≥ e then .error "from_boundaries: open start not before end"
        else openE s e
    | _, _ => .error "from_boundaries: bounded interval needs both inclusion flags"
  | some s, none =>
    if end_included != none then
      .error "from_boundaries: end absent but end_included given"
    else if start_included == some true then .ok (rightclosed s)
    else .ok (rightopen s)
  | none, some e =>
    if start_included != none then
      .error "from_boundaries: start absent but start_included given"
    else if end_included == some true then .ok (leftclosed e)
    else .ok (leftopen e)
  | none, none =>
    if start_included != none || end_included != none then
      .error "from_boundaries: no bounds but inclusion flag given"
    else .ok timelineI

/-- `TimeInterval.contains_timestamp(moment)`. -/
def contains_ts (i : TimeInterval) (moment : Ts) : Bool :=
  if i.is_empty then false
  else if i.is_timeline then true
  else
    (match i.start with
     | none => true
     | some s => if i.is_start_included == some true then moment ≥ s else moment > s) &&
    (match i.endp with
     | none => true
     | some e => if i.is_end_included == some true then moment ≤ e else moment < e)

/-- The left-boundary check of `contains_timeinterval` ("Checking the left
boundary"), over the boundary data of `self` and `interval`. -/
def containsLeft (selfS : Option Ts) (selfI : Option Bool)
    (otherS : Option Ts) (otherI : Option Bool) : Bool :=
  match otherS with
  | some os =>
    match selfS with
    | none => true
    | some ss =>
      if ss < os then true
      else if ss == os then selfI == some true || !(otherI == some true)
      else false
  | none => selfS == none

/-- The right-boundary check of `contains_timeinterval` ("Checking the
right boundary"). -/
def containsRight (selfE : Option Ts) (selfI : Option Bool)
    (otherE : Option Ts) (otherI : Option Bool) : Bool :=
  match otherE with
  | some oe =>
    match selfE with
    | none => true
    | some se =>
      if se > oe then true
      else if se == oe then selfI == some true || !(otherI == some true)
      else false
  | none => selfE == none

/-- `TimeInterval.contains_timeinterval(interval)` — `self` contains
`interval`. -/
def contains_ti (self interval : TimeInterval) : Bool :=
  if interval.is_empty then true
  else if self.is_empty then false
  else
    containsLeft self.start self.is_start_included
      interval.start interval.is_start_included &&
    containsRight self.endp self.is_end_included
      interval.endp interval.is_end_included

/-- `TimeInterval.is_left_of(other)`. -/
def is_left_of (self other : TimeInterval) : Bool :=
  if self.is_empty || other.is_empty then true
  else
    match self.endp, other.start with
    | some e, some s =>
      if e < s then true
      else if e == s then
        self.is_end_included == some false || other.is_start_included == some false
      else false
    | _, _ => false

/-- `TimeInterval.is_right_of(other)`. -/
def is_right_of (self other : TimeInterval) : Bool :=
  if self.is_empty || other.is_empty then true
  else
    match other.endp, self.start with
    | some e, some s =>
      if e < s then true
      else if e == s then
        other.is_end_included == some false || self.is_start_included == some false
      else false
    | _, _ => false

/-- `TimeInterval.is_left_of_disconnectedly(other)`. -/
def is_left_of_disconnectedly (self other : TimeInterval) : Bool :=
  if self.is_empty || other.is_empty then false
  else
    match self.endp, other.start with
    | some e, some s =>
      if e < s then true
      else if e == s then
        self.is_end_included == some false && other.is_start_included == some false
      else false
    | _, _ => false

/-- `TimeInterval.is_right_of_disconnectedly(other)`. -/
def is_right_of_disconnectedly (self other : TimeInterval) : Bool :=
  if self.is_empty || other.is_empty then false
  else
    match other.endp, self.start with
    | some e, some s =>
      if e < s then true
      else if e == s then
        other.is_end_included == some false && self.is_start_included == some false
      else false
    | _, _ => false

/-- `TimeInterval.overlaps(other)`. -/
def overlaps (self other : TimeInterval) : Bool :=
  if self.is_empty || other.is_empty then false
  else if self.is_left_of other then false
  else if other.is_left_of self then false
  else true

/-- `TimeInterval.touches(other)`. -/
def touches (self other : TimeInterval) : Bool :=
  if self.is_empty || other.is_empty then false
  else if self.is_left_of_disconnectedly other then false
  else if other.is_left_of_disconnectedly self then false
  else true

/-- The start-bound computation of `TimeInterval.__and__` (the section
"Calculating the start of the intersection").  The `assert`s of the source
are embedded as `.error` outcomes. -/
def interStart (self other : TimeInterval) :
    Except String (Option Ts × Option Bool) :=
  if self.is_start_specified && other.is_start_specified then
    match self.start, other.start, self.is_start_included, other.is_start_included with
    | some ss, some os, some si, some oi =>
      .ok (some (max ss os),
        some (if ss < os then oi else if ss > os then si else si && oi))
    | _, _, _, _ => .error "assert failed"
  else if !self.is_start_specified && !other.is_start_specified then
    .ok (none, none)
  else
    .ok (self.start.orElse (fun _ => other.start),
      if self.is_start_specified then self.is_start_included
      else other.is_start_included)

/-- The end-bound computation of `TimeInterval.__and__`. -/
def interEnd (self other : TimeInterval) :
    Except String (Option Ts × Option Bool) :=
  if self.is_end_specified && other.is_end_specified then
    match self.endp, other.endp, self.is_end_included, other.is_end_included with
    | some se, some oe, some si, some oi =>
      .ok (some (min se oe),
        some (if se < oe then si else if se > oe then oi else si && oi))
    | _, _, _, _ => .error "assert failed"
  else if !self.is_end_specified && !other.is_end_specified then
    .ok (none, none)
  else
    .ok (self.endp.orElse (fun _ => other.endp),
      if self.is_end_specified then self.is_end_included
      else other.is_end_included)

/-- `TimeInterval.__and__(other)` : interval intersection. -/
def inter (self other : TimeInterval) : Except String TimeInterval :=
  if self.is_empty || other.is_empty then .ok emptyI
  else if self.is_timeline then .ok other
  else if other.is_timeline then .ok self
  else do
    let (new_start, new_start_included) ← interStart self other
    let (new_end, new_end_included) ← interEnd self other
    match new_start, new_end with
    | some s, some e =>
      if new_start_included == some true && new_end_included == some true then
        if s > e then .ok emptyI
        else from_boundaries new_start new_end new_start_included new_end_included
      else
        if s ≥ e then .ok emptyI
        else from_boundaries new_start new_end new_start_included new_end_included
    | _, _ => from_boundaries new_start new_end new_start_included new_end_included

/-- `TimeInterval.to_the_right()`. -/
def to_the_right (self : TimeInterval) : TimeInterval :=
  if self.is_empty then timelineI
  else
    match self.endp with
    | none => emptyI
    | some e => right_ray e (!(self.is_end_included == some true))

/-- `TimeInterval.to_the_left()`. -/
def to_the_left (self : TimeInterval) : TimeInterval :=
  if self.is_empty then timelineI
  else
    match self.start with
    | none => emptyI
    | some s => left_ray s (!(self.is_start_included == some true))

/-- `TimeInterval.between(first, second)`. -/
def between (first second : TimeInterval) : Except String TimeInterval :=
  if !(first.is_left_of second) then .ok emptyI
  else if first.is_empty && second.is_empty then .ok timelineI
  else if first.is_nonempty && second.is_empty then .ok first.to_the_right
  else if first.is_empty && second.is_nonempty then .ok second.to_the_left
  else
    match first.endp, second.start with
    | none, _ => .ok emptyI
    | some _, none => .ok emptyI
    | some fe, some ss =>
      if fe > ss then .ok emptyI
      else if fe == ss then
        if first.is_end_included == some true || second.is_start_included == some true then
          .ok emptyI
        else .ok (point fe)
      else
        from_boundaries (some fe) (some ss)
          (some (!(first.is_end_included == some true)))
          (some (!(second.is_start_included == some true)))

/-- Python `min(..., key=...)` : first element with minimal key.  The
`lt` argument compares keys; the scan replaces the current minimum only
on a strictly smaller key, so ties keep the earlier element. -/
def pyMinBy (lt : TimeInterval → TimeInterval → Bool) :
    TimeInterval → List TimeInterval → TimeInterval
  | cur, [] => cur
  | cur, x :: xs => pyMinBy lt (if lt x cur then x else cur) xs

/-- `start_key(i) < start_key(j)` for `minimal_cover`'s
`(i.start is not None, i.start)` tuples, with Python tuple-comparison
semantics (`False < True`, equal components skipped). -/
def startKeyLt (i j : TimeInterval) : Bool :=
  match i.start, j.start with
  | none, none => false
  | none, some _ => true
  | some _, none => false
  | some a, some b => decide (a < b)

/-- `end_key(i) < end_key(j)` for `minimal_cover`'s
`(i.end is None, i.end)` tuples (`None` end sorts last). -/
def endKeyLt (i j : TimeInterval) : Bool :=
  match i.endp, j.endp with
  | none, none => false
  | none, some _ => false
  | some _, none => true
  | some a, some b => decide (a < b)

/-- `TimeInterval.minimal_cover(*intervals)`.  Python's `min`/`max` with a
key keep the first minimal/maximal element; on key ties every candidate
has the same `start` (resp. `end`) value, so only strict comparisons
matter. -/
def minimal_cover (intervals : List TimeInterval) : Except String TimeInterval :=
  let nonempty_intervals := intervals.filter is_nonempty
  match nonempty_intervals with
  | [] => .ok emptyI
  | first :: rest =>
    let leftmost := pyMinBy startKeyLt first rest
    let start := leftmost.start
    let start_included : Option Bool :=
      match start with
      | none => none
      | some s =>
        some (nonempty_intervals.any fun i =>
          i.start == some s && i.is_start_included == some true)
    let rightmost := pyMinBy (fun a b => endKeyLt b a) first rest
    let endv := rightmost.endp
    let end_included : Option Bool :=
      match endv with
      | none => none
      | some e =>
        some (nonempty_intervals.any fun i =>
          i.endp == some e && i.is_end_included == some true)
    from_boundaries start endv start_included end_included

/-- Proof infrastructure: the one-sided membership test a left bound
`(s, si)` imposes on a moment `t` (`none` meaning unbounded). -/
def leftOkB (s : Option Ts) (si : Option Bool) (t : Ts) : Bool :=
  match s with
  | none => true
  | some x => if si == some true then t ≥ x else t > x

/-- Proof infrastructure: the one-sided membership test a right bound
`(e, ei)` imposes on a moment `t`. -/
def rightOkB (e : Option Ts) (ei : Option Bool) (t : Ts) : Bool :=
  match e with
  | none => true
  | some x => if ei == some true then t ≤ x else t < x

/-- Modelled from the spec (§4.2 Intersection): "combine start bounds by
taking the later one (ties keep inclusion only if both sides included)";
an absent bound lies at `-∞` and always loses. -/
def laterBound (p q : Option Ts × Option Bool) : Option Ts × Option Bool :=
  match p, q with
  | (none, _), q => q
  | p, (none, _) => p
  | (some a, pi), (some b, qi) =>
    if a > b then (some a, pi)
    else if b > a then (some b, qi)
    else (some a, some (pi == some true && qi == some true))

/-- Modelled from the spec (§4.2 Intersection): "combine end bounds by
taking the earlier one (same tie rule)"; an absent bound lies at `+∞`. -/
def earlierBound (p q : Option Ts × Option Bool) : Option Ts × Option Bool :=
  match p, q with
  | (none, _), q => q
  | p, (none, _) => p
  | (some a, pi), (some b, qi) =>
    if a < b then (some a, pi)
    else if b < a then (some b, qi)
    else (some a, some (pi == some true && qi == some true))

/-- Modelled from the spec (§4.2 Intersection, C7): combine the bounds,
"then re-validate: if both resulting bounds are specified and
(start > end), or (start == end) with not-both-included, the result is
empty; otherwise build via `fromBoundaries`". -/
def inter_spec (a b : TimeInterval) : Except String TimeInterval :=
  match laterBound (a.start, a.is_start_included) (b.start, b.is_start_included),
        earlierBound (a.endp, a.is_end_included) (b.endp, b.is_end_included) with
  | (some x, si), (some y, ei) =>
    if x > y || (x == y && !(si == some true && ei == some true)) then .ok emptyI
    else from_boundaries (some x) (some y) si ei
  | (s, si), (e, ei) => from_boundaries s e si ei

/-- `sort_key(i) < sort_key(j)` for `TimeSet.union`'s
`(i.start is not None, i.start, i.end is None, i.end)` tuples, with Python
tuple-comparison semantics: the first unequal component decides
(`False < True`; equal components, including `None == None`, are
skipped). -/
def unionKeyLt (i j : TimeInterval) : Bool :=
  match i.start, j.start with
  | none, some _ => true
  | some _, none => false
  | some a, some b =>
    if a == b then endKeyLt i j else decide (a < b)
  | none, none => endKeyLt i j

/-- The sort key as a lexicographic tuple, for order reasoning.  When the
presence flags agree the `getD` defaults are only compared against each
other, so this order agrees with the tuple comparison of the source. -/
def sortKey (i : TimeInterval) : Bool ×ₗ (Ts ×ₗ (Bool ×ₗ Ts)) :=
  toLex (i.start.isSome, toLex (i.start.getD 0, toLex (i.endp.isNone, i.endp.getD 0)))

/-- One step of the stable insertion modelling Python's stable
`list.sort(key=sort_key)`: the element goes after every element with a
strictly smaller key and before the first whose key is not smaller, so
elements with equal keys keep their input order. -/
def sortInsert (x : TimeInterval) : List TimeInterval → List TimeInterval
  | [] => [x]
  | y :: ys => if unionKeyLt y x then y :: sortInsert x ys else x :: y :: ys

/-- Python's `list.sort(key=sort_key)`: a stable ascending sort (any two
stable sorts by the same key agree, so insertion sort is a faithful
model). -/
def pySort : List TimeInterval → List TimeInterval
  | [] => []
  | x :: xs => sortInsert x (pySort xs)

end TimeInterval

/-- `TimeSet` : the frozen dataclass holding `_intervals`. -/
structure TimeSet : Type where
  intervals : List TimeInterval
deriving DecidableEq

namespace TimeSet

/-- The second loop of `TimeSet._is_valid` : every adjacent pair of
components is disconnectedly ordered. -/
def pairsOk : List TimeInterval → Bool
  | [] => true
  | [_] => true
  | l :: r :: rest => l.is_left_of_disconnectedly r && pairsOk (r :: rest)

/-- `TimeSet._is_valid`. -/
def is_valid (S : TimeSet) : Bool :=
  S.intervals.all (fun i => !i.is_empty) && pairsOk S.intervals

/-- `TimeSet.__init__(*intervals)` — validates, raising on an
invariant-violating component list. -/
def mkE (intervals : List TimeInterval) : Except String TimeSet :=
  if is_valid ⟨intervals⟩ then .ok ⟨intervals⟩
  else .error "The TimeSet has been set incorrectly."

/-- `TimeSet.empty()`. -/
def emptyS : TimeSet := ⟨[]⟩

/-- `TimeSet.timeline()` — the constructor call `TimeSet(timeline())`
always passes validation. -/
def timelineS : TimeSet := ⟨[TimeInterval.timelineI]⟩

/-- `TimeSet.is_empty`. -/
def is_empty (S : TimeSet) : Bool := S.intervals.isEmpty

/-- `TimeSet.contains_timestamp(moment)`. -/
def contains_ts (S : TimeSet) (moment : Ts) : Bool :=
  S.intervals.any (fun c => c.contains_ts moment)

/-- The grouping loop of `TimeSet.union`: `glast` is the last interval of
the currently accumulated group `g`. -/
def groupTouching (glast : TimeInterval) (g : List TimeInterval) :
    List TimeInterval → List (List TimeInterval)
  | [] => [g]
  | i :: rest =>
    if glast.touches i then groupTouching i (g ++ [i]) rest
    else g :: groupTouching i [i] rest

/-- `TimeInterval.minimal_cover` applied to every group. -/
def mapCover : List (List TimeInterval) → Except String (List TimeInterval)
  | [] => .ok []
  | g :: gs => do
    let c ← TimeInterval.minimal_cover g
    let cs ← mapCover gs
    .ok (c :: cs)

/-- `TimeSet.union(*intervals)`. -/
def unionE (intervals : List TimeInterval) : Except String TimeSet :=
  let nonempty_intervals := intervals.filter TimeInterval.is_nonempty
  match nonempty_intervals with
  | [] => .ok emptyS
  | first :: rest => do
    let sorted := TimeInterval.pySort (first :: rest)
    let components := groupTouching (sorted.headD first) [sorted.headD first] sorted.tail
    let merged ← mapCover components
    mkE merged

/-- `TimeSet.__or__` with a `TimeSet` argument. -/
def orS (self other : TimeSet) : Except String TimeSet :=
  unionE (self.intervals ++ other.intervals)

/-- The scan loop of `TimeSet.intersection_with_interval` (`continue`
skips, `break` stops, otherwise intersect and keep non-empty results). -/
def iwiLoop (other : TimeInterval) :
    List TimeInterval → Except String (List TimeInterval)
  | [] => .ok []
  | i :: rest =>
    if i.is_left_of other then iwiLoop other rest
    else if i.is_right_of other then .ok []
    else do
      let c ← i.inter other
      let l ← iwiLoop other rest
      .ok (if c.is_nonempty then c :: l else l)

/-- `TimeSet.intersection_with_interval(other)`. -/
def intersection_with_interval (self : TimeSet) (other : TimeInterval) :
    Except String TimeSet :=
  if self.is_empty || other.is_empty then .ok emptyS
  else do
    let l ← iwiLoop other self.intervals
    mkE l

/-- The two-pointer loop of `TimeSet.intersection_with_timeset`; the
pointer of the interval that ends earlier (`None` end sorting last)
advances. -/
def interLoop : List TimeInterval → List TimeInterval →
    Except String (List TimeInterval)
  | [], _ => .ok []
  | _ :: _, [] => .ok []
  | x :: xs, y :: ys =>
    if x.is_left_of y then interLoop xs (y :: ys)
    else if x.is_right_of y then interLoop (x :: xs) ys
    else do
      let c ← x.inter y
      let rest ←
        if TimeInterval.endKeyLt x y then interLoop xs (y :: ys)
        else interLoop (x :: xs) ys
      .ok (if !c.is_empty then c :: rest else rest)
  termination_by xs ys => xs.length + ys.length

/-- `TimeSet.intersection_with_timeset(other)`. -/
def intersection_with_timeset (self other : TimeSet) : Except String TimeSet :=
  if self.is_empty || other.is_empty then .ok emptyS
  else do
    let l ← interLoop self.intervals other.intervals
    mkE l

/-- The gap pieces `between(c_i, c_{i+1})` of `TimeSet.complement`. -/
def betweens : List TimeInterval → Except String (List TimeInterval)
  | [] => .ok []
  | [_] => .ok []
  | f :: s :: rest => do
    let b ← TimeInterval.between f s
    let bs ← betweens (s :: rest)
    .ok (b :: bs)

/-- `TimeSet.complement()`. -/
def complement (self : TimeSet) : Except String TimeSet :=
  match self.intervals with
  | [] => .ok timelineS
  | first :: rest => do
    let gaps ← betweens (first :: rest)
    let pieces :=
      first.to_the_left :: gaps ++ [((first :: rest).getLast (by simp)).to_the_right]
    unionE pieces

/-- Proof infrastructure: the gap piece `between(f, s)` as a total value
(meaningful when `f` lies disconnectedly left of `s`, in which case
`between` cannot raise). -/
def gapTot (f s : TimeInterval) : TimeInterval :=
  match TimeInterval.between f s with
  | .ok g => g
  | .error _ => TimeInterval.emptyI

/-- Proof infrastructure: the list of gap pieces between adjacent
components. -/
def gapsTot : List TimeInterval → List TimeInterval
  | [] => []
  | [_] => []
  | f :: s :: rest => gapTot f s :: gapsTot (s :: rest)

/-- Proof infrastructure: the full piece list `complement` feeds into
`union`. -/
def piecesTot : List TimeInterval → List TimeInterval
  | [] => []
  | c :: rest =>
    c.to_the_left :: gapsTot (c :: rest) ++ [((c :: rest).getLastD c).to_the_right]

/-- Proof infrastructure: the components of a canonical list interleaved
with the gaps between them. -/
def interleaveTot : List TimeInterval → List TimeInterval
  | [] => []
  | [c] => [c]
  | c :: s :: rest => c :: gapTot c s :: interleaveTot (s :: rest)

/-- Proof infrastructure: the left ray piece of the complement, as the
(possibly empty) sublist that survives the non-empty filter. -/
def optLeft (c : TimeInterval) : List TimeInterval :=
  match c.start with
  | none => []
  | some _ => [c.to_the_left]

/-- Proof infrastructure: the right ray piece of the complement, as the
(possibly empty) sublist that survives the non-empty filter. -/
def optRight (c : TimeInterval) : List TimeInterval :=
  match c.endp with
  | none => []
  | some _ => [c.to_the_right]

/-- Canonicity of a `TimeSet` value: the Python constructor invariant
plus the per-component `TimeInterval` invariant (which the Python
`TimeInterval` constructor enforces for every interval in existence). -/
def canonical (S : TimeSet) : Bool :=
  S.intervals.all TimeInterval.is_valid && S.is_valid

end TimeSet

/-! ## Facts about valid intervals -/

namespace TimeInterval

theorem start_isSome_of_valid {i : TimeInterval} (h : i.is_valid = true) :
    i.start.isSome = i.is_start_specified := by
  obtain ⟨k, s, e⟩ := i
  cases k <;> rcases s with _ | s <;> rcases e with _ | e <;>
    simp_all [is_valid, is_start_specified, Kind.startSpecified]

theorem endp_isSome_of_valid {i : TimeInterval} (h : i.is_valid = true) :
    i.endp.isSome = i.is_end_specified := by
  obtain ⟨k, s, e⟩ := i
  cases k <;> rcases s with _ | s <;> rcases e with _ | e <;>
    simp_all [is_valid, is_end_specified, Kind.endSpecified]

theorem isi_isSome (i : TimeInterval) :
    i.is_start_included.isSome = i.is_start_specified := by
  by_cases h : i.kind.startSpecified <;>
    simp [is_start_included, is_start_specified, h]

theorem iei_isSome (i : TimeInterval) :
    i.is_end_included.isSome = i.is_end_specified := by
  by_cases h : i.kind.endSpecified <;>
    simp [is_end_included, is_end_specified, h]

theorem le_of_valid {i : TimeInterval} (h : i.is_valid = true) {s e : Ts}
    (hs : i.start = some s) (he : i.endp = some e) : s ≤ e := by
  obtain ⟨k, s', e'⟩ := i
  cases k <;> simp_all [is_valid] <;> first
    | exact le_of_eq (by simp_all)
    | exact le_of_lt (by simp_all)

theorem point_kind_of_valid_eq {i : TimeInterval} (h : i.is_valid = true)
    {s e : Ts} (hs : i.start = some s) (he : i.endp = some e) (heq : s = e) :
    i.kind = .point := by
  obtain ⟨k, s', e'⟩ := i
  cases k <;> simp_all [is_valid]

theorem contains_ts_eq {i : TimeInterval} (h : i.is_valid = true)
    (hne : i.is_empty = false) (t : Ts) :
    i.contains_ts t = (leftOkB i.start i.is_start_included t &&
      rightOkB i.endp i.is_end_included t) := by
  obtain ⟨k, s, e⟩ := i
  cases k <;> rcases s with _ | s <;> rcases e with _ | e <;>
    simp_all [is_valid, is_empty, is_timeline, contains_ts, leftOkB, rightOkB,
      is_start_included, is_end_included, Kind.startSpecified,
      Kind.endSpecified, Kind.startIncluded, Kind.endIncluded]

theorem from_boundaries_spec (s e : Option Ts) (si ei : Option Bool)
    (hsi : si.isSome = s.isSome) (hei : ei.isSome = e.isSome)
    (hord : ∀ a b, s = some a → e = some b →
      if si = some true ∧ ei = some true then a ≤ b else a < b) :
    ∃ c, from_boundaries s e si ei = .ok c ∧ c.is_valid = true ∧
      c.start = s ∧ c.endp = e ∧
      c.is_start_included = si ∧ c.is_end_included = ei ∧
      c.is_empty = false ∧
      (∀ t : Ts, c.contains_ts t = (leftOkB s si t && rightOkB e ei t)) := by
  rcases s with _ | a <;> rcases e with _ | b
  · -- no bounds : Timeline
    have h1 : si = none := by rcases si <;> simp_all
    have h2 : ei = none := by rcases ei <;> simp_all
    subst h1; subst h2
    exact ⟨timelineI, by simp [from_boundaries, timelineI], by decide, rfl, rfl,
      by decide, by decide, by decide,
      fun t => by simp [timelineI, contains_ts, is_empty, is_timeline, leftOkB, rightOkB]⟩
  · -- left ray
    have h1 : si = none := by rcases si <;> simp_all
    obtain ⟨ei', h2⟩ : ∃ x, ei = some x := by rcases ei <;> simp_all
    subst h1; subst h2
    cases ei'
    · exact ⟨leftopen b, by simp [from_boundaries, leftopen], by simp [is_valid, leftopen], rfl, rfl,
        by simp [is_start_included, leftopen, Kind.startSpecified],
        by simp [is_end_included, leftopen, Kind.endSpecified, Kind.endIncluded],
        by simp [is_empty, leftopen],
        fun t => by simp [leftopen, contains_ts, is_empty, is_timeline,
          leftOkB, rightOkB, is_start_included, is_end_included,
          Kind.startSpecified, Kind.endSpecified, Kind.endIncluded]⟩
    · exact ⟨leftclosed b, by simp [from_boundaries, leftclosed], by simp [is_valid, leftclosed], rfl, rfl,
        by simp [is_start_included, leftclosed, Kind.startSpecified],
        by simp [is_end_included, leftclosed, Kind.endSpecified, Kind.endIncluded],
        by simp [is_empty, leftclosed],
        fun t => by simp [leftclosed, contains_ts, is_empty, is_timeline,
          leftOkB, rightOkB, is_start_included, is_end_included,
          Kind.startSpecified, Kind.endSpecified, Kind.endIncluded]⟩
  · -- right ray
    obtain ⟨si', h1⟩ : ∃ x, si = some x := by rcases si <;> simp_all
    have h2 : ei = none := by rcases ei <;> simp_all
    subst h1; subst h2
    cases si'
    · exact ⟨rightopen a, by simp [from_boundaries, rightopen], by simp [is_valid, rightopen], rfl, rfl,
        by simp [is_start_included, rightopen, Kind.startSpecified, Kind.startIncluded],
        by simp [is_end_included, rightopen, Kind.endSpecified],
        by simp [is_empty, rightopen],
        fun t => by simp [rightopen, contains_ts, is_empty, is_timeline,
          leftOkB, rightOkB, is_start_included, is_end_included,
          Kind.startSpecified, Kind.endSpecified, Kind.startIncluded]⟩
    · exact ⟨rightclosed a, by simp [from_boundaries, rightclosed], by simp [is_valid, rightclosed], rfl, rfl,
        by simp [is_start_included, rightclosed, Kind.startSpecified, Kind.startIncluded],
        by simp [is_end_included, rightclosed, Kind.endSpecified],
        by simp [is_empty, rightclosed],
        fun t => by simp [rightclosed, contains_ts, is_empty, is_timeline,
          leftOkB, rightOkB, is_start_included, is_end_included,
          Kind.startSpecified, Kind.endSpecified, Kind.startIncluded]⟩
  · -- both bounds present
    obtain ⟨si', h1⟩ : ∃ x, si = some x := by rcases si <;> simp_all
    obtain ⟨ei', h2⟩ : ∃ x, ei = some x := by rcases ei <;> simp_all
    subst h1; subst h2
    have hab := hord a b rfl rfl
    cases si' <;> cases ei' <;> simp at hab
    · -- open
      exact ⟨⟨.opn, some a, some b⟩,
        by simp [from_boundaries, openE, not_le.mpr hab],
        by simp [is_valid, hab], rfl, rfl,
        by simp [is_start_included, Kind.startSpecified, Kind.startIncluded],
        by simp [is_end_included, Kind.endSpecified, Kind.endIncluded],
        by simp [is_empty],
        fun t => by simp [contains_ts, is_empty, is_timeline, leftOkB, rightOkB,
          is_start_included, is_end_included, Kind.startSpecified,
          Kind.endSpecified, Kind.startIncluded, Kind.endIncluded]⟩
    · -- open-closed
      exact ⟨⟨.openClosed, some a, some b⟩,
        by simp [from_boundaries, openclosedE, not_le.mpr hab],
        by simp [is_valid, hab], rfl, rfl,
        by simp [is_start_included, Kind.startSpecified, Kind.startIncluded],
        by simp [is_end_included, Kind.endSpecified, Kind.endIncluded],
        by simp [is_empty],
        fun t => by simp [contains_ts, is_empty, is_timeline, leftOkB, rightOkB,
          is_start_included, is_end_included, Kind.startSpecified,
          Kind.endSpecified, Kind.startIncluded, Kind.endIncluded]⟩
    · -- closed-open
      exact ⟨⟨.closedOpen, some a, some b⟩,
        by simp [from_boundaries, closedopenE, not_le.mpr hab],
        by simp [is_valid, hab], rfl, rfl,
        by simp [is_start_included, Kind.startSpecified, Kind.startIncluded],
        by simp [is_end_included, Kind.endSpecified, Kind.endIncluded],
        by simp [is_empty],
        fun t => by simp [contains_ts, is_empty, is_timeline, leftOkB, rightOkB,
          is_start_included, is_end_included, Kind.startSpecified,
          Kind.endSpecified, Kind.startIncluded, Kind.endIncluded]⟩
    · -- closed, possibly a point
      rcases eq_or_lt_of_le hab with heq | hlt
      · subst heq
        exact ⟨point a, by simp [from_boundaries, point], by simp [is_valid, point], rfl, rfl,
          by simp [point, is_start_included, Kind.startSpecified, Kind.startIncluded],
          by simp [point, is_end_included, Kind.endSpecified, Kind.endIncluded],
          by simp [point, is_empty],
          fun t => by simp [point, contains_ts, is_empty, is_timeline, leftOkB, rightOkB,
            is_start_included, is_end_included, Kind.startSpecified,
            Kind.endSpecified, Kind.startIncluded, Kind.endIncluded]⟩
      · exact ⟨⟨.closed, some a, some b⟩,
          by simp [from_boundaries, closedE, ne_of_lt hlt, not_le.mpr hlt, hab],
          by simp [is_valid, hlt], rfl, rfl,
          by simp [is_start_included, Kind.startSpecified, Kind.startIncluded],
          by simp [is_end_included, Kind.endSpecified, Kind.endIncluded],
          by simp [is_empty],
          fun t => by simp [contains_ts, is_empty, is_timeline, leftOkB, rightOkB,
            is_start_included, is_end_included, Kind.startSpecified,
            Kind.endSpecified, Kind.startIncluded, Kind.endIncluded]⟩

theorem start_eq_some {i : TimeInterval} (h : i.is_valid = true)
    (hs : i.is_start_specified = true) :
    ∃ x bi, i.start = some x ∧ i.is_start_included = some bi := by
  have h1 := start_isSome_of_valid h
  have h2 := isi_isSome i
  rw [hs] at h1 h2
  obtain ⟨x, hx⟩ := Option.isSome_iff_exists.mp h1
  obtain ⟨bi, hbi⟩ := Option.isSome_iff_exists.mp h2
  exact ⟨x, bi, hx, hbi⟩

theorem start_eq_none {i : TimeInterval} (h : i.is_valid = true)
    (hs : i.is_start_specified = false) :
    i.start = none ∧ i.is_start_included = none := by
  have h1 := start_isSome_of_valid h
  have h2 := isi_isSome i
  rw [hs] at h1 h2
  exact ⟨Option.not_isSome_iff_eq_none.mp (by simp [h1]),
    Option.not_isSome_iff_eq_none.mp (by simp [h2])⟩

theorem endp_eq_some {i : TimeInterval} (h : i.is_valid = true)
    (hs : i.is_end_specified = true) :
    ∃ x bi, i.endp = some x ∧ i.is_end_included = some bi := by
  have h1 := endp_isSome_of_valid h
  have h2 := iei_isSome i
  rw [hs] at h1 h2
  obtain ⟨x, hx⟩ := Option.isSome_iff_exists.mp h1
  obtain ⟨bi, hbi⟩ := Option.isSome_iff_exists.mp h2
  exact ⟨x, bi, hx, hbi⟩

theorem endp_eq_none {i : TimeInterval} (h : i.is_valid = true)
    (hs : i.is_end_specified = false) :
    i.endp = none ∧ i.is_end_included = none := by
  have h1 := endp_isSome_of_valid h
  have h2 := iei_isSome i
  rw [hs] at h1 h2
  exact ⟨Option.not_isSome_iff_eq_none.mp (by simp [h1]),
    Option.not_isSome_iff_eq_none.mp (by simp [h2])⟩

theorem leftOkB_combine (as bs : Ts) (ai bi : Bool) (t : Ts) :
    leftOkB (some (max as bs))
      (some (if as < bs then bi else if as > bs then ai else ai && bi)) t =
    (leftOkB (some as) (some ai) t && leftOkB (some bs) (some bi) t) := by
  rcases lt_trichotomy as bs with h | h | h
  · rw [max_eq_right h.le, if_pos h]
    cases ai <;> cases bi <;>
      (rw [Bool.eq_iff_iff]; simp [leftOkB]) <;>
      first
        | (rintro ⟨h1, h2⟩; linarith)
        | (intro hh; exact ⟨by linarith, by linarith⟩)
        | (intro hh; linarith)
        | (constructor <;> first
            | (rintro ⟨h1, h2⟩; linarith)
            | (intro hh; exact ⟨by linarith, by linarith⟩)
            | (intro hh; linarith))
  · subst h
    rw [max_self, if_neg (lt_irrefl as), if_neg (lt_irrefl as)]
    cases ai <;> cases bi <;>
      (rw [Bool.eq_iff_iff]; simp [leftOkB]) <;>
      first
        | (rintro ⟨h1, h2⟩; linarith)
        | (intro hh; exact ⟨by linarith, by linarith⟩)
        | (intro hh; linarith)
        | (constructor <;> first
            | (rintro ⟨h1, h2⟩; linarith)
            | (intro hh; exact ⟨by linarith, by linarith⟩)
            | (intro hh; linarith))
  · rw [max_eq_left h.le, if_neg (not_lt.mpr h.le), if_pos h]
    cases ai <;> cases bi <;>
      (rw [Bool.eq_iff_iff]; simp [leftOkB]) <;>
      first
        | (rintro ⟨h1, h2⟩; linarith)
        | (intro hh; exact ⟨by linarith, by linarith⟩)
        | (intro hh; linarith)
        | (constructor <;> first
            | (rintro ⟨h1, h2⟩; linarith)
            | (intro hh; exact ⟨by linarith, by linarith⟩)
            | (intro hh; linarith))

theorem rightOkB_combine (ae be : Ts) (ai bi : Bool) (t : Ts) :
    rightOkB (some (min ae be))
      (some (if ae < be then ai else if ae > be then bi else ai && bi)) t =
    (rightOkB (some ae) (some ai) t && rightOkB (some be) (some bi) t) := by
  rcases lt_trichotomy ae be with h | h | h
  · rw [min_eq_left h.le, if_pos h]
    cases ai <;> cases bi <;>
      (rw [Bool.eq_iff_iff]; simp [rightOkB]) <;>
      first
        | (rintro ⟨h1, h2⟩; linarith)
        | (intro hh; exact ⟨by linarith, by linarith⟩)
        | (intro hh; linarith)
        | (constructor <;> first
            | (rintro ⟨h1, h2⟩; linarith)
            | (intro hh; exact ⟨by linarith, by linarith⟩)
            | (intro hh; linarith))
  · subst h
    rw [min_self, if_neg (lt_irrefl ae), if_neg (lt_irrefl ae)]
    cases ai <;> cases bi <;>
      (rw [Bool.eq_iff_iff]; simp [rightOkB]) <;>
      first
        | (rintro ⟨h1, h2⟩; linarith)
        | (intro hh; exact ⟨by linarith, by linarith⟩)
        | (intro hh; linarith)
        | (constructor <;> first
            | (rintro ⟨h1, h2⟩; linarith)
            | (intro hh; exact ⟨by linarith, by linarith⟩)
            | (intro hh; linarith))
  · rw [min_eq_right h.le, if_neg (not_lt.mpr h.le), if_pos h]
    cases ai <;> cases bi <;>
      (rw [Bool.eq_iff_iff]; simp [rightOkB]) <;>
      first
        | (rintro ⟨h1, h2⟩; linarith)
        | (intro hh; exact ⟨by linarith, by linarith⟩)
        | (intro hh; linarith)
        | (constructor <;> first
            | (rintro ⟨h1, h2⟩; linarith)
            | (intro hh; exact ⟨by linarith, by linarith⟩)
            | (intro hh; linarith))

theorem interStart_spec {a b : TimeInterval} (ha : a.is_valid = true)
    (hb : b.is_valid = true) :
    ∃ s si, interStart a b = .ok (s, si) ∧ si.isSome = s.isSome ∧
      (∀ t, leftOkB s si t = (leftOkB a.start a.is_start_included t &&
        leftOkB b.start b.is_start_included t)) := by
  by_cases hsa : a.is_start_specified = true <;>
    by_cases hsb : b.is_start_specified = true
  · obtain ⟨as, ai, has, hai⟩ := start_eq_some ha hsa
    obtain ⟨bs, bi, hbs, hbi⟩ := start_eq_some hb hsb
    refine ⟨some (max as bs),
      some (if as < bs then bi else if as > bs then ai else ai && bi),
      ?_, by simp, ?_⟩
    · simp [interStart, hsa, hsb, has, hbs, hai, hbi]
    · intro t
      rw [has, hai, hbs, hbi]
      exact leftOkB_combine as bs ai bi t
  · obtain ⟨as, ai, has, hai⟩ := start_eq_some ha hsa
    obtain ⟨hbs, hbi⟩ := start_eq_none hb (by simpa using hsb)
    refine ⟨some as, some ai, ?_, by simp, ?_⟩
    · simp [interStart, hsa, hsb, has, hbs, hai, hbi, Option.orElse]
    · intro t
      rw [has, hai, hbs, hbi]
      simp [leftOkB]
  · obtain ⟨has, hai⟩ := start_eq_none ha (by simpa using hsa)
    obtain ⟨bs, bi, hbs, hbi⟩ := start_eq_some hb hsb
    refine ⟨some bs, some bi, ?_, by simp, ?_⟩
    · simp [interStart, hsa, hsb, has, hbs, hai, hbi, Option.orElse]
    · intro t
      rw [has, hai, hbs, hbi]
      simp [leftOkB]
  · obtain ⟨has, hai⟩ := start_eq_none ha (by simpa using hsa)
    obtain ⟨hbs, hbi⟩ := start_eq_none hb (by simpa using hsb)
    refine ⟨none, none, ?_, by simp, ?_⟩
    · simp [interStart, hsa, hsb]
    · intro t
      rw [has, hai, hbs, hbi]
      simp [leftOkB]

theorem interEnd_spec {a b : TimeInterval} (ha : a.is_valid = true)
    (hb : b.is_valid = true) :
    ∃ e ei, interEnd a b = .ok (e, ei) ∧ ei.isSome = e.isSome ∧
      (∀ t, rightOkB e ei t = (rightOkB a.endp a.is_end_included t &&
        rightOkB b.endp b.is_end_included t)) := by
  by_cases hsa : a.is_end_specified = true <;>
    by_cases hsb : b.is_end_specified = true
  · obtain ⟨ae, ai, hae, hai⟩ := endp_eq_some ha hsa
    obtain ⟨be, bi, hbe, hbi⟩ := endp_eq_some hb hsb
    refine ⟨some (min ae be),
      some (if ae < be then ai else if ae > be then bi else ai && bi),
      ?_, by simp, ?_⟩
    · simp [interEnd, hsa, hsb, hae, hbe, hai, hbi]
    · intro t
      rw [hae, hai, hbe, hbi]
      exact rightOkB_combine ae be ai bi t
  · obtain ⟨ae, ai, hae, hai⟩ := endp_eq_some ha hsa
    obtain ⟨hbe, hbi⟩ := endp_eq_none hb (by simpa using hsb)
    refine ⟨some ae, some ai, ?_, by simp, ?_⟩
    · simp [interEnd, hsa, hsb, hae, hbe, hai, hbi, Option.orElse]
    · intro t
      rw [hae, hai, hbe, hbi]
      simp [rightOkB]
  · obtain ⟨hae, hai⟩ := endp_eq_none ha (by simpa using hsa)
    obtain ⟨be, bi, hbe, hbi⟩ := endp_eq_some hb hsb
    refine ⟨some be, some bi, ?_, by simp, ?_⟩
    · simp [interEnd, hsa, hsb, hae, hbe, hai, hbi, Option.orElse]
    · intro t
      rw [hae, hai, hbe, hbi]
      simp [rightOkB]
  · obtain ⟨hae, hai⟩ := endp_eq_none ha (by simpa using hsa)
    obtain ⟨hbe, hbi⟩ := endp_eq_none hb (by simpa using hsb)
    refine ⟨none, none, ?_, by simp, ?_⟩
    · simp [interEnd, hsa, hsb]
    · intro t
      rw [hae, hai, hbe, hbi]
      simp [rightOkB]

theorem contains_ts_of_empty {i : TimeInterval} (h : i.is_empty = true) (t : Ts) :
    i.contains_ts t = false := by
  simp [contains_ts, h]

theorem contains_ts_of_timeline {i : TimeInterval} (h : i.is_timeline = true) (t : Ts) :
    i.contains_ts t = true := by
  simp only [is_timeline, beq_iff_eq] at h
  simp [contains_ts, is_empty, is_timeline, h]

theorem leftRight_never {sv ev : Ts} {si ei : Option Bool} (t : Ts)
    (h : if si = some true ∧ ei = some true then ev < sv else ev ≤ sv) :
    (leftOkB (some sv) si t && rightOkB (some ev) ei t) = false := by
  by_cases hsi : si = some true <;> by_cases hei : ei = some true <;>
    simp [hsi, hei] at h ⊢ <;>
    simp [leftOkB, rightOkB, hsi, hei] <;>
    intro h1 <;> linarith

theorem inter_ok {a b : TimeInterval} (ha : a.is_valid = true) (hb : b.is_valid = true) :
    ∃ c, inter a b = .ok c ∧ c.is_valid = true ∧
      ∀ t, c.contains_ts t = (a.contains_ts t && b.contains_ts t) := by
  by_cases hea : a.is_empty = true
  · refine ⟨emptyI, by simp [inter, hea], by decide, fun t => ?_⟩
    rw [contains_ts_of_empty (by decide : emptyI.is_empty = true),
      contains_ts_of_empty hea]
    simp
  by_cases heb : b.is_empty = true
  · refine ⟨emptyI, by simp [inter, hea, heb], by decide, fun t => ?_⟩
    rw [contains_ts_of_empty (by decide : emptyI.is_empty = true),
      contains_ts_of_empty heb]
    simp
  by_cases hta : a.is_timeline = true
  · refine ⟨b, by simp [inter, hea, heb, hta], hb, fun t => ?_⟩
    rw [contains_ts_of_timeline hta]
    simp
  by_cases htb : b.is_timeline = true
  · refine ⟨a, by simp [inter, hea, heb, hta, htb], ha, fun t => ?_⟩
    rw [contains_ts_of_timeline htb]
    simp [Bool.and_comm]
  obtain ⟨s, si, hs, hsi, hsem⟩ := interStart_spec ha hb
  obtain ⟨e, ei, he, hei, hesem⟩ := interEnd_spec ha hb
  have hall : ∀ t, (leftOkB s si t && rightOkB e ei t) =
      (a.contains_ts t && b.contains_ts t) := by
    intro t
    rw [contains_ts_eq ha (by simpa using hea) t,
      contains_ts_eq hb (by simpa using heb) t, hsem, hesem]
    simp only [Bool.and_assoc, Bool.and_left_comm, Bool.and_comm]
  rcases s with _ | sv
  · -- no left bound : straight to from_boundaries
    obtain ⟨c, hfb, hcv, _, _, _, _, _, hcsem⟩ :=
      from_boundaries_spec none e si ei (by simpa using hsi) hei
        (fun x y hx _ => by exact absurd hx (by simp))
    refine ⟨c, ?_, hcv, fun t => by rw [hcsem, hall]⟩
    rcases e with _ | ev <;>
      simp [inter, hea, heb, hta, htb, hs, he, hfb, Bind.bind, Except.bind]
  rcases e with _ | ev
  · -- left bound, no right bound
    obtain ⟨c, hfb, hcv, _, _, _, _, _, hcsem⟩ :=
      from_boundaries_spec (some sv) none si ei hsi (by simpa using hei)
        (fun x y _ hy => by exact absurd hy (by simp))
    refine ⟨c, ?_, hcv, fun t => by rw [hcsem, hall]⟩
    simp [inter, hea, heb, hta, htb, hs, he, hfb, Bind.bind, Except.bind]
  -- both bounds present
  by_cases hflag : (si == some true && ei == some true) = true
  · have hflag' : si = some true ∧ ei = some true := by
      simp only [Bool.and_eq_true, beq_iff_eq] at hflag
      exact hflag
    by_cases hgt : sv > ev
    · refine ⟨emptyI, ?_, by decide, fun t => ?_⟩
      · simp [inter, hea, heb, hta, htb, hs, he, Bind.bind, Except.bind, hflag, hgt]
      · rw [contains_ts_of_empty (by decide : emptyI.is_empty = true), ← hall,
          leftRight_never t (by simp [hflag'.1, hflag'.2, hgt])]
    · obtain ⟨c, hfb, hcv, _, _, _, _, _, hcsem⟩ :=
        from_boundaries_spec (some sv) (some ev) si ei hsi hei
          (fun x y hx hy => by
            rw [Option.some.injEq] at hx hy
            subst hx; subst hy
            simp [hflag'.1, hflag'.2]
            linarith)
      refine ⟨c, ?_, hcv, fun t => by rw [hcsem, hall]⟩
      simp [inter, hea, heb, hta, htb, hs, he, Bind.bind, Except.bind, hflag, hgt, hfb]
  · by_cases hge : sv ≥ ev
    · refine ⟨emptyI, ?_, by decide, fun t => ?_⟩
      · simp [inter, hea, heb, hta, htb, hs, he, Bind.bind, Except.bind, hflag, hge]
      · rw [contains_ts_of_empty (by decide : emptyI.is_empty = true), ← hall,
          leftRight_never t ?_]
        rw [if_neg]
        · exact hge
        · intro hcon
          exact hflag (by simp [hcon.1, hcon.2])
    · obtain ⟨c, hfb, hcv, _, _, _, _, _, hcsem⟩ :=
        from_boundaries_spec (some sv) (some ev) si ei hsi hei
          (fun x y hx hy => by
            rw [Option.some.injEq] at hx hy
            subst hx; subst hy
            rw [if_neg]
            · linarith
            · intro hcon
              exact hflag (by simp [hcon.1, hcon.2]))
      refine ⟨c, ?_, hcv, fun t => by rw [hcsem, hall]⟩
      simp [inter, hea, heb, hta, htb, hs, he, Bind.bind, Except.bind, hflag, hge, hfb]

theorem leftOkB_of_lt {sv : Ts} (si : Option Bool) {t : Ts} (h : sv < t) :
    leftOkB (some sv) si t = true := by
  by_cases hb : (si == some true) = true <;> simp [leftOkB, hb] <;> linarith

theorem rightOkB_of_lt {ev : Ts} (ei : Option Bool) {t : Ts} (h : t < ev) :
    rightOkB (some ev) ei t = true := by
  by_cases hb : (ei == some true) = true <;> simp [rightOkB, hb] <;> linarith

theorem ge_of_leftOkB {sv : Ts} {si : Option Bool} {t : Ts}
    (h : leftOkB (some sv) si t = true) : sv ≤ t := by
  by_cases hb : (si == some true) = true <;> simp [leftOkB, hb] at h <;> linarith

theorem gt_of_leftOkB_excl {sv : Ts} {si : Option Bool} {t : Ts}
    (h : leftOkB (some sv) si t = true) (hx : si ≠ some true) : sv < t := by
  have hb : (si == some true) = false := by
    simpa using hx
  simp [leftOkB, hb] at h
  exact h

theorem le_of_rightOkB {ev : Ts} {ei : Option Bool} {t : Ts}
    (h : rightOkB (some ev) ei t = true) : t ≤ ev := by
  by_cases hb : (ei == some true) = true <;> simp [rightOkB, hb] at h <;> linarith

theorem lt_of_rightOkB_excl {ev : Ts} {ei : Option Bool} {t : Ts}
    (h : rightOkB (some ev) ei t = true) (hx : ei ≠ some true) : t < ev := by
  have hb : (ei == some true) = false := by
    simpa using hx
  simp [rightOkB, hb] at h
  exact h

theorem exists_contains_ts {i : TimeInterval} (h : i.is_valid = true)
    (hne : i.is_empty = false) : ∃ t, i.contains_ts t = true := by
  rcases hst : i.start with _ | sv <;> rcases hen : i.endp with _ | ev
  · exact ⟨0, by rw [contains_ts_eq h hne, hst, hen]; simp [leftOkB, rightOkB]⟩
  · refine ⟨ev - 1, ?_⟩
    rw [contains_ts_eq h hne, hst, hen]
    simp [leftOkB, rightOkB_of_lt _ (by linarith : ev - 1 < ev)]
  · refine ⟨sv + 1, ?_⟩
    rw [contains_ts_eq h hne, hst, hen]
    simp [rightOkB, leftOkB_of_lt _ (by linarith : sv < sv + 1)]
  · have hle := le_of_valid h hst hen
    rcases eq_or_lt_of_le hle with heq | hlt
    · subst heq
      have hk := point_kind_of_valid_eq h hst hen rfl
      refine ⟨sv, ?_⟩
      rw [contains_ts_eq h hne, hst, hen]
      simp [leftOkB, rightOkB, is_start_included, is_end_included, hk,
        Kind.startSpecified, Kind.endSpecified, Kind.startIncluded, Kind.endIncluded]
    · refine ⟨(sv + ev) / 2, ?_⟩
      rw [contains_ts_eq h hne, hst, hen]
      simp [leftOkB_of_lt _ (by linarith : sv < (sv + ev) / 2),
        rightOkB_of_lt _ (by linarith : (sv + ev) / 2 < ev)]

theorem nonempty_of_dLd {a b : TimeInterval}
    (h : a.is_left_of_disconnectedly b = true) :
    a.is_empty = false ∧ b.is_empty = false := by
  by_cases hea : a.is_empty = true <;> by_cases heb : b.is_empty = true <;>
    simp_all [is_left_of_disconnectedly]

theorem endpoint_contains_of_incl {a : TimeInterval} (ha : a.is_valid = true)
    {ev : Ts} (he : a.endp = some ev) (hi : a.is_end_included = some true) :
    a.contains_ts ev = true := by
  have hne : a.is_empty = false := by
    obtain ⟨k, s, e⟩ := a
    cases k <;> simp_all [is_valid, is_empty]
  rw [contains_ts_eq ha hne, he]
  have hro : rightOkB (some ev) a.is_end_included ev = true := by
    simp [rightOkB, hi]
  rw [hro, Bool.and_true]
  rcases hst : a.start with _ | sv
  · simp [leftOkB]
  · have hle := le_of_valid ha hst he
    rcases eq_or_lt_of_le hle with heq | hlt
    · subst heq
      have hk := point_kind_of_valid_eq ha hst he rfl
      simp [leftOkB, is_start_included, hk, Kind.startSpecified, Kind.startIncluded]
    · exact leftOkB_of_lt _ hlt

theorem startpoint_contains_of_incl {a : TimeInterval} (ha : a.is_valid = true)
    {sv : Ts} (hs : a.start = some sv) (hi : a.is_start_included = some true) :
    a.contains_ts sv = true := by
  have hne : a.is_empty = false := by
    obtain ⟨k, s, e⟩ := a
    cases k <;> simp_all [is_valid, is_empty]
  rw [contains_ts_eq ha hne, hs]
  have hlo : leftOkB (some sv) a.is_start_included sv = true := by
    simp [leftOkB, hi]
  rw [hlo, Bool.true_and]
  rcases hen : a.endp with _ | ev
  · simp [rightOkB]
  · have hle := le_of_valid ha hs hen
    rcases eq_or_lt_of_le hle with heq | hlt
    · subst heq
      have hk := point_kind_of_valid_eq ha hs hen rfl
      simp [rightOkB, is_end_included, hk, Kind.endSpecified, Kind.endIncluded]
    · exact rightOkB_of_lt _ hlt

/-- All points of a valid interval lie below `g` only if the interval has a
finite right bound, at most `g` (strictly below `g` when included). -/
theorem endp_facts_of_bounded_above {a : TimeInterval} (ha : a.is_valid = true)
    (hne : a.is_empty = false) {g : Ts}
    (hg : ∀ t, a.contains_ts t = true → t < g) :
    ∃ ev, a.endp = some ev ∧ ev ≤ g ∧ (a.is_end_included = some true → ev < g) := by
  rcases hen : a.endp with _ | ev
  · exfalso
    rcases hst : a.start with _ | sv
    · have := hg g (by rw [contains_ts_eq ha hne, hst, hen]; simp [leftOkB, rightOkB])
      exact lt_irrefl g this
    · have hmem : a.contains_ts (max sv g + 1) = true := by
        rw [contains_ts_eq ha hne, hst, hen]
        simp [rightOkB, leftOkB_of_lt _ (by
          have := le_max_left sv g
          linarith : sv < max sv g + 1)]
      have := hg _ hmem
      have := le_max_right sv g
      linarith
  · refine ⟨ev, rfl, ?_, ?_⟩
    · by_contra hcon
      push_neg at hcon
      have hinc : a.is_end_included = some true ∨ a.is_end_included = some false := by
        have h1 := endp_isSome_of_valid ha
        have h2 := iei_isSome a
        rw [hen] at h1
        rw [← h1] at h2
        rcases hii : a.is_end_included with _ | bb
        · rw [hii] at h2; simp at h2
        · cases bb
          · exact Or.inr rfl
          · exact Or.inl rfl
      rcases hinc with hinc | hinc
      · have := hg ev (endpoint_contains_of_incl ha hen hinc)
        linarith
      · rcases hst : a.start with _ | sv
        · have hmem : a.contains_ts ((g + ev) / 2) = true := by
            rw [contains_ts_eq ha hne, hst, hen]
            simp [leftOkB, rightOkB_of_lt _ (by linarith : (g + ev) / 2 < ev)]
          have := hg _ hmem
          linarith
        · have hle := le_of_valid ha hst hen
          rcases eq_or_lt_of_le hle with heq | hlt
          · subst heq
            have hk := point_kind_of_valid_eq ha hst hen rfl
            simp [is_end_included, hk, Kind.endSpecified, Kind.endIncluded] at hinc
          · have hmem : a.contains_ts ((max sv g + ev) / 2) = true := by
              rw [contains_ts_eq ha hne, hst, hen]
              have hmax : max sv g < ev := max_lt hlt hcon
              have h1 : sv < (max sv g + ev) / 2 := by
                have := le_max_left sv g
                linarith
              have h2 : (max sv g + ev) / 2 < ev := by linarith
              simp [leftOkB_of_lt _ h1, rightOkB_of_lt _ h2]
            have := hg _ hmem
            have := le_max_right sv g
            linarith
    · intro hinc
      have := hg ev (endpoint_contains_of_incl ha hen hinc)
      exact this

/-- Mirror image of `endp_facts_of_bounded_above`. -/
theorem start_facts_of_bounded_below {b : TimeInterval} (hb : b.is_valid = true)
    (hne : b.is_empty = false) {g : Ts}
    (hg : ∀ t, b.contains_ts t = true → g < t) :
    ∃ sv, b.start = some sv ∧ g ≤ sv ∧ (b.is_start_included = some true → g < sv) := by
  rcases hst : b.start with _ | sv
  · exfalso
    rcases hen : b.endp with _ | ev
    · have := hg g (by rw [contains_ts_eq hb hne, hst, hen]; simp [leftOkB, rightOkB])
      exact lt_irrefl g this
    · have hmem : b.contains_ts (min ev g - 1) = true := by
        rw [contains_ts_eq hb hne, hst, hen]
        simp [leftOkB, rightOkB_of_lt _ (by
          have := min_le_left ev g
          linarith : min ev g - 1 < ev)]
      have := hg _ hmem
      have := min_le_right ev g
      linarith
  · refine ⟨sv, rfl, ?_, ?_⟩
    · by_contra hcon
      push_neg at hcon
      have hinc : b.is_start_included = some true ∨ b.is_start_included = some false := by
        have h1 := start_isSome_of_valid hb
        have h2 := isi_isSome b
        rw [hst] at h1
        rw [← h1] at h2
        rcases hii : b.is_start_included with _ | bb
        · rw [hii] at h2; simp at h2
        · cases bb
          · exact Or.inr rfl
          · exact Or.inl rfl
      rcases hinc with hinc | hinc
      · have := hg sv (startpoint_contains_of_incl hb hst hinc)
        linarith
      · rcases hen : b.endp with _ | ev
        · have hmem : b.contains_ts ((sv + g) / 2) = true := by
            rw [contains_ts_eq hb hne, hst, hen]
            simp [rightOkB, leftOkB_of_lt _ (by linarith : sv < (sv + g) / 2)]
          have := hg _ hmem
          linarith
        · have hle := le_of_valid hb hst hen
          rcases eq_or_lt_of_le hle with heq | hlt
          · subst heq
            have hk := point_kind_of_valid_eq hb hst hen rfl
            simp [is_start_included, hk, Kind.startSpecified, Kind.startIncluded] at hinc
          · have hmem : b.contains_ts ((sv + min ev g) / 2) = true := by
              rw [contains_ts_eq hb hne, hst, hen]
              have hmin : sv < min ev g := lt_min hlt hcon
              have h1 : sv < (sv + min ev g) / 2 := by linarith
              have h2 : (sv + min ev g) / 2 < ev := by
                have := min_le_left ev g
                linarith
              simp [leftOkB_of_lt _ h1, rightOkB_of_lt _ h2]
            have := hg _ hmem
            have := min_le_right ev g
            linarith
    · intro hinc
      have := hg sv (startpoint_contains_of_incl hb hst hinc)
      exact this

theorem dLd_shape {a b : TimeInterval} (h : a.is_left_of_disconnectedly b = true) :
    a.is_empty = false ∧ b.is_empty = false ∧
    ∃ ev sv, a.endp = some ev ∧ b.start = some sv ∧
      (ev < sv ∨ (ev = sv ∧ a.is_end_included = some false ∧
        b.is_start_included = some false)) := by
  by_cases hea : a.is_empty = true
  · simp [is_left_of_disconnectedly, hea] at h
  by_cases heb : b.is_empty = true
  · simp [is_left_of_disconnectedly, heb] at h
  refine ⟨by simpa using hea, by simpa using heb, ?_⟩
  unfold is_left_of_disconnectedly at h
  rw [if_neg (by simp [by simpa using hea, by simpa using heb] : ¬(a.is_empty || b.is_empty) = true)] at h
  rcases hen : a.endp with _ | ev <;> rw [hen] at h
  · simp at h
  rcases hst : b.start with _ | sv <;> rw [hst] at h
  · simp at h
  refine ⟨ev, sv, rfl, rfl, ?_⟩
  by_cases hlt : ev < sv
  · exact Or.inl hlt
  · by_cases heq : ev = sv
    · subst heq
      simp [hlt] at h
      exact Or.inr ⟨rfl, h.1, h.2⟩
    · exfalso
      simp [hlt, heq] at h

theorem dLd_intro {a b : TimeInterval} (hea : a.is_empty = false)
    (heb : b.is_empty = false) {ev sv : Ts}
    (hen : a.endp = some ev) (hst : b.start = some sv)
    (hc : ev < sv ∨ (ev = sv ∧ a.is_end_included = some false ∧
      b.is_start_included = some false)) :
    a.is_left_of_disconnectedly b = true := by
  unfold is_left_of_disconnectedly
  rw [if_neg (by simp [hea, heb] : ¬(a.is_empty || b.is_empty) = true), hen, hst]
  rcases hc with hlt | ⟨heq, hfa, hfb⟩
  · simp [hlt]
  · subst heq
    simp [hfa, hfb]

theorem sep_of_dLd {a b : TimeInterval} (ha : a.is_valid = true)
    (hb : b.is_valid = true) (h : a.is_left_of_disconnectedly b = true) :
    ∃ g : Ts, (∀ t, a.contains_ts t = true → t < g) ∧
      (∀ t, b.contains_ts t = true → g < t) := by
  obtain ⟨hea, heb, ev, sv, hen, hst, hc⟩ := dLd_shape h
  rcases hc with hlt | ⟨heq, hfa, hfb⟩
  · refine ⟨(ev + sv) / 2, fun t ht => ?_, fun t ht => ?_⟩
    · rw [contains_ts_eq ha hea, hen, Bool.and_eq_true] at ht
      have := le_of_rightOkB ht.2
      linarith
    · rw [contains_ts_eq hb heb, hst, Bool.and_eq_true] at ht
      have := ge_of_leftOkB ht.1
      linarith
  · subst heq
    refine ⟨ev, fun t ht => ?_, fun t ht => ?_⟩
    · rw [contains_ts_eq ha hea, hen, Bool.and_eq_true] at ht
      exact lt_of_rightOkB_excl ht.2 (by simp [hfa])
    · rw [contains_ts_eq hb heb, hst, Bool.and_eq_true] at ht
      exact gt_of_leftOkB_excl ht.1 (by simp [hfb])

theorem dLd_of_sep {a b : TimeInterval} (ha : a.is_valid = true)
    (hb : b.is_valid = true) (hea : a.is_empty = false) (heb : b.is_empty = false)
    {g : Ts} (hga : ∀ t, a.contains_ts t = true → t < g)
    (hgb : ∀ t, b.contains_ts t = true → g < t) :
    a.is_left_of_disconnectedly b = true := by
  obtain ⟨ev, hen, heg, hinca⟩ := endp_facts_of_bounded_above ha hea hga
  obtain ⟨sv, hst, hgs, hincb⟩ := start_facts_of_bounded_below hb heb hgb
  apply dLd_intro hea heb hen hst
  have hle : ev ≤ sv := le_trans heg hgs
  rcases eq_or_lt_of_le hle with heq | hlt
  · subst heq
    right
    refine ⟨rfl, ?_, ?_⟩
    · have h1 := endp_isSome_of_valid ha
      have h2 := iei_isSome a
      rw [hen] at h1
      rw [← h1] at h2
      obtain ⟨bb, hbb⟩ := Option.isSome_iff_exists.mp h2
      cases bb
      · exact hbb
      · have := hinca hbb
        linarith
    · have h1 := start_isSome_of_valid hb
      have h2 := isi_isSome b
      rw [hst] at h1
      rw [← h1] at h2
      obtain ⟨bb, hbb⟩ := Option.isSome_iff_exists.mp h2
      cases bb
      · exact hbb
      · have := hincb hbb
        linarith
  · exact Or.inl hlt

theorem dLd_trans {a b c : TimeInterval} (ha : a.is_valid = true)
    (hb : b.is_valid = true) (hc : c.is_valid = true)
    (hab : a.is_left_of_disconnectedly b = true)
    (hbc : b.is_left_of_disconnectedly c = true) :
    a.is_left_of_disconnectedly c = true := by
  obtain ⟨g1, hg1a, hg1b⟩ := sep_of_dLd ha hb hab
  obtain ⟨g2, hg2b, hg2c⟩ := sep_of_dLd hb hc hbc
  obtain ⟨hea, heb⟩ := nonempty_of_dLd hab
  obtain ⟨_, hec⟩ := nonempty_of_dLd hbc
  obtain ⟨t, ht⟩ := exists_contains_ts hb heb
  have h12 : g1 < g2 := lt_trans (hg1b t ht) (hg2b t ht)
  exact dLd_of_sep ha hc hea hec (fun u hu => lt_trans (hg1a u hu) h12) hg2c

theorem dLd_mono {x y c d : TimeInterval} (hx : x.is_valid = true)
    (hy : y.is_valid = true) (hc : c.is_valid = true) (hd : d.is_valid = true)
    (hcne : c.is_empty = false) (hdne : d.is_empty = false)
    (hsc : ∀ t, c.contains_ts t = true → x.contains_ts t = true)
    (hsd : ∀ t, d.contains_ts t = true → y.contains_ts t = true)
    (h : x.is_left_of_disconnectedly y = true) :
    c.is_left_of_disconnectedly d = true := by
  obtain ⟨g, hga, hgb⟩ := sep_of_dLd hx hy h
  exact dLd_of_sep hc hd hcne hdne (fun t ht => hga t (hsc t ht))
    (fun t ht => hgb t (hsd t ht))

theorem is_left_of_of_dLd {a b : TimeInterval}
    (h : a.is_left_of_disconnectedly b = true) : a.is_left_of b = true := by
  obtain ⟨hea, heb, ev, sv, hen, hst, hc⟩ := dLd_shape h
  unfold is_left_of
  rw [if_neg (by simp [hea, heb] : ¬(a.is_empty || b.is_empty) = true), hen, hst]
  rcases hc with hlt | ⟨heq, hfa, hfb⟩
  · simp [hlt]
  · subst heq
    simp [hfa, hfb]

theorem touches_false_of_dLd {a b : TimeInterval}
    (h : a.is_left_of_disconnectedly b = true) : a.touches b = false := by
  simp [touches, h]

theorem leftOkB_false_of_lt {sv : Ts} (si : Option Bool) {t : Ts} (h : t < sv) :
    leftOkB (some sv) si t = false := by
  by_cases hb : (si == some true) = true <;> simp [leftOkB, hb] <;> linarith

theorem rightOkB_false_of_lt {ev : Ts} (ei : Option Bool) {t : Ts} (h : ev < t) :
    rightOkB (some ev) ei t = false := by
  by_cases hb : (ei == some true) = true <;> simp [rightOkB, hb] <;> linarith

theorem contains_ts_false_of_lt_start {i : TimeInterval} (hi : i.is_valid = true)
    {sv : Ts} (hs : i.start = some sv) {t : Ts} (ht : t < sv) :
    i.contains_ts t = false := by
  have hne : i.is_empty = false := by
    obtain ⟨k, s, e⟩ := i
    cases k <;> simp_all [is_valid, is_empty]
  rw [contains_ts_eq hi hne, hs, leftOkB_false_of_lt _ ht, Bool.false_and]

theorem contains_ts_false_of_gt_endp {i : TimeInterval} (hi : i.is_valid = true)
    {ev : Ts} (he : i.endp = some ev) {t : Ts} (ht : ev < t) :
    i.contains_ts t = false := by
  have hne : i.is_empty = false := by
    obtain ⟨k, s, e⟩ := i
    cases k <;> simp_all [is_valid, is_empty]
  rw [contains_ts_eq hi hne, he, rightOkB_false_of_lt _ ht, Bool.and_false]

/-- A valid non-empty interval whose start is `none` or below `x` has a
member below `x`. -/
theorem exists_mem_lt {i : TimeInterval} (hi : i.is_valid = true)
    (hne : i.is_empty = false) {x : Ts}
    (hx : i.start = none ∨ ∃ sv, i.start = some sv ∧ sv < x) :
    ∃ t, i.contains_ts t = true ∧ t < x := by
  rcases hx with hs | ⟨sv, hs, hsx⟩
  · rcases hen : i.endp with _ | ev
    · exact ⟨x - 1, by rw [contains_ts_eq hi hne, hs, hen]; simp [leftOkB, rightOkB],
        by linarith⟩
    · refine ⟨min ev x - 1, ?_, ?_⟩
      · rw [contains_ts_eq hi hne, hs, hen]
        simp [leftOkB, rightOkB_of_lt _ (by
          have := min_le_left ev x
          linarith : min ev x - 1 < ev)]
      · have := min_le_right ev x
        linarith
  · rcases hen : i.endp with _ | ev
    · exact ⟨(sv + x) / 2, by
        rw [contains_ts_eq hi hne, hs, hen]
        simp [rightOkB, leftOkB_of_lt _ (by linarith : sv < (sv + x) / 2)],
        by linarith⟩
    · have hle := le_of_valid hi hs hen
      rcases eq_or_lt_of_le hle with heq | hlt
      · subst heq
        have hk := point_kind_of_valid_eq hi hs hen rfl
        refine ⟨sv, ?_, hsx⟩
        rw [contains_ts_eq hi hne, hs, hen]
        simp [leftOkB, rightOkB, is_start_included, is_end_included, hk,
          Kind.startSpecified, Kind.endSpecified, Kind.startIncluded, Kind.endIncluded]
      · refine ⟨(sv + min ev x) / 2, ?_, ?_⟩
        · rw [contains_ts_eq hi hne, hs, hen]
          have hmin : sv < min ev x := lt_min hlt hsx
          simp [leftOkB_of_lt _ (by linarith : sv < (sv + min ev x) / 2),
            rightOkB_of_lt _ (by
              have := min_le_left ev x
              linarith : (sv + min ev x) / 2 < ev)]
        · have hmin : sv < min ev x := lt_min hlt hsx
          have := min_le_right ev x
          linarith

/-- A valid non-empty interval whose end is `none` or above `x` has a
member above `x`. -/
theorem exists_mem_gt {i : TimeInterval} (hi : i.is_valid = true)
    (hne : i.is_empty = false) {x : Ts}
    (hx : i.endp = none ∨ ∃ ev, i.endp = some ev ∧ x < ev) :
    ∃ t, i.contains_ts t = true ∧ x < t := by
  rcases hx with he | ⟨ev, he, hex⟩
  · rcases hst : i.start with _ | sv
    · exact ⟨x + 1, by rw [contains_ts_eq hi hne, hst, he]; simp [leftOkB, rightOkB],
        by linarith⟩
    · refine ⟨max sv x + 1, ?_, ?_⟩
      · rw [contains_ts_eq hi hne, hst, he]
        simp [rightOkB, leftOkB_of_lt _ (by
          have := le_max_left sv x
          linarith : sv < max sv x + 1)]
      · have := le_max_right sv x
        linarith
  · rcases hst : i.start with _ | sv
    · exact ⟨(x + ev) / 2, by
        rw [contains_ts_eq hi hne, hst, he]
        simp [leftOkB, rightOkB_of_lt _ (by linarith : (x + ev) / 2 < ev)],
        by linarith⟩
    · have hle := le_of_valid hi hst he
      rcases eq_or_lt_of_le hle with heq | hlt
      · subst heq
        have hk := point_kind_of_valid_eq hi hst he rfl
        refine ⟨sv, ?_, hex⟩
        rw [contains_ts_eq hi hne, hst, he]
        simp [leftOkB, rightOkB, is_start_included, is_end_included, hk,
          Kind.startSpecified, Kind.endSpecified, Kind.startIncluded, Kind.endIncluded]
      · refine ⟨(max sv x + ev) / 2, ?_, ?_⟩
        · rw [contains_ts_eq hi hne, hst, he]
          have hmax : max sv x < ev := max_lt hlt hex
          simp [leftOkB_of_lt _ (by
              have := le_max_left sv x
              linarith : sv < (max sv x + ev) / 2),
            rightOkB_of_lt _ (by linarith : (max sv x + ev) / 2 < ev)]
        · have hmax : max sv x < ev := max_lt hlt hex
          have := le_max_right sv x
          linarith

theorem flag_some_of_start {i : TimeInterval} (hi : i.is_valid = true)
    {sv : Ts} (hs : i.start = some sv) :
    i.is_start_included = some true ∨ i.is_start_included = some false := by
  have h1 := start_isSome_of_valid hi
  have h2 := isi_isSome i
  rw [hs] at h1
  rw [← h1] at h2
  obtain ⟨bb, hbb⟩ := Option.isSome_iff_exists.mp h2
  cases bb
  · exact Or.inr hbb
  · exact Or.inl hbb

theorem flag_some_of_endp {i : TimeInterval} (hi : i.is_valid = true)
    {ev : Ts} (he : i.endp = some ev) :
    i.is_end_included = some true ∨ i.is_end_included = some false := by
  have h1 := endp_isSome_of_valid hi
  have h2 := iei_isSome i
  rw [he] at h1
  rw [← h1] at h2
  obtain ⟨bb, hbb⟩ := Option.isSome_iff_exists.mp h2
  cases bb
  · exact Or.inr hbb
  · exact Or.inl hbb

theorem fields_eq_of_contains_ts_eq {i j : TimeInterval} (hi : i.is_valid = true)
    (hj : j.is_valid = true) (hne_i : i.is_empty = false) (hne_j : j.is_empty = false)
    (h : ∀ t, i.contains_ts t = j.contains_ts t) :
    i.start = j.start ∧ i.is_start_included = j.is_start_included ∧
    i.endp = j.endp ∧ i.is_end_included = j.is_end_included := by
  -- start bounds agree
  have hstart : i.start = j.start := by
    rcases hsi : i.start with _ | sv <;> rcases hsj : j.start with _ | sw
    · rfl
    · obtain ⟨t, htj, htl⟩ := exists_mem_lt hi hne_i (Or.inl hsi) (x := sw)
      rw [h t, contains_ts_false_of_lt_start hj hsj htl] at htj
      exact absurd htj (by simp)
    · obtain ⟨t, htj, htl⟩ := exists_mem_lt hj hne_j (Or.inl hsj) (x := sv)
      rw [← h t, contains_ts_false_of_lt_start hi hsi htl] at htj
      exact absurd htj (by simp)
    · rcases lt_trichotomy sv sw with hlt | heq | hlt
      · obtain ⟨t, hti, htl⟩ := exists_mem_lt hi hne_i (Or.inr ⟨sv, hsi, hlt⟩)
        rw [h t, contains_ts_false_of_lt_start hj hsj htl] at hti
        exact absurd hti (by simp)
      · rw [heq]
      · obtain ⟨t, htj, htl⟩ := exists_mem_lt hj hne_j (Or.inr ⟨sw, hsj, hlt⟩)
        rw [← h t, contains_ts_false_of_lt_start hi hsi htl] at htj
        exact absurd htj (by simp)
  have hendp : i.endp = j.endp := by
    rcases hei : i.endp with _ | ev <;> rcases hej : j.endp with _ | ew
    · rfl
    · obtain ⟨t, hti, htg⟩ := exists_mem_gt hi hne_i (Or.inl hei) (x := ew)
      rw [h t, contains_ts_false_of_gt_endp hj hej htg] at hti
      exact absurd hti (by simp)
    · obtain ⟨t, htj, htg⟩ := exists_mem_gt hj hne_j (Or.inl hej) (x := ev)
      rw [← h t, contains_ts_false_of_gt_endp hi hei htg] at htj
      exact absurd htj (by simp)
    · rcases lt_trichotomy ev ew with hlt | heq | hlt
      · obtain ⟨t, htj, htg⟩ := exists_mem_gt hj hne_j (Or.inr ⟨ew, hej, hlt⟩) (x := ev)
        rw [← h t, contains_ts_false_of_gt_endp hi hei htg] at htj
        exact absurd htj (by simp)
      · rw [heq]
      · obtain ⟨t, hti, htg⟩ := exists_mem_gt hi hne_i (Or.inr ⟨ev, hei, hlt⟩) (x := ew)
        rw [h t, contains_ts_false_of_gt_endp hj hej htg] at hti
        exact absurd hti (by simp)
  refine ⟨hstart, ?_, hendp, ?_⟩
  · rcases hsi : i.start with _ | sv
    · have h1 := (start_eq_none hi (by
        have := start_isSome_of_valid hi
        rw [hsi] at this
        simpa using this.symm)).2
      have h2 := (start_eq_none hj (by
        have := start_isSome_of_valid hj
        rw [hstart] at hsi
        rw [hsi] at this
        simpa using this.symm)).2
      rw [h1, h2]
    · rw [hsi] at hstart
      rcases flag_some_of_start hi hsi with f1 | f1 <;>
        rcases flag_some_of_start hj hstart.symm with f2 | f2 <;>
        rw [f1, f2]
      · exfalso
        have hmem := startpoint_contains_of_incl hi hsi f1
        rw [h sv] at hmem
        have hne2 : j.is_empty = false := hne_j
        rw [contains_ts_eq hj hne2, hstart.symm] at hmem
        rw [Bool.and_eq_true] at hmem
        have := gt_of_leftOkB_excl hmem.1 (by simp [f2])
        exact lt_irrefl sv this
      · exfalso
        have hmem := startpoint_contains_of_incl hj hstart.symm f2
        rw [← h sv] at hmem
        rw [contains_ts_eq hi hne_i, hsi] at hmem
        rw [Bool.and_eq_true] at hmem
        have := gt_of_leftOkB_excl hmem.1 (by simp [f1])
        exact lt_irrefl sv this
  · rcases hei : i.endp with _ | ev
    · have h1 := (endp_eq_none hi (by
        have := endp_isSome_of_valid hi
        rw [hei] at this
        simpa using this.symm)).2
      have h2 := (endp_eq_none hj (by
        have := endp_isSome_of_valid hj
        rw [hendp] at hei
        rw [hei] at this
        simpa using this.symm)).2
      rw [h1, h2]
    · rw [hei] at hendp
      rcases flag_some_of_endp hi hei with f1 | f1 <;>
        rcases flag_some_of_endp hj hendp.symm with f2 | f2 <;>
        rw [f1, f2]
      · exfalso
        have hmem := endpoint_contains_of_incl hi hei f1
        rw [h ev] at hmem
        rw [contains_ts_eq hj hne_j, hendp.symm] at hmem
        rw [Bool.and_eq_true] at hmem
        have := lt_of_rightOkB_excl hmem.2 (by simp [f2])
        exact lt_irrefl ev this
      · exfalso
        have hmem := endpoint_contains_of_incl hj hendp.symm f2
        rw [← h ev] at hmem
        rw [contains_ts_eq hi hne_i, hei] at hmem
        rw [Bool.and_eq_true] at hmem
        have := lt_of_rightOkB_excl hmem.2 (by simp [f1])
        exact lt_irrefl ev this

theorem eq_of_profile {i j : TimeInterval} (hi : i.is_valid = true)
    (hj : j.is_valid = true) (hne_i : i.is_empty = false) (hne_j : j.is_empty = false)
    (hs : i.start = j.start) (he : i.endp = j.endp)
    (hsi : i.is_start_included = j.is_start_included)
    (hei : i.is_end_included = j.is_end_included) : i = j := by
  obtain ⟨k1, s1, e1⟩ := i
  obtain ⟨k2, s2, e2⟩ := j
  simp only [TimeInterval.mk.injEq]
  simp only at hs he
  subst hs; subst he
  refine ⟨?_, rfl, rfl⟩
  cases k1 <;> cases k2 <;>
    simp_all [is_valid, is_empty, is_start_included, is_end_included,
      Kind.startSpecified, Kind.endSpecified, Kind.startIncluded, Kind.endIncluded] <;>
    rcases s1 with _ | s1 <;> rcases e1 with _ | e1 <;> simp_all <;> linarith

theorem ext_of_contains_ts {i j : TimeInterval} (hi : i.is_valid = true)
    (hj : j.is_valid = true) (h : ∀ t, i.contains_ts t = j.contains_ts t) :
    i = j := by
  by_cases hne_i : i.is_empty = true
  · by_cases hne_j : j.is_empty = true
    · obtain ⟨k1, s1, e1⟩ := i
      obtain ⟨k2, s2, e2⟩ := j
      simp only [is_empty, beq_iff_eq] at hne_i hne_j
      subst hne_i; subst hne_j
      simp_all [is_valid]
    · obtain ⟨t, ht⟩ := exists_contains_ts hj (by simpa using hne_j)
      rw [← h t, contains_ts_of_empty hne_i] at ht
      exact absurd ht (by simp)
  · by_cases hne_j : j.is_empty = true
    · obtain ⟨t, ht⟩ := exists_contains_ts hi (by simpa using hne_i)
      rw [h t, contains_ts_of_empty hne_j] at ht
      exact absurd ht (by simp)
    · obtain ⟨h1, h2, h3, h4⟩ := fields_eq_of_contains_ts_eq hi hj
        (by simpa using hne_i) (by simpa using hne_j) h
      exact eq_of_profile hi hj (by simpa using hne_i) (by simpa using hne_j) h1 h3 h2 h4

theorem containsLeft_refl (s : Option Ts) (i : Option Bool) :
    containsLeft s i s i = true := by
  rcases s with _ | sv
  · simp [containsLeft]
  · by_cases hb : (i == some true) = true <;>
      simp [containsLeft, hb]

theorem containsRight_refl (e : Option Ts) (i : Option Bool) :
    containsRight e i e i = true := by
  rcases e with _ | ev
  · simp [containsRight]
  · by_cases hb : (i == some true) = true <;>
      simp [containsRight, hb]

theorem containsLeft_trans {aS bS cS : Option Ts} {aI bI cI : Option Bool}
    (h1 : containsLeft aS aI bS bI = true) (h2 : containsLeft bS bI cS cI = true) :
    containsLeft aS aI cS cI = true := by
  rcases cS with _ | oc
  · simp only [containsLeft, beq_iff_eq] at h2 ⊢
    subst h2
    simp only [containsLeft, beq_iff_eq] at h1
    exact (by simpa using h1)
  · rcases bS with _ | sb
    · simp only [containsLeft, beq_iff_eq] at h1
      rw [h1]
      simp [containsLeft]
    · rcases aS with _ | sa
      · simp [containsLeft]
      · simp only [containsLeft] at h1 h2 ⊢
        by_cases hab : sa < sb <;> by_cases hbc : sb < oc
        · simp [if_pos (lt_trans hab hbc)]
        · rw [if_neg hbc] at h2
          by_cases hec : sb = oc
          · subst hec
            simp [if_pos hab]
          · rw [if_neg (by simpa using hec)] at h2
            simp at h2
        · rw [if_neg hab] at h1
          by_cases heb : sa = sb
          · subst heb
            simp [if_pos hbc]
          · rw [if_neg (by simpa using heb)] at h1
            simp at h1
        · rw [if_neg hab] at h1
          rw [if_neg hbc] at h2
          by_cases heb : sa = sb
          · subst heb
            by_cases hec : sa = oc
            · subst hec
              rw [if_neg (lt_irrefl sa), if_pos (by simp : (sa == sa) = true)]
              rw [if_pos (by simp : (sa == sa) = true)] at h1 h2
              rw [Bool.or_eq_true] at h1 h2 ⊢
              rcases h1 with h1 | h1
              · exact Or.inl h1
              · rcases h2 with h2 | h2
                · rw [h2] at h1
                  simp at h1
                · exact Or.inr h2
            · rw [if_neg (by simpa using hec)] at h2
              simp at h2
          · rw [if_neg (by simpa using heb)] at h1
            simp at h1

theorem containsRight_trans {aE bE cE : Option Ts} {aI bI cI : Option Bool}
    (h1 : containsRight aE aI bE bI = true) (h2 : containsRight bE bI cE cI = true) :
    containsRight aE aI cE cI = true := by
  rcases cE with _ | oc
  · simp only [containsRight, beq_iff_eq] at h2 ⊢
    subst h2
    simp only [containsRight, beq_iff_eq] at h1
    exact (by simpa using h1)
  · rcases bE with _ | sb
    · simp only [containsRight, beq_iff_eq] at h1
      rw [h1]
      simp [containsRight]
    · rcases aE with _ | sa
      · simp [containsRight]
      · simp only [containsRight] at h1 h2 ⊢
        by_cases hab : sa > sb <;> by_cases hbc : sb > oc
        · simp [if_pos (lt_trans hbc hab)]
        · rw [if_neg hbc] at h2
          by_cases hec : sb = oc
          · subst hec
            simp [if_pos hab]
          · rw [if_neg (by simpa using hec)] at h2
            simp at h2
        · rw [if_neg hab] at h1
          by_cases heb : sa = sb
          · subst heb
            simp [if_pos hbc]
          · rw [if_neg (by simpa using heb)] at h1
            simp at h1
        · rw [if_neg hab] at h1
          rw [if_neg hbc] at h2
          by_cases heb : sa = sb
          · subst heb
            by_cases hec : sa = oc
            · subst hec
              rw [if_neg (lt_irrefl sa), if_pos (by simp : (sa == sa) = true)]
              rw [if_pos (by simp : (sa == sa) = true)] at h1 h2
              rw [Bool.or_eq_true] at h1 h2 ⊢
              rcases h1 with h1 | h1
              · exact Or.inl h1
              · rcases h2 with h2 | h2
                · rw [h2] at h1
                  simp at h1
                · exact Or.inr h2
            · rw [if_neg (by simpa using hec)] at h2
              simp at h2
          · rw [if_neg (by simpa using heb)] at h1
            simp at h1

/-- Round trip through `from_boundaries` for any valid non-empty interval
(the Timeline shape also round-trips; only Empty does not). -/
theorem from_boundaries_roundtrip {i : TimeInterval} (hv : i.is_valid = true)
    (he : i.kind ≠ Kind.empty) :
    from_boundaries i.start i.endp i.is_start_included i.is_end_included = .ok i := by
  obtain ⟨k, s, e⟩ := i
  cases k
  case empty => exact absurd rfl he
  all_goals (
    rcases s with _ | sv <;> rcases e with _ | ev <;>
      simp_all [is_valid, is_start_included, is_end_included, Kind.startSpecified,
        Kind.endSpecified, Kind.startIncluded, Kind.endIncluded, from_boundaries,
        point, closedE, closedopenE, openclosedE, openE, rightclosed, rightopen,
        leftclosed, leftopen, timelineI] <;>
      first
        | rfl
        | linarith
        | (split_ifs <;> first | rfl | (exfalso; linarith) | simp_all))

theorem interStart_eq_laterBound {a b : TimeInterval} (ha : a.is_valid = true)
    (hb : b.is_valid = true) :
    interStart a b =
      .ok (laterBound (a.start, a.is_start_included) (b.start, b.is_start_included)) := by
  by_cases hsa : a.is_start_specified = true <;>
    by_cases hsb : b.is_start_specified = true
  · obtain ⟨as, ai, has, hai⟩ := start_eq_some ha hsa
    obtain ⟨bs, bi, hbs, hbi⟩ := start_eq_some hb hsb
    rw [has, hai, hbs, hbi]
    simp only [interStart, hsa, hsb, has, hai, hbs, hbi, Bool.and_self, if_true,
      laterBound]
    rcases lt_trichotomy as bs with h | h | h
    · rw [max_eq_right h.le, if_pos h, if_neg (by linarith : ¬as > bs), if_pos h]
    · subst h
      rw [max_self, if_neg (lt_irrefl as), if_neg (lt_irrefl as),
        if_neg (lt_irrefl as), if_neg (lt_irrefl as)]
      cases ai <;> cases bi <;> simp
    · rw [max_eq_left h.le, if_neg (by linarith : ¬as < bs), if_pos h, if_pos h]
  · obtain ⟨as, ai, has, hai⟩ := start_eq_some ha hsa
    obtain ⟨hbs, hbi⟩ := start_eq_none hb (by simpa using hsb)
    rw [has, hai, hbs, hbi]
    simp [interStart, hsa, hsb, has, hai, hbs, hbi, Option.orElse, laterBound]
  · obtain ⟨has, hai⟩ := start_eq_none ha (by simpa using hsa)
    obtain ⟨bs, bi, hbs, hbi⟩ := start_eq_some hb hsb
    rw [has, hai, hbs, hbi]
    simp [interStart, hsa, hsb, has, hai, hbs, hbi, Option.orElse, laterBound]
  · obtain ⟨has, hai⟩ := start_eq_none ha (by simpa using hsa)
    obtain ⟨hbs, hbi⟩ := start_eq_none hb (by simpa using hsb)
    rw [has, hai, hbs, hbi]
    simp [interStart, hsa, hsb, laterBound]

theorem interEnd_eq_earlierBound {a b : TimeInterval} (ha : a.is_valid = true)
    (hb : b.is_valid = true) :
    interEnd a b =
      .ok (earlierBound (a.endp, a.is_end_included) (b.endp, b.is_end_included)) := by
  by_cases hsa : a.is_end_specified = true <;>
    by_cases hsb : b.is_end_specified = true
  · obtain ⟨ae, ai, hae, hai⟩ := endp_eq_some ha hsa
    obtain ⟨be, bi, hbe, hbi⟩ := endp_eq_some hb hsb
    rw [hae, hai, hbe, hbi]
    simp only [interEnd, hsa, hsb, hae, hai, hbe, hbi, Bool.and_self, if_true,
      earlierBound]
    rcases lt_trichotomy ae be with h | h | h
    · rw [min_eq_left h.le, if_pos h, if_pos h]
    · subst h
      rw [min_self, if_neg (lt_irrefl ae), if_neg (lt_irrefl ae),
        if_neg (lt_irrefl ae), if_neg (lt_irrefl ae)]
      cases ai <;> cases bi <;> simp
    · rw [min_eq_right h.le, if_neg (by linarith : ¬ae < be), if_pos h,
        if_neg (by linarith : ¬ae < be), if_pos h]
  · obtain ⟨ae, ai, hae, hai⟩ := endp_eq_some ha hsa
    obtain ⟨hbe, hbi⟩ := endp_eq_none hb (by simpa using hsb)
    rw [hae, hai, hbe, hbi]
    simp [interEnd, hsa, hsb, hae, hai, hbe, hbi, Option.orElse, earlierBound]
  · obtain ⟨hae, hai⟩ := endp_eq_none ha (by simpa using hsa)
    obtain ⟨be, bi, hbe, hbi⟩ := endp_eq_some hb hsb
    rw [hae, hai, hbe, hbi]
    simp [interEnd, hsa, hsb, hae, hai, hbe, hbi, Option.orElse, earlierBound]
  · obtain ⟨hae, hai⟩ := endp_eq_none ha (by simpa using hsa)
    obtain ⟨hbe, hbi⟩ := endp_eq_none hb (by simpa using hsb)
    rw [hae, hai, hbe, hbi]
    simp [interEnd, hsa, hsb, earlierBound]

theorem unionKeyLt_iff (i j : TimeInterval) :
    unionKeyLt i j = true ↔ sortKey i < sortKey j := by
  unfold unionKeyLt endKeyLt sortKey
  rcases i.start with _ | a <;> rcases j.start with _ | b <;>
    rcases i.endp with _ | c <;> rcases j.endp with _ | d <;>
    simp [Prod.Lex.lt_iff, Bool.lt_iff, decide_eq_true_eq] <;>
    first
      | (split_ifs <;> simp_all [Prod.Lex.lt_iff, Bool.lt_iff])
      | (intro h1 h2; exact absurd h1 (by rw [h2]; exact lt_irrefl _))
      | exact or_comm

theorem unionKeyLt_false_iff (i j : TimeInterval) :
    unionKeyLt i j = false ↔ sortKey j ≤ sortKey i := by
  rw [Bool.eq_false_iff, Ne, unionKeyLt_iff, not_lt]

theorem unionKeyLt_asymm {i j : TimeInterval} (h : unionKeyLt i j = true) :
    unionKeyLt j i = false := by
  rw [unionKeyLt_iff] at h
  rw [unionKeyLt_false_iff]
  exact le_of_lt h

theorem sortInsert_perm (x : TimeInterval) (l : List TimeInterval) :
    (sortInsert x l).Perm (x :: l) := by
  induction l with
  | nil => simp [sortInsert]
  | cons y ys ih =>
    rw [sortInsert]
    by_cases h : unionKeyLt y x = true
    · rw [if_pos h]
      exact (ih.cons y).trans (List.Perm.swap x y ys)
    · rw [if_neg h]

theorem pySort_perm (l : List TimeInterval) : (pySort l).Perm l := by
  induction l with
  | nil => simp [pySort]
  | cons x xs ih =>
    rw [pySort]
    exact (sortInsert_perm x (pySort xs)).trans (ih.cons x)

theorem sortInsert_pairwise {x : TimeInterval} {l : List TimeInterval}
    (h : l.Pairwise (fun a b => unionKeyLt b a = false)) :
    (sortInsert x l).Pairwise (fun a b => unionKeyLt b a = false) := by
  induction l with
  | nil => simp [sortInsert]
  | cons y ys ih =>
    rw [List.pairwise_cons] at h
    rw [sortInsert]
    by_cases hxy : unionKeyLt y x = true
    · rw [if_pos hxy]
      rw [List.pairwise_cons]
      refine ⟨fun z hz => ?_, ih h.2⟩
      rcases List.mem_cons.mp ((sortInsert_perm x ys).mem_iff.mp hz) with rfl | hz
      · exact unionKeyLt_asymm hxy
      · exact h.1 z hz
    · rw [if_neg hxy]
      rw [List.pairwise_cons]
      refine ⟨fun z hz => ?_, List.pairwise_cons.mpr h⟩
      rcases List.mem_cons.mp hz with rfl | hz
      · simpa using hxy
      · have h1 := h.1 z hz
        have hxy' : unionKeyLt y x = false := by simpa using hxy
        rw [unionKeyLt_false_iff] at h1 hxy' ⊢
        exact le_trans hxy' h1

theorem pySort_pairwise (l : List TimeInterval) :
    (pySort l).Pairwise (fun a b => unionKeyLt b a = false) := by
  induction l with
  | nil => simp [pySort]
  | cons x xs ih =>
    rw [pySort]
    exact sortInsert_pairwise ih

theorem pySort_of_pairwise {l : List TimeInterval}
    (h : l.Pairwise (fun a b => unionKeyLt b a = false)) : pySort l = l := by
  induction l with
  | nil => rfl
  | cons x xs ih =>
    rw [List.pairwise_cons] at h
    rw [pySort, ih h.2]
    cases xs with
    | nil => rfl
    | cons y ys =>
      rw [sortInsert, if_neg (by simp [h.1 y (List.mem_cons_self y ys)])]

theorem pySort_eq_of_perm {l m : List TimeInterval} (hperm : l.Perm m)
    (hm : m.Pairwise (fun a b => unionKeyLt a b = true)) : pySort l = m := by
  have h1 : (pySort l).Perm m := (pySort_perm l).trans hperm
  have hmstrict : m.Pairwise (fun a b => sortKey a < sortKey b) :=
    hm.imp (fun hab => (unionKeyLt_iff _ _).mp hab)
  have hmkeys : (m.map sortKey).Nodup :=
    ((List.pairwise_map).mpr hmstrict).imp ne_of_lt
  have hlkeys : ((pySort l).map sortKey).Nodup :=
    (h1.map sortKey).nodup_iff.mpr hmkeys
  have hlne : (pySort l).Pairwise (fun a b => sortKey a ≠ sortKey b) :=
    (List.pairwise_map).mp hlkeys
  have hlle : (pySort l).Pairwise (fun a b => sortKey a ≤ sortKey b) :=
    (pySort_pairwise l).imp (fun hab => (unionKeyLt_false_iff _ _).mp hab)
  have hlstrict : (pySort l).Pairwise (fun a b => sortKey a < sortKey b) :=
    (hlle.and hlne).imp (fun hab => lt_of_le_of_ne hab.1 hab.2)
  haveI : IsAntisymm TimeInterval (fun a b => sortKey a < sortKey b) :=
    ⟨fun a b hab hba => absurd (lt_trans hab hba) (lt_irrefl _)⟩
  exact List.eq_of_perm_of_sorted h1 hlstrict hmstrict

theorem leftOkB_flip (e : Ts) (fi : Option Bool) (t : Ts) :
    leftOkB (some e) (some (!(fi == some true))) t = !(rightOkB (some e) fi t) := by
  by_cases h : (fi == some true) = true
  · by_cases ht : t ≤ e
    · simp [leftOkB, rightOkB, h, ht, not_lt.mpr ht]
    · have hlt : e < t := not_le.mp ht
      simp [leftOkB, rightOkB, h, hlt, not_le.mpr hlt]
  · have hb : (fi == some true) = false := by simpa using h
    by_cases ht : t < e
    · simp [leftOkB, rightOkB, hb, ht, not_le.mpr ht]
    · have hle : e ≤ t := not_lt.mp ht
      simp [leftOkB, rightOkB, hb, ht, hle]

theorem rightOkB_flip (s : Ts) (si : Option Bool) (t : Ts) :
    rightOkB (some s) (some (!(si == some true))) t = !(leftOkB (some s) si t) := by
  by_cases h : (si == some true) = true
  · by_cases ht : s ≤ t
    · simp [leftOkB, rightOkB, h, ht, not_lt.mpr ht]
    · have hlt : t < s := not_le.mp ht
      simp [leftOkB, rightOkB, h, hlt, not_le.mpr hlt]
  · have hb : (si == some true) = false := by simpa using h
    by_cases ht : s < t
    · simp [leftOkB, rightOkB, hb, ht, not_le.mpr ht]
    · have hle : t ≤ s := not_lt.mp ht
      simp [leftOkB, rightOkB, hb, ht, hle]

theorem to_the_left_none {c : TimeInterval} (hne : c.is_empty = false)
    (hs : c.start = none) : c.to_the_left = emptyI := by
  simp [to_the_left, hne, hs]

theorem to_the_left_fields {c : TimeInterval} (hne : c.is_empty = false)
    {sv : Ts} (hs : c.start = some sv) :
    c.to_the_left.is_valid = true ∧ c.to_the_left.is_empty = false ∧
    c.to_the_left.start = none ∧ c.to_the_left.endp = some sv ∧
    c.to_the_left.is_start_included = none ∧
    c.to_the_left.is_end_included = some (!(c.is_start_included == some true)) := by
  have hray : c.to_the_left = left_ray sv (!(c.is_start_included == some true)) := by
    simp [to_the_left, hne, hs]
  rw [hray]
  cases hbv : (!(c.is_start_included == some true)) <;>
    simp [left_ray, leftopen, leftclosed, is_valid, is_empty,
      is_start_included, is_end_included, Kind.startSpecified, Kind.endSpecified,
      Kind.endIncluded]

theorem to_the_left_mem {c : TimeInterval} (hne : c.is_empty = false) (t : Ts) :
    c.to_the_left.contains_ts t = !(leftOkB c.start c.is_start_included t) := by
  rcases hs : c.start with _ | sv
  · rw [to_the_left_none hne hs]
    simp [contains_ts, emptyI, is_empty, leftOkB]
  · obtain ⟨h1, h2, h3, h4, h5, h6⟩ := to_the_left_fields hne hs
    rw [contains_ts_eq h1 h2, h3, h4, h5, h6, rightOkB_flip]
    simp [leftOkB]

theorem to_the_right_none {c : TimeInterval} (hne : c.is_empty = false)
    (he : c.endp = none) : c.to_the_right = emptyI := by
  simp [to_the_right, hne, he]

theorem to_the_right_fields {c : TimeInterval} (hne : c.is_empty = false)
    {ev : Ts} (he : c.endp = some ev) :
    c.to_the_right.is_valid = true ∧ c.to_the_right.is_empty = false ∧
    c.to_the_right.start = some ev ∧ c.to_the_right.endp = none ∧
    c.to_the_right.is_start_included = some (!(c.is_end_included == some true)) ∧
    c.to_the_right.is_end_included = none := by
  have hray : c.to_the_right = right_ray ev (!(c.is_end_included == some true)) := by
    simp [to_the_right, hne, he]
  rw [hray]
  cases hbv : (!(c.is_end_included == some true)) <;>
    simp [right_ray, rightopen, rightclosed, is_valid, is_empty,
      is_start_included, is_end_included, Kind.startSpecified, Kind.endSpecified,
      Kind.startIncluded]

theorem to_the_right_mem {c : TimeInterval} (hne : c.is_empty = false) (t : Ts) :
    c.to_the_right.contains_ts t = !(rightOkB c.endp c.is_end_included t) := by
  rcases he : c.endp with _ | ev
  · rw [to_the_right_none hne he]
    simp [contains_ts, emptyI, is_empty, rightOkB]
  · obtain ⟨h1, h2, h3, h4, h5, h6⟩ := to_the_right_fields hne he
    rw [contains_ts_eq h1 h2, h3, h4, h5, h6, leftOkB_flip]
    simp [rightOkB]

theorem start_lt_of_dLd {a b : TimeInterval} (ha : a.is_valid = true)
    (hb : b.is_valid = true) (h : a.is_left_of_disconnectedly b = true)
    {u w : Ts} (hu : a.start = some u) (hw : b.start = some w) : u < w := by
  obtain ⟨hea, heb, ev, sv, hen, hst, hc⟩ := dLd_shape h
  rw [hst] at hw
  cases hw
  have hue := le_of_valid ha hu hen
  rcases hc with hlt | ⟨heq, hfa, hfb⟩
  · linarith
  · subst heq
    rcases eq_or_lt_of_le hue with heq2 | hlt2
    · subst heq2
      have hk := point_kind_of_valid_eq ha hu hen rfl
      simp [is_end_included, hk, Kind.endSpecified, Kind.endIncluded] at hfa
    · exact hlt2

theorem endp_lt_of_dLd {a b : TimeInterval} (ha : a.is_valid = true)
    (hb : b.is_valid = true) (h : a.is_left_of_disconnectedly b = true)
    {u w : Ts} (hu : a.endp = some u) (hw : b.endp = some w) : u < w := by
  obtain ⟨hea, heb, ev, sv, hen, hst, hc⟩ := dLd_shape h
  rw [hen] at hu
  cases hu
  have hsw := le_of_valid hb hst hw
  rcases hc with hlt | ⟨heq, hfa, hfb⟩
  · linarith
  · subst heq
    rcases eq_or_lt_of_le hsw with heq2 | hlt2
    · subst heq2
      have hk := point_kind_of_valid_eq hb hst hw rfl
      simp [is_start_included, hk, Kind.startSpecified, Kind.startIncluded] at hfb
    · exact hlt2

/-- Two non-empty pieces flanking a valid component `c` — one ending at
`c`'s start with flipped inclusion, one starting at `c`'s end with
flipped inclusion — are disconnectedly ordered. -/
theorem dLd_of_flanking {c p q : TimeInterval} (hc : c.is_valid = true)
    (hpe : p.is_empty = false) (hqe : q.is_empty = false)
    {sv : Ts} (hps : c.start = some sv) (hpend : p.endp = some sv)
    (hpi : p.is_end_included = some (!(c.is_start_included == some true)))
    {ev : Ts} (hqs : c.endp = some ev) (hqstart : q.start = some ev)
    (hqi : q.is_start_included = some (!(c.is_end_included == some true))) :
    p.is_left_of_disconnectedly q = true := by
  apply dLd_intro hpe hqe hpend hqstart
  have hle := le_of_valid hc hps hqs
  rcases eq_or_lt_of_le hle with heq | hlt
  · subst heq
    have hk := point_kind_of_valid_eq hc hps hqs rfl
    right
    refine ⟨rfl, ?_, ?_⟩
    · rw [hpi]
      simp [is_start_included, hk, Kind.startSpecified, Kind.startIncluded]
    · rw [hqi]
      simp [is_end_included, hk, Kind.endSpecified, Kind.endIncluded]
  · exact Or.inl hlt

/-- The gap `between(f, s)` of a disconnected adjacent pair: it never
raises, and its boundary data mirrors the flanking components with
flipped inclusions. -/
theorem gapTot_spec {f s : TimeInterval} (hfv : f.is_valid = true)
    (hsv : s.is_valid = true) (h : f.is_left_of_disconnectedly s = true) :
    TimeInterval.between f s = .ok (TimeSet.gapTot f s) ∧
    (TimeSet.gapTot f s).is_valid = true ∧
    (TimeSet.gapTot f s).is_empty = false ∧
    (TimeSet.gapTot f s).start = f.endp ∧
    (TimeSet.gapTot f s).endp = s.start ∧
    (TimeSet.gapTot f s).is_start_included = some (!(f.is_end_included == some true)) ∧
    (TimeSet.gapTot f s).is_end_included = some (!(s.is_start_included == some true)) ∧
    ∀ t, (TimeSet.gapTot f s).contains_ts t =
      (!(rightOkB f.endp f.is_end_included t) && !(leftOkB s.start s.is_start_included t)) := by
  obtain ⟨hfe, hse, ev, sv, hen, hst, hc⟩ := dLd_shape h
  have hlo : f.is_left_of s = true := is_left_of_of_dLd h
  rcases hc with hlt | ⟨heq, hfa, hfb⟩
  · have hb : TimeInterval.between f s =
        from_boundaries (some ev) (some sv)
          (some (!(f.is_end_included == some true)))
          (some (!(s.is_start_included == some true))) := by
      rw [between, if_neg (by simp [hlo]), if_neg (by simp [hfe]),
        if_neg (by simp [hse]), if_neg (by simp [hfe]), hen, hst]
      dsimp only
      rw [if_neg (by simp; linarith : ¬ev > sv),
        if_neg (by simp; exact ne_of_lt hlt)]
    obtain ⟨g, hg, hgv, hgs, hge, hgsi, hgei, hgne, hgmem⟩ :=
      from_boundaries_spec (some ev) (some sv)
        (some (!(f.is_end_included == some true)))
        (some (!(s.is_start_included == some true)))
        (by simp) (by simp)
        (by
          intro x y hx hy
          rw [Option.some.injEq] at hx hy
          subst hx; subst hy
          split_ifs with hcon
          · linarith
          · linarith)
    have hgap : TimeSet.gapTot f s = g := by
      rw [TimeSet.gapTot, hb, hg]
    rw [hgap, hb, hg]
    refine ⟨rfl, hgv, hgne, by rw [hgs, hen], by rw [hge, hst], hgsi, hgei, ?_⟩
    intro t
    rw [hgmem t, hen, hst, leftOkB_flip, rightOkB_flip]
  · subst heq
    have hb : TimeInterval.between f s = .ok (point ev) := by
      rw [between, if_neg (by simp [hlo]), if_neg (by simp [hfe]),
        if_neg (by simp [hse]), if_neg (by simp [hfe]), hen, hst]
      dsimp only
      rw [if_neg (by simp : ¬ev > ev), if_pos (by simp), if_neg (by simp [hfa, hfb])]
    have hgap : TimeSet.gapTot f s = point ev := by
      rw [TimeSet.gapTot, hb]
    rw [hgap, hb]
    refine ⟨rfl, by simp [is_valid, point], by simp [is_empty, point],
      by simp [point, hen], by simp [point, hst], ?_, ?_, ?_⟩
    · simp [point, is_start_included, Kind.startSpecified, Kind.startIncluded, hfa]
    · simp [point, is_end_included, Kind.endSpecified, Kind.endIncluded, hfb]
    · intro t
      have hmemp : (point ev).contains_ts t = (leftOkB (some ev) (some true) t &&
          rightOkB (some ev) (some true) t) := by
        rw [contains_ts_eq (by simp [is_valid, point]) (by simp [is_empty, point])]
        simp [point, is_start_included, is_end_included, Kind.startSpecified,
          Kind.startIncluded, Kind.endSpecified, Kind.endIncluded]
      rw [hmemp, hen, hst, hfa, hfb]
      rcases lt_trichotomy t ev with hlt | heqt | hgt
      · simp [leftOkB, rightOkB, hlt, not_le.mpr hlt]
      · subst heqt
        simp [leftOkB, rightOkB, le_refl, lt_irrefl]
      · simp [leftOkB, rightOkB, hgt, not_le.mpr hgt, not_lt.mpr (le_of_lt hgt)]

theorem touches_intro {a b : TimeInterval} (ha : a.is_empty = false)
    (hb : b.is_empty = false) (h1 : a.is_left_of_disconnectedly b = false)
    (h2 : b.is_left_of_disconnectedly a = false) : a.touches b = true := by
  simp [touches, ha, hb, h1, h2]

/-- A moment beyond a valid interval's right bound is beyond its left
bound too. -/
theorem notR_imp_L {c : TimeInterval} (hv : c.is_valid = true)
    {t : Ts} (h : rightOkB c.endp c.is_end_included t = false) :
    leftOkB c.start c.is_start_included t = true := by
  rcases hen : c.endp with _ | ev
  · rw [hen] at h
    simp [rightOkB] at h
  rcases hst : c.start with _ | sv
  · simp [leftOkB]
  have hle := le_of_valid hv hst hen
  rw [hen] at h
  rcases flag_some_of_endp hv hen with hfa | hfa
  · rw [hfa] at h
    simp [rightOkB, not_le] at h
    exact leftOkB_of_lt _ (lt_of_le_of_lt hle h)
  · rw [hfa] at h
    simp [rightOkB, not_lt] at h
    rcases eq_or_lt_of_le hle with heq | hlt
    · have hk := point_kind_of_valid_eq hv hst hen heq
      simp [is_end_included, hk, Kind.endSpecified, Kind.endIncluded] at hfa
    · exact leftOkB_of_lt _ (lt_of_lt_of_le hlt h)

/-- A moment before a valid interval's left bound is before its right
bound too. -/
theorem notL_imp_R {c : TimeInterval} (hv : c.is_valid = true)
    {t : Ts} (h : leftOkB c.start c.is_start_included t = false) :
    rightOkB c.endp c.is_end_included t = true := by
  rcases hst : c.start with _ | sv
  · rw [hst] at h
    simp [leftOkB] at h
  rcases hen : c.endp with _ | ev
  · simp [rightOkB]
  have hle := le_of_valid hv hst hen
  rw [hst] at h
  rcases flag_some_of_start hv hst with hfa | hfa
  · rw [hfa] at h
    simp [leftOkB, not_le] at h
    exact rightOkB_of_lt _ (lt_of_lt_of_le h hle)
  · rw [hfa] at h
    simp [leftOkB, not_lt] at h
    rcases eq_or_lt_of_le hle with heq | hlt
    · have hk := point_kind_of_valid_eq hv hst hen heq
      simp [is_start_included, hk, Kind.startSpecified, Kind.startIncluded] at hfa
    · exact rightOkB_of_lt _ (lt_of_le_of_lt h hlt)

/-- A moment passing the left bound of the right member of a
disconnected pair is beyond the right bound of the left member. -/
theorem L_imp_notR_of_dLd {a b : TimeInterval}
    (h : a.is_left_of_disconnectedly b = true)
    {t : Ts} (hL : leftOkB b.start b.is_start_included t = true) :
    rightOkB a.endp a.is_end_included t = false := by
  obtain ⟨hea, heb, ev, sv, hen, hst, hc⟩ := dLd_shape h
  rw [hst] at hL
  rw [hen]
  rcases hc with hlt | ⟨heq, hfa, hfb⟩
  · have hge := ge_of_leftOkB hL
    exact rightOkB_false_of_lt _ (lt_of_lt_of_le hlt hge)
  · subst heq
    rw [hfb] at hL
    simp [leftOkB] at hL
    rw [hfa]
    exact rightOkB_false_of_lt _ hL

/-- A disconnected pair is strictly ordered by the union sort key. -/
theorem dLd_unionKeyLt {a b : TimeInterval} (ha : a.is_valid = true)
    (h : a.is_left_of_disconnectedly b = true) : unionKeyLt a b = true := by
  obtain ⟨hea, heb, ev, sv, hen, hst, hc⟩ := dLd_shape h
  have hsv_lt : ∀ sa, a.start = some sa → sa < sv := by
    intro sa hsa
    have hle := le_of_valid ha hsa hen
    rcases hc with hlt | ⟨heq, hfa, hfb⟩
    · linarith
    · subst heq
      rcases eq_or_lt_of_le hle with heq2 | hlt2
      · have hk := point_kind_of_valid_eq ha hsa hen heq2
        simp [is_end_included, hk, Kind.endSpecified, Kind.endIncluded] at hfa
      · exact hlt2
  unfold unionKeyLt
  rcases hsa : a.start with _ | sa
  · rw [hst]
  · rw [hst]
    dsimp only
    have hlt := hsv_lt sa hsa
    rw [if_neg (by simp [ne_of_lt hlt] : ¬((sa == sv) = true))]
    simp [hlt]

theorem toLeft_keyLt {c : TimeInterval} (hne : c.is_empty = false)
    {sv : Ts} (hs : c.start = some sv) : unionKeyLt c.to_the_left c = true := by
  obtain ⟨h1, h2, h3, h4, h5, h6⟩ := to_the_left_fields hne hs
  unfold unionKeyLt
  rw [h3, hs]

theorem toLeft_touches {c : TimeInterval} (hv : c.is_valid = true)
    (hne : c.is_empty = false) {sv : Ts} (hs : c.start = some sv) :
    c.to_the_left.touches c = true := by
  obtain ⟨h1, h2, h3, h4, h5, h6⟩ := to_the_left_fields hne hs
  apply touches_intro h2 hne
  · unfold is_left_of_disconnectedly
    rw [if_neg (by simp [h2, hne]), h4, hs]
    dsimp only
    rw [if_neg (by simp : ¬sv < sv), if_pos (by simp), h6]
    rcases flag_some_of_start hv hs with hf | hf <;> rw [hf] <;> simp
  · unfold is_left_of_disconnectedly
    rw [if_neg (by simp [h2, hne]), h3]
    rcases hce : c.endp with _ | e <;> rfl

theorem toRight_keyLt {c : TimeInterval} (hv : c.is_valid = true)
    (hne : c.is_empty = false) {ev : Ts} (he : c.endp = some ev) :
    unionKeyLt c c.to_the_right = true := by
  obtain ⟨h1, h2, h3, h4, h5, h6⟩ := to_the_right_fields hne he
  unfold unionKeyLt
  rcases hsa : c.start with _ | sa
  · rw [h3]
  · rw [h3]
    dsimp only
    have hle := le_of_valid hv hsa he
    rcases eq_or_lt_of_le hle with heq | hlt
    · subst heq
      rw [if_pos (by simp)]
      unfold endKeyLt
      rw [he, h4]
    · rw [if_neg (by simp [ne_of_lt hlt] : ¬((sa == ev) = true))]
      simp [hlt]

theorem toRight_touches {c : TimeInterval} (hv : c.is_valid = true)
    (hne : c.is_empty = false) {ev : Ts} (he : c.endp = some ev) :
    c.touches c.to_the_right = true := by
  obtain ⟨h1, h2, h3, h4, h5, h6⟩ := to_the_right_fields hne he
  apply touches_intro hne h2
  · unfold is_left_of_disconnectedly
    rw [if_neg (by simp [hne, h2]), he, h3]
    dsimp only
    rw [if_neg (by simp : ¬ev < ev), if_pos (by simp), h5]
    rcases flag_some_of_endp hv he with hf | hf <;> rw [hf] <;> simp
  · unfold is_left_of_disconnectedly
    rw [if_neg (by simp [hne, h2]), h4]

theorem is_nonempty_eq_not_empty (i : TimeInterval) :
    i.is_nonempty = !i.is_empty := rfl

theorem isi_none_of_start_none {i : TimeInterval} (hv : i.is_valid = true)
    (hs : i.start = none) : i.is_start_included = none := by
  have h1 := start_isSome_of_valid hv
  rw [hs] at h1
  have h2 := isi_isSome i
  rw [← h1] at h2
  have h3 : i.is_start_included.isSome = false := by simpa using h2
  exact Option.not_isSome_iff_eq_none.mp (by simp [h3])

theorem iei_none_of_endp_none {i : TimeInterval} (hv : i.is_valid = true)
    (he : i.endp = none) : i.is_end_included = none := by
  have h1 := endp_isSome_of_valid hv
  rw [he] at h1
  have h2 := iei_isSome i
  rw [← h1] at h2
  have h3 : i.is_end_included.isSome = false := by simpa using h2
  exact Option.not_isSome_iff_eq_none.mp (by simp [h3])

/-- `minimal_cover` of a single valid non-empty interval rebuilds that
interval: the computed inclusion flags coincide with the interval's own
flags, and `from_boundaries` round-trips. -/
theorem minimal_cover_singleton {i : TimeInterval} (hv : i.is_valid = true)
    (hne : i.is_empty = false) : minimal_cover [i] = .ok i := by
  have hnei : i.is_nonempty = true := by
    rw [is_nonempty_eq_not_empty, hne]
    rfl
  have hkne : i.kind ≠ Kind.empty := by
    intro hk
    rw [is_empty, hk] at hne
    simp at hne
  have hfilt : List.filter is_nonempty [i] = [i] := by
    rw [List.filter_cons, if_pos hnei]
    rfl
  unfold minimal_cover
  dsimp only
  rw [hfilt]
  dsimp only
  have hsi : (match i.start with
      | none => (none : Option Bool)
      | some s => some (List.any [i] fun j =>
          j.start == some s && j.is_start_included == some true))
      = i.is_start_included := by
    rcases hs : i.start with _ | sv
    · exact (isi_none_of_start_none hv hs).symm
    · simp only [List.any_cons, List.any_nil, Bool.or_false, hs]
      rcases flag_some_of_start hv hs with hf | hf <;> rw [hf] <;> simp
  have hei : (match i.endp with
      | none => (none : Option Bool)
      | some e => some (List.any [i] fun j =>
          j.endp == some e && j.is_end_included == some true))
      = i.is_end_included := by
    rcases hs : i.endp with _ | ev
    · exact (iei_none_of_endp_none hv hs).symm
    · simp only [List.any_cons, List.any_nil, Bool.or_false, hs]
      rcases flag_some_of_endp hv hs with hf | hf <;> rw [hf] <;> simp
  simp only [pyMinBy]
  rw [hsi, hei]
  exact from_boundaries_roundtrip hv hkne

end TimeInterval

namespace TimeSet

theorem pairwise_dLd_of_pairsOk {l : List TimeInterval}
    (hv : ∀ i ∈ l, i.is_valid = true) (h : pairsOk l = true) :
    l.Pairwise (fun a b => a.is_left_of_disconnectedly b = true) := by
  induction l with
  | nil => simp
  | cons a rest ih =>
    cases rest with
    | nil => simp
    | cons b rest2 =>
      rw [pairsOk, Bool.and_eq_true] at h
      have hp := ih (fun i hi => hv i (List.mem_cons_of_mem a hi)) h.2
      rw [List.pairwise_cons]
      refine ⟨fun z hz => ?_, hp⟩
      rcases List.mem_cons.mp hz with rfl | hz2
      · exact h.1
      · have hbz := (List.pairwise_cons.mp hp).1 z hz2
        exact TimeInterval.dLd_trans (hv a (List.mem_cons_self a _))
          (hv b (List.mem_cons_of_mem a (List.mem_cons_self b _)))
          (hv z (List.mem_cons_of_mem a (List.mem_cons_of_mem b hz2)))
          h.1 hbz

theorem pairsOk_of_pairwise {l : List TimeInterval}
    (h : l.Pairwise (fun a b => a.is_left_of_disconnectedly b = true)) :
    pairsOk l = true := by
  induction l with
  | nil => rfl
  | cons a rest ih =>
    cases rest with
    | nil => rfl
    | cons b rest2 =>
      rw [pairsOk, Bool.and_eq_true]
      rw [List.pairwise_cons] at h
      exact ⟨h.1 b (List.mem_cons_self b rest2), ih h.2⟩

theorem mkE_ok_valid {l : List TimeInterval} {S : TimeSet} (h : mkE l = .ok S) :
    S.is_valid = true := by
  unfold mkE at h
  split_ifs at h with hv
  cases h
  exact hv

/-- The two-pointer intersection loop of `intersection_with_timeset`
never raises on canonical inputs, and its output list is a canonical
component list whose members each lie inside one input component from
each side. -/
theorem interLoop_ok (n : ℕ) (xs ys : List TimeInterval)
    (hlen : xs.length + ys.length ≤ n)
    (hxv : ∀ i ∈ xs, i.is_valid = true) (hyv : ∀ i ∈ ys, i.is_valid = true)
    (hxne : ∀ i ∈ xs, i.is_empty = false) (hyne : ∀ i ∈ ys, i.is_empty = false)
    (hxp : xs.Pairwise (fun a b => a.is_left_of_disconnectedly b = true))
    (hyp : ys.Pairwise (fun a b => a.is_left_of_disconnectedly b = true)) :
    ∃ L, interLoop xs ys = .ok L ∧
      (∀ c ∈ L, c.is_valid = true ∧ c.is_empty = false ∧
        (∃ x ∈ xs, ∀ t, c.contains_ts t = true → x.contains_ts t = true) ∧
        (∃ y ∈ ys, ∀ t, c.contains_ts t = true → y.contains_ts t = true)) ∧
      L.Pairwise (fun a b => a.is_left_of_disconnectedly b = true) := by
  induction n generalizing xs ys with
  | zero =>
    cases xs with
    | nil => exact ⟨[], by simp [interLoop], by simp, by simp⟩
    | cons x xs' => simp at hlen
  | succ n ih =>
    cases xs with
    | nil => exact ⟨[], by simp [interLoop], by simp, by simp⟩
    | cons x xs' =>
      cases ys with
      | nil => exact ⟨[], by simp [interLoop], by simp, by simp⟩
      | cons y ys' =>
        by_cases hl : x.is_left_of y = true
        · obtain ⟨L, hL, hLmem, hLp⟩ := ih xs' (y :: ys')
            (by simp only [List.length_cons] at hlen ⊢; omega)
            (fun i hi => hxv i (List.mem_cons_of_mem x hi)) hyv
            (fun i hi => hxne i (List.mem_cons_of_mem x hi)) hyne
            (List.pairwise_cons.mp hxp).2 hyp
          refine ⟨L, ?_, ?_, hLp⟩
          · rw [interLoop, if_pos hl]
            exact hL
          · intro c hc
            obtain ⟨hcv, hcne, ⟨xw, hxw, hxsub⟩, hyw⟩ := hLmem c hc
            exact ⟨hcv, hcne, ⟨xw, List.mem_cons_of_mem x hxw, hxsub⟩, hyw⟩
        · by_cases hr : x.is_right_of y = true
          · obtain ⟨L, hL, hLmem, hLp⟩ := ih (x :: xs') ys'
              (by simp only [List.length_cons] at hlen ⊢; omega)
              hxv (fun i hi => hyv i (List.mem_cons_of_mem y hi))
              hxne (fun i hi => hyne i (List.mem_cons_of_mem y hi))
              hxp (List.pairwise_cons.mp hyp).2
            refine ⟨L, ?_, ?_, hLp⟩
            · rw [interLoop, if_neg (by simp [hl]), if_pos hr]
              exact hL
            · intro c hc
              obtain ⟨hcv, hcne, hxw, ⟨yw, hyw, hysub⟩⟩ := hLmem c hc
              exact ⟨hcv, hcne, hxw, ⟨yw, List.mem_cons_of_mem y hyw, hysub⟩⟩
          · obtain ⟨c, hc, hcv, hcsem⟩ := TimeInterval.inter_ok
              (hxv x (List.mem_cons_self x xs')) (hyv y (List.mem_cons_self y ys'))
            have hsub : ∀ t, c.contains_ts t = true →
                x.contains_ts t = true ∧ y.contains_ts t = true := by
              intro t ht
              have h3 := (hcsem t).symm.trans ht
              simpa using h3
            have hsubx : ∀ t, c.contains_ts t = true → x.contains_ts t = true :=
              fun t ht => (hsub t ht).1
            have hsuby : ∀ t, c.contains_ts t = true → y.contains_ts t = true :=
              fun t ht => (hsub t ht).2
            by_cases hadv : TimeInterval.endKeyLt x y = true
            · obtain ⟨L, hL, hLmem, hLp⟩ := ih xs' (y :: ys')
                (by simp only [List.length_cons] at hlen ⊢; omega)
                (fun i hi => hxv i (List.mem_cons_of_mem x hi)) hyv
                (fun i hi => hxne i (List.mem_cons_of_mem x hi)) hyne
                (List.pairwise_cons.mp hxp).2 hyp
              have hrun : interLoop (x :: xs') (y :: ys') =
                  .ok (if !c.is_empty then c :: L else L) := by
                rw [interLoop, if_neg (by simp [hl]), if_neg (by simp [hr])]
                simp [hc, Bind.bind, Except.bind, hadv, hL]
              by_cases hce : c.is_empty = true
              · refine ⟨L, by rw [hrun]; simp [hce], ?_, hLp⟩
                intro d hd
                obtain ⟨hdv, hdne, ⟨xw, hxw, hxsub⟩, hyw⟩ := hLmem d hd
                exact ⟨hdv, hdne, ⟨xw, List.mem_cons_of_mem x hxw, hxsub⟩, hyw⟩
              · have hce' : c.is_empty = false := by simpa using hce
                refine ⟨c :: L, by rw [hrun]; simp [hce'], ?_, ?_⟩
                · intro d hd
                  rcases List.mem_cons.mp hd with rfl | hd2
                  · exact ⟨hcv, hce', ⟨x, List.mem_cons_self x xs', hsubx⟩,
                      ⟨y, List.mem_cons_self y ys', hsuby⟩⟩
                  · obtain ⟨hdv, hdne, ⟨xw, hxw, hxsub⟩, hyw⟩ := hLmem d hd2
                    exact ⟨hdv, hdne, ⟨xw, List.mem_cons_of_mem x hxw, hxsub⟩, hyw⟩
                · rw [List.pairwise_cons]
                  refine ⟨fun d hd => ?_, hLp⟩
                  obtain ⟨hdv, hdne, ⟨xw, hxw, hxsub⟩, _⟩ := hLmem d hd
                  have hxxw : x.is_left_of_disconnectedly xw = true :=
                    (List.pairwise_cons.mp hxp).1 xw hxw
                  exact TimeInterval.dLd_mono (hxv x (List.mem_cons_self x xs'))
                    (hxv xw (List.mem_cons_of_mem x hxw)) hcv hdv hce' hdne
                    hsubx hxsub hxxw
            · obtain ⟨L, hL, hLmem, hLp⟩ := ih (x :: xs') ys'
                (by simp only [List.length_cons] at hlen ⊢; omega)
                hxv (fun i hi => hyv i (List.mem_cons_of_mem y hi))
                hxne (fun i hi => hyne i (List.mem_cons_of_mem y hi))
                hxp (List.pairwise_cons.mp hyp).2
              have hrun : interLoop (x :: xs') (y :: ys') =
                  .ok (if !c.is_empty then c :: L else L) := by
                rw [interLoop, if_neg (by simp [hl]), if_neg (by simp [hr])]
                simp [hc, Bind.bind, Except.bind, hadv, hL]
              by_cases hce : c.is_empty = true
              · refine ⟨L, by rw [hrun]; simp [hce], ?_, hLp⟩
                intro d hd
                obtain ⟨hdv, hdne, hxw, ⟨yw, hyw, hysub⟩⟩ := hLmem d hd
                exact ⟨hdv, hdne, hxw, ⟨yw, List.mem_cons_of_mem y hyw, hysub⟩⟩
              · have hce' : c.is_empty = false := by simpa using hce
                refine ⟨c :: L, by rw [hrun]; simp [hce'], ?_, ?_⟩
                · intro d hd
                  rcases List.mem_cons.mp hd with rfl | hd2
                  · exact ⟨hcv, hce', ⟨x, List.mem_cons_self x xs', hsubx⟩,
                      ⟨y, List.mem_cons_self y ys', hsuby⟩⟩
                  · obtain ⟨hdv, hdne, hxw, ⟨yw, hyw, hysub⟩⟩ := hLmem d hd2
                    exact ⟨hdv, hdne, hxw, ⟨yw, List.mem_cons_of_mem y hyw, hysub⟩⟩
                · rw [List.pairwise_cons]
                  refine ⟨fun d hd => ?_, hLp⟩
                  obtain ⟨hdv, hdne, _, ⟨yw, hyw, hysub⟩⟩ := hLmem d hd
                  have hyyw : y.is_left_of_disconnectedly yw = true :=
                    (List.pairwise_cons.mp hyp).1 yw hyw
                  exact TimeInterval.dLd_mono (hyv y (List.mem_cons_self y ys'))
                    (hyv yw (List.mem_cons_of_mem y hyw)) hcv hdv hce' hdne
                    hsuby hysub hyyw

theorem any_filter_nonempty (l : List TimeInterval) (t : Ts) :
    ((l.filter TimeInterval.is_nonempty).any (fun p => p.contains_ts t)) =
      (l.any (fun p => p.contains_ts t)) := by
  induction l with
  | nil => rfl
  | cons i rest ih =>
    by_cases hi : TimeInterval.is_nonempty i = true
    · simp [List.filter_cons, hi, ih]
    · have hie : i.is_empty = true := by
        have hne' : TimeInterval.is_nonempty i = false := by simpa using hi
        simpa [TimeInterval.is_nonempty, TimeInterval.is_empty] using hne'
      simp [List.filter_cons, hi, ih, TimeInterval.contains_ts_of_empty hie]

theorem pairsOk_of_chain' {l : List TimeInterval}
    (h : List.Chain' (fun a b => a.is_left_of_disconnectedly b = true) l) :
    pairsOk l = true := by
  induction l with
  | nil => rfl
  | cons a rest ih =>
    cases rest with
    | nil => rfl
    | cons b rest2 =>
      rw [List.chain'_cons] at h
      rw [pairsOk, Bool.and_eq_true]
      exact ⟨h.1, ih h.2⟩

theorem chain'_of_pairsOk {l : List TimeInterval} (h : pairsOk l = true) :
    List.Chain' (fun a b => a.is_left_of_disconnectedly b = true) l := by
  induction l with
  | nil => simp
  | cons a rest ih =>
    cases rest with
    | nil => simp
    | cons b rest2 =>
      rw [pairsOk, Bool.and_eq_true] at h
      exact List.chain'_cons.mpr ⟨h.1, ih h.2⟩

/-- If some component of a canonical list contains `t`, then `t` passes
the left bound of the first component. -/
theorem anyMem_leftOkB {c : TimeInterval} {rest : List TimeInterval}
    (hv : ∀ i ∈ c :: rest, i.is_valid = true)
    (hp : (c :: rest).Pairwise (fun a b => a.is_left_of_disconnectedly b = true))
    {t : Ts} (h : (c :: rest).any (fun i => i.contains_ts t) = true) :
    TimeInterval.leftOkB c.start c.is_start_included t = true := by
  obtain ⟨i, hi, hit⟩ := List.any_eq_true.mp h
  rcases List.mem_cons.mp hi with rfl | hi2
  · have hvc := hv i (List.mem_cons_self i rest)
    have hnec : i.is_empty = false := by
      cases hce : i.is_empty
      · rfl
      · rw [TimeInterval.contains_ts_of_empty hce] at hit
        exact absurd hit (by simp)
    rw [TimeInterval.contains_ts_eq hvc hnec, Bool.and_eq_true] at hit
    exact hit.1
  · have hci := (List.pairwise_cons.mp hp).1 i hi2
    have hvi := hv i (List.mem_cons_of_mem c hi2)
    obtain ⟨_, hnei, _⟩ := TimeInterval.dLd_shape hci
    rw [TimeInterval.contains_ts_eq hvi hnei, Bool.and_eq_true] at hit
    have hnotR := TimeInterval.L_imp_notR_of_dLd hci hit.1
    exact TimeInterval.notR_imp_L (hv c (List.mem_cons_self c rest)) hnotR

/-- The gap pieces plus the right ray of the last component cover exactly
the moments that pass the first component's left bound without lying in
any component. -/
theorem gaps_toRight_mem {c : TimeInterval} {rest : List TimeInterval}
    (hv : ∀ i ∈ c :: rest, i.is_valid = true)
    (hne : ∀ i ∈ c :: rest, i.is_empty = false)
    (hp : (c :: rest).Pairwise (fun a b => a.is_left_of_disconnectedly b = true))
    (t : Ts) :
    ((gapsTot (c :: rest) ++ [((c :: rest).getLastD c).to_the_right]).any
        (fun p => p.contains_ts t)) =
      (TimeInterval.leftOkB c.start c.is_start_included t &&
        !((c :: rest).any (fun i => i.contains_ts t))) := by
  induction rest generalizing c with
  | nil =>
    have hg : gapsTot [c] = [] := rfl
    have hgl : ([c].getLastD c) = c := rfl
    simp only [hg, hgl, List.nil_append, List.any_cons, List.any_nil,
      Bool.or_false]
    rw [TimeInterval.to_the_right_mem (hne c (List.mem_cons_self c [])) t,
      TimeInterval.contains_ts_eq (hv c (List.mem_cons_self c []))
        (hne c (List.mem_cons_self c []))]
    cases hR : TimeInterval.rightOkB c.endp c.is_end_included t
    · rw [TimeInterval.notR_imp_L (hv c (List.mem_cons_self c [])) hR]
      simp
    · cases hLc : TimeInterval.leftOkB c.start c.is_start_included t <;> simp
  | cons c1 rest' ih =>
    have hvc := hv c (List.mem_cons_self _ _)
    have hvc1 := hv c1 (by simp)
    have hdld : c.is_left_of_disconnectedly c1 = true :=
      (List.pairwise_cons.mp hp).1 c1 (by simp)
    obtain ⟨hbet, hgv, hgne, hgs, hge, hgsi, hgei, hgmem⟩ :=
      TimeInterval.gapTot_spec hvc hvc1 hdld
    have htv : ∀ i ∈ c1 :: rest', i.is_valid = true :=
      fun i hi => hv i (List.mem_cons_of_mem c hi)
    have htne : ∀ i ∈ c1 :: rest', i.is_empty = false :=
      fun i hi => hne i (List.mem_cons_of_mem c hi)
    have htp := (List.pairwise_cons.mp hp).2
    have IH := ih htv htne htp
    simp only [List.getLastD_cons] at IH
    simp only [gapsTot, List.getLastD_cons, List.cons_append, List.any_cons]
    rw [hgmem t, IH,
      TimeInterval.contains_ts_eq hvc (hne c (List.mem_cons_self _ _))]
    cases hL1 : TimeInterval.leftOkB c1.start c1.is_start_included t
    · have hM1 : ((c1 :: rest').any fun i => i.contains_ts t) = false := by
        cases hM : ((c1 :: rest').any fun i => i.contains_ts t)
        · rfl
        · exact absurd (anyMem_leftOkB htv htp hM) (by simp [hL1])
      cases hRc : TimeInterval.rightOkB c.endp c.is_end_included t
      · rw [TimeInterval.notR_imp_L hvc hRc]
        simp <;> simpa using hM1
      · cases hLc : TimeInterval.leftOkB c.start c.is_start_included t <;>
          simp <;> simpa using hM1
    · have hRc : TimeInterval.rightOkB c.endp c.is_end_included t = false :=
        TimeInterval.L_imp_notR_of_dLd hdld hL1
      rw [hRc, TimeInterval.notR_imp_L hvc hRc]
      simp

/-- The complement pieces of a canonical component list contain exactly
the moments outside every component. -/
theorem piecesTot_mem {c : TimeInterval} {rest : List TimeInterval}
    (hv : ∀ i ∈ c :: rest, i.is_valid = true)
    (hne : ∀ i ∈ c :: rest, i.is_empty = false)
    (hp : (c :: rest).Pairwise (fun a b => a.is_left_of_disconnectedly b = true))
    (t : Ts) :
    ((piecesTot (c :: rest)).any (fun p => p.contains_ts t)) =
      !((c :: rest).any (fun i => i.contains_ts t)) := by
  have hmain := gaps_toRight_mem hv hne hp t
  have hunf : piecesTot (c :: rest) =
      c.to_the_left ::
        (gapsTot (c :: rest) ++ [((c :: rest).getLastD c).to_the_right]) := rfl
  rw [hunf, List.any_cons,
    TimeInterval.to_the_left_mem (hne c (List.mem_cons_self _ _)) t, hmain]
  cases hLc : TimeInterval.leftOkB c.start c.is_start_included t
  · have hM : ((c :: rest).any fun i => i.contains_ts t) = false := by
      cases hM2 : ((c :: rest).any fun i => i.contains_ts t)
      · rfl
      · exact absurd (anyMem_leftOkB hv hp hM2) (by simp [hLc])
    simp <;> simpa using hM
  · simp

theorem getLastD_cons_mem (c : TimeInterval) (rest : List TimeInterval) :
    (c :: rest).getLastD c ∈ c :: rest := by
  induction rest generalizing c with
  | nil => simp [List.getLastD]
  | cons b l ih =>
    have hstep : (c :: b :: l).getLastD c = (b :: l).getLastD b := rfl
    rw [hstep]
    exact List.mem_cons_of_mem c (ih b)

/-- On a canonical component list, `between` never raises and the gap
list is `gapsTot`. -/
theorem betweens_eq {l : List TimeInterval}
    (hv : ∀ i ∈ l, i.is_valid = true)
    (hch : List.Chain' (fun a b => a.is_left_of_disconnectedly b = true) l) :
    betweens l = .ok (gapsTot l) := by
  induction l with
  | nil => rfl
  | cons f rest ih =>
    cases rest with
    | nil => rfl
    | cons s rest2 =>
      rw [List.chain'_cons] at hch
      obtain ⟨hbet, _, _, _, _, _, _, _⟩ :=
        TimeInterval.gapTot_spec (hv f (by simp)) (hv s (by simp)) hch.1
      have ihres := ih (fun i hi => hv i (List.mem_cons_of_mem f hi)) hch.2
      simp [betweens, hbet, ihres, Bind.bind, Except.bind, gapsTot]

theorem gapsTot_props {l : List TimeInterval}
    (hv : ∀ i ∈ l, i.is_valid = true)
    (hch : List.Chain' (fun a b => a.is_left_of_disconnectedly b = true) l) :
    ∀ g ∈ gapsTot l, g.is_valid = true ∧ g.is_empty = false := by
  induction l with
  | nil => simp [gapsTot]
  | cons f rest ih =>
    cases rest with
    | nil => simp [gapsTot]
    | cons s rest2 =>
      rw [List.chain'_cons] at hch
      obtain ⟨_, hgv, hgne, _⟩ :=
        TimeInterval.gapTot_spec (hv f (by simp)) (hv s (by simp)) hch.1
      intro g hg
      have hg' : g = gapTot f s ∨ g ∈ gapsTot (s :: rest2) := by
        simpa [gapsTot] using hg
      rcases hg' with rfl | hg2
      · exact ⟨hgv, hgne⟩
      · exact ih (fun i hi => hv i (List.mem_cons_of_mem f hi)) hch.2 g hg2

/-- The gap pieces followed by the optional right ray form a canonical
chain. -/
theorem chain_gaps_optR {c : TimeInterval} {rest : List TimeInterval}
    (hv : ∀ i ∈ c :: rest, i.is_valid = true)
    (hne : ∀ i ∈ c :: rest, i.is_empty = false)
    (hch : List.Chain' (fun a b => a.is_left_of_disconnectedly b = true) (c :: rest)) :
    List.Chain' (fun a b => a.is_left_of_disconnectedly b = true)
      (gapsTot (c :: rest) ++ optRight ((c :: rest).getLastD c)) := by
  induction rest generalizing c with
  | nil =>
    have h1 : gapsTot [c] = [] := rfl
    have h2 : ([c].getLastD c) = c := rfl
    rw [h1, h2, List.nil_append]
    unfold optRight
    rcases c.endp with _ | ev <;> simp
  | cons c1 rest' ih =>
    have hvc := hv c (by simp)
    have hvc1 := hv c1 (by simp)
    rw [List.chain'_cons] at hch
    obtain ⟨hbet, hgv, hgne, hgs, hge, hgsi, hgei, hgmem⟩ :=
      TimeInterval.gapTot_spec hvc hvc1 hch.1
    have htv : ∀ i ∈ c1 :: rest', i.is_valid = true :=
      fun i hi => hv i (List.mem_cons_of_mem c hi)
    have htne : ∀ i ∈ c1 :: rest', i.is_empty = false :=
      fun i hi => hne i (List.mem_cons_of_mem c hi)
    have IH := ih htv htne hch.2
    have hshape : gapsTot (c :: c1 :: rest') ++
          optRight ((c :: c1 :: rest').getLastD c) =
        gapTot c c1 ::
          (gapsTot (c1 :: rest') ++ optRight ((c1 :: rest').getLastD c1)) := rfl
    rw [hshape]
    refine List.chain'_cons'.mpr ⟨?_, IH⟩
    intro y hy
    obtain ⟨_, _, ev0, sv, hen0, hst1, _⟩ := TimeInterval.dLd_shape hch.1
    cases rest' with
    | nil =>
      revert hy
      have h1 : gapsTot [c1] = [] := rfl
      have h2 : ([c1].getLastD c1) = c1 := rfl
      rw [h1, h2, List.nil_append]
      unfold optRight
      rcases hc1e : c1.endp with _ | ev
      · intro hy
        simp at hy
      · intro hy
        simp at hy
        subst hy
        obtain ⟨t1, t2, t3, t4, t5, t6⟩ :=
          TimeInterval.to_the_right_fields (hne c1 (by simp)) hc1e
        exact TimeInterval.dLd_of_flanking hvc1 hgne t2 hst1
          (hge.trans hst1) hgei hc1e t3 t5
    | cons c2 rest2 =>
      have hsh2 : gapsTot (c1 :: c2 :: rest2) ++
            optRight ((c1 :: c2 :: rest2).getLastD c1) =
          gapTot c1 c2 ::
            (gapsTot (c2 :: rest2) ++ optRight ((c2 :: rest2).getLastD c2)) := rfl
      rw [hsh2] at hy
      simp at hy
      subst hy
      have hdld12 : c1.is_left_of_disconnectedly c2 = true :=
        (List.chain'_cons.mp hch.2).1
      obtain ⟨hbet2, hgv2, hgne2, hgs2, hge2, hgsi2, hgei2, _⟩ :=
        TimeInterval.gapTot_spec hvc1 (hv c2 (by simp)) hdld12
      obtain ⟨_, _, ev1, sv2, hen1, hst2, _⟩ := TimeInterval.dLd_shape hdld12
      exact TimeInterval.dLd_of_flanking hvc1 hgne hgne2 hst1
        (hge.trans hst1) hgei hen1 (hgs2.trans hen1) hgsi2

theorem filter_toLeft {c : TimeInterval} (hne : c.is_empty = false) :
    List.filter TimeInterval.is_nonempty [c.to_the_left] = optLeft c := by
  rcases hcs : c.start with _ | sv
  · have hl0 := TimeInterval.to_the_left_none hne hcs
    unfold optLeft
    rw [hcs, hl0]
    rfl
  · obtain ⟨f1, f2, f3, f4, f5, f6⟩ := TimeInterval.to_the_left_fields hne hcs
    unfold optLeft
    rw [hcs, List.filter_cons,
      if_pos (by rw [TimeInterval.is_nonempty_eq_not_empty, f2]; rfl)]
    rfl

theorem filter_toRight {c : TimeInterval} (hne : c.is_empty = false) :
    List.filter TimeInterval.is_nonempty [c.to_the_right] = optRight c := by
  rcases hce : c.endp with _ | ev
  · have hr0 := TimeInterval.to_the_right_none hne hce
    unfold optRight
    rw [hce, hr0]
    rfl
  · obtain ⟨f1, f2, f3, f4, f5, f6⟩ := TimeInterval.to_the_right_fields hne hce
    unfold optRight
    rw [hce, List.filter_cons,
      if_pos (by rw [TimeInterval.is_nonempty_eq_not_empty, f2]; rfl)]
    rfl

/-- The non-empty filter of the complement's piece list keeps exactly the
optional left ray, every gap, and the optional right ray. -/
theorem piecesFilter_eq {c : TimeInterval} {rest : List TimeInterval}
    (hv : ∀ i ∈ c :: rest, i.is_valid = true)
    (hne : ∀ i ∈ c :: rest, i.is_empty = false)
    (hch : List.Chain' (fun a b => a.is_left_of_disconnectedly b = true) (c :: rest)) :
    (piecesTot (c :: rest)).filter TimeInterval.is_nonempty =
      optLeft c ++ (gapsTot (c :: rest) ++ optRight ((c :: rest).getLastD c)) := by
  have hunf : piecesTot (c :: rest) =
      [c.to_the_left] ++
        (gapsTot (c :: rest) ++ [((c :: rest).getLastD c).to_the_right]) := rfl
  have hgaps : (gapsTot (c :: rest)).filter TimeInterval.is_nonempty =
      gapsTot (c :: rest) :=
    List.filter_eq_self.mpr (fun g hg => by
      rw [TimeInterval.is_nonempty_eq_not_empty, (gapsTot_props hv hch g hg).2]
      rfl)
  rw [hunf, List.filter_append, List.filter_append, hgaps,
    filter_toLeft (hne c (by simp)),
    filter_toRight (hne _ (getLastD_cons_mem c rest))]

/-- The filtered complement pieces form a canonical chain. -/
theorem chain_pieces {c : TimeInterval} {rest : List TimeInterval}
    (hv : ∀ i ∈ c :: rest, i.is_valid = true)
    (hne : ∀ i ∈ c :: rest, i.is_empty = false)
    (hch : List.Chain' (fun a b => a.is_left_of_disconnectedly b = true) (c :: rest)) :
    List.Chain' (fun a b => a.is_left_of_disconnectedly b = true)
      (optLeft c ++ (gapsTot (c :: rest) ++ optRight ((c :: rest).getLastD c))) := by
  rcases hcs : c.start with _ | sv
  · have hl0 : optLeft c = [] := by
      unfold optLeft
      rw [hcs]
    rw [hl0, List.nil_append]
    exact chain_gaps_optR hv hne hch
  · have hopt : optLeft c = [c.to_the_left] := by
      unfold optLeft
      rw [hcs]
    rw [hopt]
    refine List.chain'_cons'.mpr ⟨?_, chain_gaps_optR hv hne hch⟩
    intro y hy
    obtain ⟨l1, l2, l3, l4, l5, l6⟩ :=
      TimeInterval.to_the_left_fields (hne c (by simp)) hcs
    cases rest with
    | nil =>
      revert hy
      have h1 : gapsTot [c] = [] := rfl
      have h2 : ([c].getLastD c) = c := rfl
      rw [h1, h2, List.nil_append]
      unfold optRight
      rcases hce : c.endp with _ | ev
      · intro hy
        simp at hy
      · intro hy
        simp at hy
        subst hy
        obtain ⟨r1, r2, r3, r4, r5, r6⟩ :=
          TimeInterval.to_the_right_fields (hne c (by simp)) hce
        exact TimeInterval.dLd_of_flanking (hv c (by simp)) l2 r2 hcs l4 l6
          hce r3 r5
    | cons c1 rest2 =>
      have hsh : gapsTot (c :: c1 :: rest2) ++
            optRight ((c :: c1 :: rest2).getLastD c) =
          gapTot c c1 ::
            (gapsTot (c1 :: rest2) ++ optRight ((c1 :: rest2).getLastD c1)) := rfl
      rw [hsh] at hy
      simp at hy
      subst hy
      have hd := (List.chain'_cons.mp hch).1
      obtain ⟨hbet, hgv, hgne, hgs, hge, hgsi, hgei, _⟩ :=
        TimeInterval.gapTot_spec (hv c (by simp)) (hv c1 (by simp)) hd
      obtain ⟨_, _, ev0, sv0, hen0, hst0, _⟩ := TimeInterval.dLd_shape hd
      exact TimeInterval.dLd_of_flanking (hv c (by simp)) l2 hgne hcs l4 l6
        hen0 (hgs.trans hen0) hgsi

/-- Every filtered complement piece is valid and non-empty. -/
theorem pieces_props {c : TimeInterval} {rest : List TimeInterval}
    (hv : ∀ i ∈ c :: rest, i.is_valid = true)
    (hne : ∀ i ∈ c :: rest, i.is_empty = false)
    (hch : List.Chain' (fun a b => a.is_left_of_disconnectedly b = true) (c :: rest)) :
    ∀ p ∈ optLeft c ++ (gapsTot (c :: rest) ++ optRight ((c :: rest).getLastD c)),
      p.is_valid = true ∧ p.is_empty = false := by
  intro p hp
  rcases List.mem_append.mp hp with hp1 | hp2
  · unfold optLeft at hp1
    rcases hcs : c.start with _ | sv
    · rw [hcs] at hp1
      simp at hp1
    · rw [hcs] at hp1
      simp at hp1
      subst hp1
      obtain ⟨l1, l2, _⟩ := TimeInterval.to_the_left_fields (hne c (by simp)) hcs
      exact ⟨l1, l2⟩
  · rcases List.mem_append.mp hp2 with hg | hr
    · exact gapsTot_props hv hch p hg
    · unfold optRight at hr
      have hlast := getLastD_cons_mem c rest
      rcases hle : ((c :: rest).getLastD c).endp with _ | ev
      · rw [hle] at hr
        simp at hr
      · rw [hle] at hr
        simp at hr
        subst hr
        obtain ⟨r1, r2, _⟩ := TimeInterval.to_the_right_fields (hne _ hlast) hle
        exact ⟨r1, r2⟩

theorem groupTouching_singletons {x : TimeInterval} {l : List TimeInterval}
    (h : List.Chain' (fun a b => a.touches b = false) (x :: l)) :
    groupTouching x [x] l = [x] :: l.map (fun i => [i]) := by
  induction l generalizing x with
  | nil => rfl
  | cons i rest ih =>
    rw [List.chain'_cons] at h
    rw [groupTouching, if_neg (by simp [h.1]), ih h.2]
    rfl

theorem groupTouching_chain {x : TimeInterval} {g l : List TimeInterval}
    (h : List.Chain' (fun a b => a.touches b = true) (x :: l)) :
    groupTouching x g l = [g ++ l] := by
  induction l generalizing x g with
  | nil => simp [groupTouching]
  | cons i rest ih =>
    rw [List.chain'_cons] at h
    rw [groupTouching, if_pos h.1, ih h.2]
    simp

theorem mapCover_singletons {l : List TimeInterval}
    (h : ∀ i ∈ l, i.is_valid = true ∧ i.is_empty = false) :
    mapCover (l.map (fun i => [i])) = .ok l := by
  induction l with
  | nil => rfl
  | cons i rest ih =>
    have hi := h i (by simp)
    simp [mapCover, TimeInterval.minimal_cover_singleton hi.1 hi.2,
      ih (fun j hj => h j (List.mem_cons_of_mem i hj)), Bind.bind, Except.bind]

theorem pairwise_of_chain'_dLd {l : List TimeInterval}
    (hv : ∀ i ∈ l, i.is_valid = true)
    (hch : List.Chain' (fun a b => a.is_left_of_disconnectedly b = true) l) :
    l.Pairwise (fun a b => a.is_left_of_disconnectedly b = true) :=
  pairwise_dLd_of_pairsOk hv (pairsOk_of_chain' hch)

/-- `union` applied to a canonical chain of components is the identity:
nothing merges, and the constructor check passes. -/
theorem unionE_of_chain {l : List TimeInterval}
    (hv : ∀ i ∈ l, i.is_valid = true)
    (hne : ∀ i ∈ l, i.is_empty = false)
    (hch : List.Chain' (fun a b => a.is_left_of_disconnectedly b = true) l) :
    unionE l = .ok ⟨l⟩ := by
  have hfilt : l.filter TimeInterval.is_nonempty = l :=
    List.filter_eq_self.mpr (fun i hi => by
      rw [TimeInterval.is_nonempty_eq_not_empty, hne i hi]
      rfl)
  unfold unionE
  dsimp only
  rw [hfilt]
  cases l with
  | nil => rfl
  | cons p ps =>
    have hpair := pairwise_of_chain'_dLd hv hch
    have hpair' : (p :: ps).Pairwise
        (fun a b => TimeInterval.unionKeyLt b a = false) :=
      hpair.imp_of_mem (fun ha hb hab =>
        TimeInterval.unionKeyLt_asymm
          (TimeInterval.dLd_unionKeyLt (hv _ ha) hab))
    have hsorted : TimeInterval.pySort (p :: ps) = p :: ps :=
      TimeInterval.pySort_of_pairwise hpair'
    have hgroups := groupTouching_singletons
      (hch.imp (fun _ _ hab => TimeInterval.touches_false_of_dLd hab))
    have hmap : mapCover ([p] :: ps.map (fun i => [i])) = .ok (p :: ps) := by
      rw [show ([p] :: ps.map (fun i => [i])) = (p :: ps).map (fun i => [i])
        from rfl]
      exact mapCover_singletons (fun i hi => ⟨hv i hi, hne i hi⟩)
    have hvalid : is_valid ⟨p :: ps⟩ = true := by
      rw [is_valid, Bool.and_eq_true]
      refine ⟨List.all_eq_true.mpr (fun i hi => ?_), pairsOk_of_chain' hch⟩
      rw [Bool.not_eq_true']
      exact hne i hi
    dsimp only
    rw [hsorted]
    simp only [List.headD, List.tail_cons]
    rw [hgroups]
    simp only [Bind.bind, Except.bind]
    rw [hmap]
    unfold mkE
    dsimp only
    rw [if_pos hvalid]

/-- `complement` on a canonical non-empty TimeSet never raises and
returns exactly the filtered piece list. -/
theorem complement_eq {c : TimeInterval} {rest : List TimeInterval}
    (hv : ∀ i ∈ c :: rest, i.is_valid = true)
    (hne : ∀ i ∈ c :: rest, i.is_empty = false)
    (hch : List.Chain' (fun a b => a.is_left_of_disconnectedly b = true) (c :: rest)) :
    complement ⟨c :: rest⟩ =
      .ok ⟨optLeft c ++ (gapsTot (c :: rest) ++ optRight ((c :: rest).getLastD c))⟩ := by
  unfold complement
  dsimp only
  rw [betweens_eq hv hch]
  simp only [Bind.bind, Except.bind]
  have hpieces : (c.to_the_left :: gapsTot (c :: rest) ++
      [((c :: rest).getLast (by simp)).to_the_right]) = piecesTot (c :: rest) := rfl
  rw [hpieces]
  have hfilt := piecesFilter_eq hv hne hch
  have hchP := chain_pieces hv hne hch
  have hprops := pieces_props hv hne hch
  have hres := unionE_of_chain (fun p hp => (hprops p hp).1)
    (fun p hp => (hprops p hp).2) hchP
  calc unionE (piecesTot (c :: rest))
      = unionE ((piecesTot (c :: rest)).filter TimeInterval.is_nonempty) := by
        unfold unionE
        dsimp only
        rw [List.filter_filter]
        simp
    _ = .ok ⟨optLeft c ++ (gapsTot (c :: rest) ++
          optRight ((c :: rest).getLastD c))⟩ := by
        rw [hfilt, hres]

theorem comp_gap_keyLt {f s : TimeInterval} (hf : f.is_valid = true)
    (hs : s.is_valid = true) (h : f.is_left_of_disconnectedly s = true) :
    TimeInterval.unionKeyLt f (gapTot f s) = true := by
  obtain ⟨hbet, hgv, hgne, hgs, hge, hgsi, hgei, _⟩ := TimeInterval.gapTot_spec hf hs h
  obtain ⟨hfe, hse, ev, sv, hen, hst, hc⟩ := TimeInterval.dLd_shape h
  unfold TimeInterval.unionKeyLt
  rcases hfs : f.start with _ | sa
  · rw [hgs.trans hen]
  · rw [hgs.trans hen]
    dsimp only
    have hle := TimeInterval.le_of_valid hf hfs hen
    rcases eq_or_lt_of_le hle with heq | hlt
    · subst heq
      rw [if_pos (by simp)]
      have hk := TimeInterval.point_kind_of_valid_eq hf hfs hen rfl
      have hlt2 : sa < sv := by
        rcases hc with hlt2 | ⟨heq2, hfa, _⟩
        · exact hlt2
        · exfalso
          simp [TimeInterval.is_end_included, hk, Kind.endSpecified,
            Kind.endIncluded] at hfa
      unfold TimeInterval.endKeyLt
      rw [hen, hge.trans hst]
      simp [hlt2]
    · rw [if_neg (by simp [ne_of_lt hlt] : ¬((sa == ev) = true))]
      simp [hlt]

theorem comp_gap_touches {f s : TimeInterval} (hf : f.is_valid = true)
    (hs : s.is_valid = true) (h : f.is_left_of_disconnectedly s = true) :
    f.touches (gapTot f s) = true := by
  obtain ⟨hbet, hgv, hgne, hgs, hge, hgsi, hgei, _⟩ := TimeInterval.gapTot_spec hf hs h
  obtain ⟨hfe, hse, ev, sv, hen, hst, hc⟩ := TimeInterval.dLd_shape h
  apply TimeInterval.touches_intro hfe hgne
  · unfold TimeInterval.is_left_of_disconnectedly
    rw [if_neg (by simp [hfe, hgne]), hen, hgs.trans hen]
    dsimp only
    rw [if_neg (by simp : ¬ev < ev), if_pos (by simp), hgsi]
    rcases TimeInterval.flag_some_of_endp hf hen with hfl | hfl <;> rw [hfl] <;> simp
  · unfold TimeInterval.is_left_of_disconnectedly
    rw [if_neg (by simp [hfe, hgne]), hge.trans hst]
    rcases hfs : f.start with _ | sa
    · rfl
    · dsimp only
      have hle := TimeInterval.le_of_valid hf hfs hen
      have hstrict : sa < sv := by
        rcases hc with hlt | ⟨heq, hfa, _⟩
        · linarith
        · subst heq
          rcases eq_or_lt_of_le hle with heq2 | hlt2
          · exfalso
            have hk := TimeInterval.point_kind_of_valid_eq hf hfs hen heq2
            simp [TimeInterval.is_end_included, hk, Kind.endSpecified,
              Kind.endIncluded] at hfa
          · exact hlt2
      rw [if_neg (by simp; linarith : ¬sv < sa),
        if_neg (by simp [ne_of_gt hstrict] : ¬((sv == sa) = true))]

theorem gap_comp_keyLt {f s : TimeInterval} (hf : f.is_valid = true)
    (hs : s.is_valid = true) (h : f.is_left_of_disconnectedly s = true) :
    TimeInterval.unionKeyLt (gapTot f s) s = true := by
  obtain ⟨hbet, hgv, hgne, hgs, hge, hgsi, hgei, _⟩ := TimeInterval.gapTot_spec hf hs h
  obtain ⟨hfe, hse, ev, sv, hen, hst, hc⟩ := TimeInterval.dLd_shape h
  unfold TimeInterval.unionKeyLt
  rw [hgs.trans hen, hst]
  dsimp only
  rcases hc with hlt | ⟨heq, hfa, hfb⟩
  · rw [if_neg (by simp [ne_of_lt hlt] : ¬((ev == sv) = true))]
    simp [hlt]
  · subst heq
    rw [if_pos (by simp)]
    unfold TimeInterval.endKeyLt
    rw [hge.trans hst]
    rcases hsend : s.endp with _ | es
    · rfl
    · dsimp only
      have hle2 := TimeInterval.le_of_valid hs hst hsend
      rcases eq_or_lt_of_le hle2 with heq2 | hlt2
      · exfalso
        have hk := TimeInterval.point_kind_of_valid_eq hs hst hsend heq2
        simp [TimeInterval.is_start_included, hk, Kind.startSpecified,
          Kind.startIncluded] at hfb
      · simp [hlt2]

theorem gap_comp_touches {f s : TimeInterval} (hf : f.is_valid = true)
    (hs : s.is_valid = true) (h : f.is_left_of_disconnectedly s = true) :
    (gapTot f s).touches s = true := by
  obtain ⟨hbet, hgv, hgne, hgs, hge, hgsi, hgei, _⟩ := TimeInterval.gapTot_spec hf hs h
  obtain ⟨hfe, hse, ev, sv, hen, hst, hc⟩ := TimeInterval.dLd_shape h
  apply TimeInterval.touches_intro hgne hse
  · unfold TimeInterval.is_left_of_disconnectedly
    rw [if_neg (by simp [hgne, hse]), hge.trans hst, hst]
    dsimp only
    rw [if_neg (by simp : ¬sv < sv), if_pos (by simp), hgei]
    rcases TimeInterval.flag_some_of_start hs hst with hfl | hfl <;> rw [hfl] <;> simp
  · unfold TimeInterval.is_left_of_disconnectedly
    rw [if_neg (by simp [hgne, hse]), hgs.trans hen]
    rcases hsend : s.endp with _ | es
    · rfl
    · dsimp only
      have hle2 := TimeInterval.le_of_valid hs hst hsend
      have hstrict : ev < es := by
        rcases hc with hlt | ⟨heq, hfa, hfb⟩
        · linarith
        · subst heq
          rcases eq_or_lt_of_le hle2 with heq2 | hlt2
          · exfalso
            have hk := TimeInterval.point_kind_of_valid_eq hs hst hsend heq2
            simp [TimeInterval.is_start_included, hk, Kind.startSpecified,
              Kind.startIncluded] at hfb
          · exact hlt2
      rw [if_neg (by simp; linarith : ¬es < ev),
        if_neg (by simp [ne_of_gt hstrict] : ¬((es == ev) = true))]

theorem pairwise_keyLt_of_chain' {l : List TimeInterval}
    (h : List.Chain' (fun a b => TimeInterval.unionKeyLt a b = true) l) :
    l.Pairwise (fun a b => TimeInterval.unionKeyLt a b = true) := by
  have h2 : List.Chain' (fun a b : TimeInterval =>
      TimeInterval.sortKey a < TimeInterval.sortKey b) l :=
    h.imp (fun _ _ hab => (TimeInterval.unionKeyLt_iff _ _).mp hab)
  haveI : IsTrans TimeInterval (fun a b =>
      TimeInterval.sortKey a < TimeInterval.sortKey b) := ⟨fun _ _ _ => lt_trans⟩
  exact (List.chain'_iff_pairwise.mp h2).imp
    (fun hab => (TimeInterval.unionKeyLt_iff _ _).mpr hab)

theorem interleave_cons (c : TimeInterval) (rest : List TimeInterval) :
    interleaveTot (c :: rest) = c :: (interleaveTot (c :: rest)).tail := by
  cases rest <;> rfl

/-- The interleaved components and gaps, followed by the optional right
ray, form a chain in which adjacent elements touch and are strictly
key-ordered. -/
theorem chain_interleave_optR {c : TimeInterval} {rest : List TimeInterval}
    (hv : ∀ i ∈ c :: rest, i.is_valid = true)
    (hne : ∀ i ∈ c :: rest, i.is_empty = false)
    (hch : List.Chain' (fun a b => a.is_left_of_disconnectedly b = true) (c :: rest)) :
    List.Chain' (fun a b => a.touches b = true ∧ TimeInterval.unionKeyLt a b = true)
      (interleaveTot (c :: rest) ++ optRight ((c :: rest).getLastD c)) := by
  induction rest generalizing c with
  | nil =>
    have h1 : interleaveTot [c] = [c] := rfl
    have h2 : ([c].getLastD c) = c := rfl
    rw [h1, h2]
    unfold optRight
    rcases hce : c.endp with _ | ev
    · simp
    · simp only [List.cons_append, List.nil_append]
      exact List.chain'_cons.mpr
        ⟨⟨TimeInterval.toRight_touches (hv c (by simp)) (hne c (by simp)) hce,
          TimeInterval.toRight_keyLt (hv c (by simp)) (hne c (by simp)) hce⟩,
         by simp⟩
  | cons c1 rest' ih =>
    rw [List.chain'_cons] at hch
    have hvc := hv c (by simp)
    have hvc1 := hv c1 (by simp)
    have htv : ∀ i ∈ c1 :: rest', i.is_valid = true :=
      fun i hi => hv i (List.mem_cons_of_mem c hi)
    have htne : ∀ i ∈ c1 :: rest', i.is_empty = false :=
      fun i hi => hne i (List.mem_cons_of_mem c hi)
    have IH := ih htv htne hch.2
    have hshape : interleaveTot (c :: c1 :: rest') ++
          optRight ((c :: c1 :: rest').getLastD c) =
        c :: gapTot c c1 ::
          (interleaveTot (c1 :: rest') ++ optRight ((c1 :: rest').getLastD c1)) := rfl
    rw [hshape]
    refine List.chain'_cons.mpr
      ⟨⟨comp_gap_touches hvc hvc1 hch.1, comp_gap_keyLt hvc hvc1 hch.1⟩, ?_⟩
    refine List.chain'_cons'.mpr ⟨?_, IH⟩
    intro y hy
    have hhd : (interleaveTot (c1 :: rest') ++
        optRight ((c1 :: rest').getLastD c1)).head? = some c1 := by
      rw [interleave_cons c1 rest']
      rfl
    rw [hhd] at hy
    simp at hy
    subst hy
    exact ⟨gap_comp_touches hvc hvc1 hch.1, gap_comp_keyLt hvc hvc1 hch.1⟩

/-- The full interleaved list, with the optional boundary rays, is a
touching, strictly key-ordered chain. -/
theorem chain_I {c : TimeInterval} {rest : List TimeInterval}
    (hv : ∀ i ∈ c :: rest, i.is_valid = true)
    (hne : ∀ i ∈ c :: rest, i.is_empty = false)
    (hch : List.Chain' (fun a b => a.is_left_of_disconnectedly b = true) (c :: rest)) :
    List.Chain' (fun a b => a.touches b = true ∧ TimeInterval.unionKeyLt a b = true)
      (optLeft c ++
        (interleaveTot (c :: rest) ++ optRight ((c :: rest).getLastD c))) := by
  rcases hcs : c.start with _ | sv
  · have hl0 : optLeft c = [] := by
      unfold optLeft
      rw [hcs]
    rw [hl0, List.nil_append]
    exact chain_interleave_optR hv hne hch
  · have hopt : optLeft c = [c.to_the_left] := by
      unfold optLeft
      rw [hcs]
    rw [hopt]
    refine List.chain'_cons'.mpr ⟨?_, chain_interleave_optR hv hne hch⟩
    intro y hy
    have hhd : (interleaveTot (c :: rest) ++
        optRight ((c :: rest).getLastD c)).head? = some c := by
      rw [interleave_cons c rest]
      rfl
    have hred : (List.append ([] : List TimeInterval)
        (interleaveTot (c :: rest) ++ optRight ((c :: rest).getLastD c))) =
        interleaveTot (c :: rest) ++ optRight ((c :: rest).getLastD c) := rfl
    rw [hred, hhd] at hy
    simp at hy
    subst hy
    exact ⟨TimeInterval.toLeft_touches (hv c (by simp)) (hne c (by simp)) hcs,
      TimeInterval.toLeft_keyLt (hne c (by simp)) hcs⟩

theorem interleave_perm (l : List TimeInterval) :
    (l ++ gapsTot l).Perm (interleaveTot l) := by
  induction l with
  | nil => simp [gapsTot, interleaveTot]
  | cons c rest ih =>
    cases rest with
    | nil => simp [gapsTot, interleaveTot]
    | cons s rest2 =>
      have h1 : (c :: s :: rest2) ++ gapsTot (c :: s :: rest2) =
          c :: ((s :: rest2) ++ gapTot c s :: gapsTot (s :: rest2)) := rfl
      have h2 : interleaveTot (c :: s :: rest2) =
          c :: gapTot c s :: interleaveTot (s :: rest2) := rfl
      rw [h1, h2]
      exact List.Perm.cons c
        (List.Perm.trans List.perm_middle (List.Perm.cons _ ih))

theorem pyMinBy_start_none {cur : TimeInterval} (h : cur.start = none)
    (xs : List TimeInterval) :
    TimeInterval.pyMinBy TimeInterval.startKeyLt cur xs = cur := by
  induction xs with
  | nil => rfl
  | cons x xs ih =>
    rw [TimeInterval.pyMinBy]
    have hlt : TimeInterval.startKeyLt x cur = false := by
      unfold TimeInterval.startKeyLt
      rw [h]
      rcases x.start <;> rfl
    rw [if_neg (by simp [hlt])]
    exact ih

theorem pyMinBy_end_none {cur : TimeInterval} {xs : List TimeInterval}
    (h : cur.endp = none ∨ ∃ x ∈ xs, x.endp = none) :
    (TimeInterval.pyMinBy (fun a b => TimeInterval.endKeyLt b a) cur xs).endp =
      none := by
  induction xs generalizing cur with
  | nil =>
    rcases h with h | ⟨x, hx, _⟩
    · exact h
    · simp at hx
  | cons x xs ih =>
    rw [TimeInterval.pyMinBy]
    by_cases hcur : cur.endp = none
    · have hlt : TimeInterval.endKeyLt cur x = false := by
        unfold TimeInterval.endKeyLt
        rw [hcur]
        rcases x.endp <;> rfl
      rw [if_neg (by simp [hlt])]
      exact ih (Or.inl hcur)
    · rcases h with h | ⟨y, hy, hye⟩
      · exact absurd h hcur
      rcases List.mem_cons.mp hy with rfl | hy2
      · obtain ⟨ce, hce⟩ : ∃ ce, cur.endp = some ce := by
          rcases hc : cur.endp with _ | ce
          · exact absurd hc hcur
          · exact ⟨ce, rfl⟩
        have hlt : TimeInterval.endKeyLt cur y = true := by
          unfold TimeInterval.endKeyLt
          rw [hce, hye]
        rw [if_pos (by simp [hlt])]
        exact ih (Or.inl hye)
      · cases hcond : TimeInterval.endKeyLt cur x
        · rw [if_neg (by simp [hcond])]
          exact ih (Or.inr ⟨y, hy2, hye⟩)
        · rw [if_pos (by simp [hcond])]
          exact ih (Or.inr ⟨y, hy2, hye⟩)

/-- A group headed by an unbounded-below interval and containing an
unbounded-above interval covers the whole timeline. -/
theorem minimal_cover_timeline {h0 : TimeInterval} {t0 : List TimeInterval}
    (hne : ∀ i ∈ h0 :: t0, i.is_empty = false)
    (hs : h0.start = none)
    (he : ∃ x ∈ h0 :: t0, x.endp = none) :
    TimeInterval.minimal_cover (h0 :: t0) = .ok TimeInterval.timelineI := by
  have hfilt : (h0 :: t0).filter TimeInterval.is_nonempty = h0 :: t0 :=
    List.filter_eq_self.mpr (fun i hi => by
      rw [TimeInterval.is_nonempty_eq_not_empty, hne i hi]
      rfl)
  unfold TimeInterval.minimal_cover
  dsimp only
  rw [hfilt]
  dsimp only
  have hrend : (TimeInterval.pyMinBy
      (fun a b => TimeInterval.endKeyLt b a) h0 t0).endp = none := by
    apply pyMinBy_end_none
    rcases he with ⟨x, hx, hxe⟩
    rcases List.mem_cons.mp hx with rfl | hx2
    · exact Or.inl hxe
    · exact Or.inr ⟨x, hx2, hxe⟩
  rw [pyMinBy_start_none hs t0, hrend, hs]
  rfl

/-- When the sorted input forms a single touching group headed by an
unbounded-below interval and containing an unbounded-above one, `union`
returns the Timeline TimeSet. -/
theorem unionE_single_group {X : List TimeInterval} {ih0 : TimeInterval}
    {it : List TimeInterval}
    (hfilt : X.filter TimeInterval.is_nonempty = X)
    (hXne : X ≠ [])
    (hsort : TimeInterval.pySort X = ih0 :: it)
    (htouch : List.Chain' (fun a b => a.touches b = true) (ih0 :: it))
    (hne : ∀ i ∈ ih0 :: it, i.is_empty = false)
    (hs : ih0.start = none)
    (hend : ∃ x ∈ ih0 :: it, x.endp = none) :
    unionE X = .ok timelineS := by
  unfold unionE
  dsimp only
  rw [hfilt]
  cases X with
  | nil => exact absurd rfl hXne
  | cons x xs =>
    dsimp only
    rw [hsort]
    simp only [List.headD, List.tail_cons]
    rw [groupTouching_chain htouch]
    have hca : (([ih0] ++ it) : List TimeInterval) = ih0 :: it := rfl
    rw [hca]
    simp only [mapCover, minimal_cover_timeline hne hs hend, Bind.bind,
      Except.bind]
    rfl

/-- Union of a canonical component list with its complement pieces: the
sorted combined list is the single touching interleaved chain, whose
minimal cover is the Timeline interval. -/
theorem orS_complement_timeline {c : TimeInterval} {rest : List TimeInterval}
    (hv : ∀ i ∈ c :: rest, i.is_valid = true)
    (hne : ∀ i ∈ c :: rest, i.is_empty = false)
    (hch : List.Chain' (fun a b => a.is_left_of_disconnectedly b = true) (c :: rest)) :
    orS ⟨c :: rest⟩
      ⟨optLeft c ++ (gapsTot (c :: rest) ++ optRight ((c :: rest).getLastD c))⟩ =
      .ok timelineS := by
  have hprops := pieces_props hv hne hch
  have hXne : ∀ i ∈ (c :: rest) ++ (optLeft c ++
      (gapsTot (c :: rest) ++ optRight ((c :: rest).getLastD c))),
      i.is_empty = false := by
    intro i hi
    rcases List.mem_append.mp hi with h1 | h2
    · exact hne i h1
    · exact (hprops i h2).2
  have hfilt : ((c :: rest) ++ (optLeft c ++
      (gapsTot (c :: rest) ++ optRight ((c :: rest).getLastD c)))).filter
        TimeInterval.is_nonempty =
      (c :: rest) ++ (optLeft c ++
        (gapsTot (c :: rest) ++ optRight ((c :: rest).getLastD c))) :=
    List.filter_eq_self.mpr (fun i hi => by
      rw [TimeInterval.is_nonempty_eq_not_empty, hXne i hi]
      rfl)
  have hperm : ((c :: rest) ++ (optLeft c ++
      (gapsTot (c :: rest) ++ optRight ((c :: rest).getLastD c)))).Perm
      (optLeft c ++ (interleaveTot (c :: rest) ++
        optRight ((c :: rest).getLastD c))) := by
    have hstep0 : ((c :: rest) ++ (optLeft c ++
        (gapsTot (c :: rest) ++ optRight ((c :: rest).getLastD c)))).Perm
        (((c :: rest) ++ optLeft c) ++
          (gapsTot (c :: rest) ++ optRight ((c :: rest).getLastD c))) := by
      rw [List.append_assoc]
    have hstep : (((c :: rest) ++ optLeft c) ++
        (gapsTot (c :: rest) ++ optRight ((c :: rest).getLastD c))).Perm
        ((optLeft c ++ (c :: rest)) ++
          (gapsTot (c :: rest) ++ optRight ((c :: rest).getLastD c))) :=
      List.Perm.append_right _ List.perm_append_comm
    have hstep2 : ((optLeft c ++ (c :: rest)) ++
        (gapsTot (c :: rest) ++ optRight ((c :: rest).getLastD c))).Perm
        (optLeft c ++ (interleaveTot (c :: rest) ++
          optRight ((c :: rest).getLastD c))) := by
      rw [List.append_assoc,
        ← List.append_assoc (c :: rest) (gapsTot (c :: rest))
          (optRight ((c :: rest).getLastD c))]
      exact List.Perm.append_left _
        (List.Perm.append_right _ (interleave_perm (c :: rest)))
    exact hstep0.trans (hstep.trans hstep2)
  have hchI := chain_I hv hne hch
  have hpairI := pairwise_keyLt_of_chain' (hchI.imp (fun _ _ hab => hab.2))
  have hsort := TimeInterval.pySort_eq_of_perm hperm hpairI
  have hneI : ∀ i ∈ optLeft c ++ (interleaveTot (c :: rest) ++
      optRight ((c :: rest).getLastD c)), i.is_empty = false :=
    fun i hi => hXne i (hperm.mem_iff.mpr hi)
  have hend : ∃ x ∈ optLeft c ++ (interleaveTot (c :: rest) ++
      optRight ((c :: rest).getLastD c)), x.endp = none := by
    rcases hLe : ((c :: rest).getLastD c).endp with _ | ev
    · exact ⟨(c :: rest).getLastD c,
        hperm.mem_iff.mp (List.mem_append_left _ (getLastD_cons_mem c rest)),
        hLe⟩
    · have hopt : optRight ((c :: rest).getLastD c) =
          [((c :: rest).getLastD c).to_the_right] := by
        unfold optRight
        rw [hLe]
      obtain ⟨r1, r2, r3, r4, r5, r6⟩ :=
        TimeInterval.to_the_right_fields (hne _ (getLastD_cons_mem c rest)) hLe
      refine ⟨((c :: rest).getLastD c).to_the_right, ?_, r4⟩
      apply List.mem_append_right
      apply List.mem_append_right
      rw [hopt]
      simp
  have hXne0 : ((c :: rest) ++ (optLeft c ++
      (gapsTot (c :: rest) ++ optRight ((c :: rest).getLastD c)))) ≠ [] := by
    simp
  unfold orS
  dsimp only
  rcases hcs : c.start with _ | sv
  · have hl0 : optLeft c = [] := by
      unfold optLeft
      rw [hcs]
    have hI : optLeft c ++ (interleaveTot (c :: rest) ++
        optRight ((c :: rest).getLastD c)) =
        c :: ((interleaveTot (c :: rest)).tail ++
          optRight ((c :: rest).getLastD c)) := by
      rw [hl0, List.nil_append, interleave_cons c rest, List.cons_append]
      rfl
    rw [hI] at hsort hchI hneI hend
    exact unionE_single_group hfilt hXne0 hsort
      (hchI.imp (fun _ _ hab => hab.1)) hneI hcs hend
  · have hopt : optLeft c = [c.to_the_left] := by
      unfold optLeft
      rw [hcs]
    obtain ⟨l1, l2, l3, l4, l5, l6⟩ :=
      TimeInterval.to_the_left_fields (hne c (by simp)) hcs
    have hI : optLeft c ++ (interleaveTot (c :: rest) ++
        optRight ((c :: rest).getLastD c)) =
        c.to_the_left :: (interleaveTot (c :: rest) ++
          optRight ((c :: rest).getLastD c)) := by
      rw [hopt, List.cons_append, List.nil_append]
    rw [hI] at hsort hchI hneI hend
    exact unionE_single_group hfilt hXne0 hsort
      (hchI.imp (fun _ _ hab => hab.1)) hneI l3 hend

theorem unionE_ok_valid {l : List TimeInterval} {S : TimeSet}
    (h : unionE l = .ok S) : S.is_valid = true := by
  unfold unionE at h
  dsimp only at h
  split at h
  · cases h
    decide
  · simp only [Bind.bind, Except.bind] at h
    split at h
    · cases h
    · exact mkE_ok_valid h

theorem intersection_with_interval_ok_valid {A : TimeSet} {o : TimeInterval}
    {S : TimeSet} (h : intersection_with_interval A o = .ok S) :
    S.is_valid = true := by
  unfold intersection_with_interval at h
  split_ifs at h
  · cases h
    decide
  · simp only [Bind.bind, Except.bind] at h
    split at h
    · cases h
    · exact mkE_ok_valid h

theorem intersection_with_timeset_ok_valid {A B S : TimeSet}
    (h : intersection_with_timeset A B = .ok S) : S.is_valid = true := by
  unfold intersection_with_timeset at h
  split_ifs at h
  · cases h
    decide
  · simp only [Bind.bind, Except.bind] at h
    split at h
    · cases h
    · exact mkE_ok_valid h

theorem complement_ok_valid {A S : TimeSet} (h : complement A = .ok S) :
    S.is_valid = true := by
  unfold complement at h
  split at h
  · cases h
    decide
  · simp only [Bind.bind, Except.bind] at h
    split at h
    · cases h
    · exact unionE_ok_valid h

theorem intersection_with_timeset_total {A B : TimeSet}
    (hA : A.canonical = true) (hB : B.canonical = true) :
    ∃ S, intersection_with_timeset A B = .ok S ∧ S.is_valid = true := by
  rw [canonical, Bool.and_eq_true] at hA hB
  obtain ⟨hAv, hAs⟩ := hA
  obtain ⟨hBv, hBs⟩ := hB
  rw [is_valid, Bool.and_eq_true] at hAs hBs
  by_cases hAe : A.is_empty = true
  · exact ⟨emptyS, by simp [intersection_with_timeset, hAe], by decide⟩
  by_cases hBe : B.is_empty = true
  · exact ⟨emptyS, by simp [intersection_with_timeset, hAe, hBe], by decide⟩
  have hAv' : ∀ i ∈ A.intervals, i.is_valid = true := by
    rw [List.all_eq_true] at hAv
    intro i hi
    simpa using hAv i hi
  have hBv' : ∀ i ∈ B.intervals, i.is_valid = true := by
    rw [List.all_eq_true] at hBv
    intro i hi
    simpa using hBv i hi
  have hAne : ∀ i ∈ A.intervals, i.is_empty = false := by
    have := hAs.1
    rw [List.all_eq_true] at this
    intro i hi
    simpa using this i hi
  have hBne : ∀ i ∈ B.intervals, i.is_empty = false := by
    have := hBs.1
    rw [List.all_eq_true] at this
    intro i hi
    simpa using this i hi
  obtain ⟨L, hL, hmem, hp⟩ := interLoop_ok (A.intervals.length + B.intervals.length)
    A.intervals B.intervals le_rfl hAv' hBv' hAne hBne
    (pairwise_dLd_of_pairsOk hAv' hAs.2) (pairwise_dLd_of_pairsOk hBv' hBs.2)
  have hv : (TimeSet.mk L).is_valid = true := by
    rw [is_valid, Bool.and_eq_true]
    constructor
    · rw [List.all_eq_true]
      intro i hi
      simpa using (hmem i hi).2.1
    · exact pairsOk_of_pairwise hp
  refine ⟨⟨L⟩, ?_, hv⟩
  simp [intersection_with_timeset, hAe, hBe, Bind.bind, Except.bind, hL, mkE, hv]

/-- The two-pointer intersection of two canonical TimeSets with no
common moment is the empty TimeSet: any output component would be
non-empty yet contained in a component of each side. -/
theorem inter_disjoint {A C : TimeSet}
    (hAv : ∀ i ∈ A.intervals, i.is_valid = true)
    (hAne : ∀ i ∈ A.intervals, i.is_empty = false)
    (hAp : A.intervals.Pairwise (fun a b => a.is_left_of_disconnectedly b = true))
    (hCv : ∀ i ∈ C.intervals, i.is_valid = true)
    (hCne : ∀ i ∈ C.intervals, i.is_empty = false)
    (hCp : C.intervals.Pairwise (fun a b => a.is_left_of_disconnectedly b = true))
    (hdisj : ∀ t, A.contains_ts t = true → C.contains_ts t = false) :
    intersection_with_timeset A C = .ok emptyS := by
  by_cases hAe : A.is_empty = true
  · simp [intersection_with_timeset, hAe]
  by_cases hCe : C.is_empty = true
  · simp [intersection_with_timeset, hAe, hCe]
  obtain ⟨L, hL, hmem, hp⟩ := interLoop_ok
    (A.intervals.length + C.intervals.length) A.intervals C.intervals
    le_rfl hAv hCv hAne hCne hAp hCp
  have hLnil : L = [] := by
    cases L with
    | nil => rfl
    | cons c0 L' =>
      exfalso
      obtain ⟨hc0v, hc0ne, ⟨x, hx, hxc⟩, ⟨y, hy, hyc⟩⟩ := hmem c0 (by simp)
      obtain ⟨t, ht⟩ := TimeInterval.exists_contains_ts hc0v hc0ne
      have hxA : A.contains_ts t = true :=
        List.any_eq_true.mpr ⟨x, hx, hxc t ht⟩
      have hyC : C.contains_ts t = true :=
        List.any_eq_true.mpr ⟨y, hy, hyc t ht⟩
      rw [hdisj t hxA] at hyC
      exact absurd hyC (by simp)
  subst hLnil
  have hv0 : is_valid (⟨[]⟩ : TimeSet) = true := rfl
  simp [intersection_with_timeset, hAe, hCe, Bind.bind, Except.bind, hL, mkE,
    hv0, emptyS]

end TimeSet

/-! ## Claim theorems -/

/-- C1: every TimeSet returned by the public constructors `union`,
`intersection_with_interval`, `intersection_with_timeset` and
`complement` satisfies the canonical-form invariant `_is_valid`
(every component non-empty, adjacent components disconnectedly ordered,
hence strictly increasing); in particular, for every pair of canonical
TimeSets, `intersection_with_timeset` never raises the constructor's
invariant-violation error. -/
theorem C1_canonical_form :
    (∀ (l : List TimeInterval) (S : TimeSet), TimeSet.unionE l = .ok S →
      S.is_valid = true) ∧
    (∀ (A : TimeSet) (o : TimeInterval) (S : TimeSet),
      TimeSet.intersection_with_interval A o = .ok S → S.is_valid = true) ∧
    (∀ A B S : TimeSet, TimeSet.intersection_with_timeset A B = .ok S →
      S.is_valid = true) ∧
    (∀ A S : TimeSet, TimeSet.complement A = .ok S → S.is_valid = true) ∧
    (∀ A B : TimeSet, A.canonical = true → B.canonical = true →
      ∃ S, TimeSet.intersection_with_timeset A B = .ok S ∧ S.is_valid = true) :=
  ⟨fun _ _ => TimeSet.unionE_ok_valid,
   fun _ _ _ => TimeSet.intersection_with_interval_ok_valid,
   fun _ _ _ => TimeSet.intersection_with_timeset_ok_valid,
   fun _ _ => TimeSet.complement_ok_valid,
   fun _ _ hA hB => TimeSet.intersection_with_timeset_total hA hB⟩

/-- Witness for C1's never-raises clause at concrete canonical
TimeSets. -/
theorem C1_canonical_form_witness :
    ((⟨[⟨.closed, some 0, some 1⟩, TimeInterval.point 3]⟩ : TimeSet).canonical = true ∧
      (⟨[⟨.openClosed, some 0, some 3⟩]⟩ : TimeSet).canonical = true) ∧
    ∃ S, TimeSet.intersection_with_timeset
        ⟨[⟨.closed, some 0, some 1⟩, TimeInterval.point 3]⟩
        ⟨[⟨.openClosed, some 0, some 3⟩]⟩ = .ok S ∧ S.is_valid = true :=
  ⟨⟨by decide, by decide⟩, C1_canonical_form.2.2.2.2 _ _ (by decide) (by decide)⟩

/-- C2: for every canonical TimeSet `s`, `complement` succeeds, the
intersection of `s` with `s.complement()` is the empty TimeSet, and the
union of `s` with `s.complement()` is the Timeline TimeSet (a single
Timeline component). -/
theorem C2_complement_partition (s : TimeSet) (hs : s.canonical = true) :
    ∃ c, TimeSet.complement s = .ok c ∧
      TimeSet.intersection_with_timeset s c = .ok TimeSet.emptyS ∧
      TimeSet.orS s c = .ok TimeSet.timelineS := by
  obtain ⟨ints⟩ := s
  rw [TimeSet.canonical, Bool.and_eq_true] at hs
  obtain ⟨hall, hsval⟩ := hs
  rw [TimeSet.is_valid, Bool.and_eq_true] at hsval
  have hv : ∀ i ∈ ints, i.is_valid = true := by
    rw [List.all_eq_true] at hall
    intro i hi
    simpa using hall i hi
  have hne : ∀ i ∈ ints, i.is_empty = false := by
    have hne0 := hsval.1
    rw [List.all_eq_true] at hne0
    intro i hi
    simpa using hne0 i hi
  have hch := TimeSet.chain'_of_pairsOk hsval.2
  cases ints with
  | nil =>
    refine ⟨TimeSet.timelineS, rfl, by decide, by decide⟩
  | cons c rest =>
    have hcomp := TimeSet.complement_eq hv hne hch
    refine ⟨_, hcomp, ?_, ?_⟩
    · apply TimeSet.inter_disjoint hv hne (TimeSet.pairwise_of_chain'_dLd hv hch)
        (fun p hp => (TimeSet.pieces_props hv hne hch p hp).1)
        (fun p hp => (TimeSet.pieces_props hv hne hch p hp).2)
        (TimeSet.pairwise_of_chain'_dLd
          (fun p hp => (TimeSet.pieces_props hv hne hch p hp).1)
          (TimeSet.chain_pieces hv hne hch))
      intro t hA
      have hCmem : (TimeSet.mk (TimeSet.optLeft c ++ (TimeSet.gapsTot (c :: rest) ++
          TimeSet.optRight ((c :: rest).getLastD c)))).contains_ts t =
          !((⟨c :: rest⟩ : TimeSet).contains_ts t) := by
        have h1 := TimeSet.piecesFilter_eq hv hne hch
        show (TimeSet.optLeft c ++ (TimeSet.gapsTot (c :: rest) ++
            TimeSet.optRight ((c :: rest).getLastD c))).any
            (fun p => p.contains_ts t) =
          !((c :: rest).any (fun i => i.contains_ts t))
        rw [← h1, TimeSet.any_filter_nonempty,
          TimeSet.piecesTot_mem hv hne (TimeSet.pairwise_of_chain'_dLd hv hch)]
      rw [hCmem, hA]
      rfl
    · exact TimeSet.orS_complement_timeline hv hne hch

theorem C2_complement_partition_witness :
    (⟨[TimeInterval.point 1]⟩ : TimeSet).canonical = true ∧
    (∃ c, TimeSet.complement ⟨[TimeInterval.point 1]⟩ = .ok c ∧
      TimeSet.intersection_with_timeset ⟨[TimeInterval.point 1]⟩ c =
        .ok TimeSet.emptyS ∧
      TimeSet.orS ⟨[TimeInterval.point 1]⟩ c = .ok TimeSet.timelineS) :=
  ⟨by decide, C2_complement_partition ⟨[TimeInterval.point 1]⟩ (by decide)⟩

/-- C3: Interval intersection (the `&` operator on `TimeInterval`) is
commutative and associative: for all (valid) intervals `a`, `b`, `c`,
`a & b` equals `b & a`, and `(a & b) & c` equals `a & (b & c)` (the
chained applications composed through the `raise`-propagating bind). -/
theorem C3_inter_comm_assoc (a b c : TimeInterval)
    (ha : a.is_valid = true) (hb : b.is_valid = true) (hc : c.is_valid = true) :
    TimeInterval.inter a b = TimeInterval.inter b a ∧
    Except.bind (TimeInterval.inter a b) (fun x => TimeInterval.inter x c) =
      Except.bind (TimeInterval.inter b c) (fun y => TimeInterval.inter a y) := by
  obtain ⟨ab, hab, hab_v, hab_sem⟩ := TimeInterval.inter_ok ha hb
  obtain ⟨ba, hba, hba_v, hba_sem⟩ := TimeInterval.inter_ok hb ha
  obtain ⟨bc, hbc, hbc_v, hbc_sem⟩ := TimeInterval.inter_ok hb hc
  obtain ⟨u, hu, hu_v, hu_sem⟩ := TimeInterval.inter_ok hab_v hc
  obtain ⟨w, hw, hw_v, hw_sem⟩ := TimeInterval.inter_ok ha hbc_v
  constructor
  · rw [hab, hba]
    exact congrArg Except.ok (TimeInterval.ext_of_contains_ts hab_v hba_v fun t => by
      rw [hab_sem, hba_sem, Bool.and_comm])
  · rw [hab, hbc]
    show TimeInterval.inter ab c = TimeInterval.inter a bc
    rw [hu, hw]
    exact congrArg Except.ok (TimeInterval.ext_of_contains_ts hu_v hw_v fun t => by
      rw [hu_sem, hw_sem, hab_sem, hbc_sem, Bool.and_assoc])

/-- Witness for C3 at concrete intervals. -/
theorem C3_inter_comm_assoc_witness :
    ((⟨.closed, some 0, some 2⟩ : TimeInterval).is_valid = true ∧
      (TimeInterval.rightopen 1).is_valid = true ∧
      (TimeInterval.leftclosed 3).is_valid = true) ∧
    (TimeInterval.inter ⟨.closed, some 0, some 2⟩ (TimeInterval.rightopen 1) =
      TimeInterval.inter (TimeInterval.rightopen 1) ⟨.closed, some 0, some 2⟩ ∧
    Except.bind (TimeInterval.inter ⟨.closed, some 0, some 2⟩ (TimeInterval.rightopen 1))
        (fun x => TimeInterval.inter x (TimeInterval.leftclosed 3)) =
      Except.bind (TimeInterval.inter (TimeInterval.rightopen 1) (TimeInterval.leftclosed 3))
        (fun y => TimeInterval.inter ⟨.closed, some 0, some 2⟩ y)) :=
  ⟨⟨by decide, by decide, by decide⟩,
    C3_inter_comm_assoc _ _ _ (by decide) (by decide) (by decide)⟩

/-- C4 counterexample: at `d1 = 0 < d2 = 1 < d3 = 2` the union of
`closed(d1,d2)` and `closedopen(d2,d3)` is a single component, but that
component is `ClosedOpen(d1,d3)` (the set `[d1,d3)`), not
`Closed(d1,d3)`. -/
theorem C4_counterexample :
    TimeSet.unionE [⟨.closed, some 0, some 1⟩, ⟨.closedOpen, some 1, some 2⟩] =
      .ok ⟨[⟨.closedOpen, some 0, some 2⟩]⟩ ∧
    TimeSet.unionE [⟨.closed, some 0, some 1⟩, ⟨.closedOpen, some 1, some 2⟩] ≠
      .ok ⟨[⟨.closed, some 0, some 2⟩]⟩ :=
  ⟨by decide, by decide⟩

/-- C4 (amended): for all timestamps d1 < d2 < d3,
`TimeSet.union(closed(d1,d2), closedopen(d2,d3))` merges the touching
intervals into a single component, and that component is the
ClosedOpen interval `[d1, d3)` — closed at d1, open at d3, since the
second interval excludes d3. -/
theorem C4_union_touching (d1 d2 d3 : Ts) (h12 : d1 < d2) (h23 : d2 < d3) :
    TimeSet.unionE [⟨.closed, some d1, some d2⟩, ⟨.closedOpen, some d2, some d3⟩] =
      .ok ⟨[⟨.closedOpen, some d1, some d3⟩]⟩ := by
  have hne21 : (d2 == d1) = false := by
    simp only [beq_eq_false_iff_ne, ne_eq]
    intro h
    linarith
  have hne31 : (d3 == d1) = false := by
    simp only [beq_eq_false_iff_ne, ne_eq]
    intro h
    linarith
  have hne23 : (d2 == d3) = false := by
    simp only [beq_eq_false_iff_ne, ne_eq]
    intro h
    linarith
  have hkey : TimeInterval.unionKeyLt ⟨.closedOpen, some d2, some d3⟩
      ⟨.closed, some d1, some d2⟩ = false := by
    simp [TimeInterval.unionKeyLt, hne21]
    linarith
  have hsort : TimeInterval.pySort
      [(⟨.closed, some d1, some d2⟩ : TimeInterval), ⟨.closedOpen, some d2, some d3⟩] =
      [⟨.closed, some d1, some d2⟩, ⟨.closedOpen, some d2, some d3⟩] := by
    simp [TimeInterval.pySort, TimeInterval.sortInsert, hkey]
  have htouch : (⟨.closed, some d1, some d2⟩ : TimeInterval).touches
      ⟨.closedOpen, some d2, some d3⟩ = true := by
    simp [TimeInterval.touches, TimeInterval.is_left_of_disconnectedly,
      TimeInterval.is_empty, TimeInterval.is_end_included, TimeInterval.is_start_included,
      Kind.endSpecified, Kind.endIncluded, Kind.startSpecified, Kind.startIncluded,
      hne31]
    linarith
  have hcover : TimeInterval.minimal_cover
      [⟨.closed, some d1, some d2⟩, ⟨.closedOpen, some d2, some d3⟩] =
      .ok ⟨.closedOpen, some d1, some d3⟩ := by
    simp [TimeInterval.minimal_cover, TimeInterval.pyMinBy, TimeInterval.startKeyLt,
      TimeInterval.endKeyLt, TimeInterval.is_nonempty, TimeInterval.is_start_included,
      TimeInterval.is_end_included, Kind.startSpecified, Kind.startIncluded,
      Kind.endSpecified, Kind.endIncluded, hne23,
      (by linarith : ¬d2 < d1), (by linarith : d2 < d3),
      TimeInterval.from_boundaries, TimeInterval.closedopenE,
      (by linarith : ¬d1 ≥ d3), hne21]
  simp [TimeSet.unionE, TimeInterval.is_nonempty, hsort, TimeSet.groupTouching,
    htouch, TimeSet.mapCover, hcover, TimeSet.mkE, TimeSet.is_valid,
    TimeSet.pairsOk, TimeInterval.is_empty, Bind.bind, Except.bind]

/-- Witness for the amended C4 at concrete timestamps. -/
theorem C4_union_touching_witness :
    ((0 : Ts) < 1 ∧ (1 : Ts) < 2) ∧
    TimeSet.unionE [⟨.closed, some 0, some 1⟩, ⟨.closedOpen, some 1, some 2⟩] =
      .ok ⟨[⟨.closedOpen, some 0, some 2⟩]⟩ :=
  ⟨⟨by decide, by decide⟩, C4_union_touching 0 1 2 (by decide) (by decide)⟩

/-- C5 counterexample: the claim says a call with `start` specified,
`end` absent and `start_included = None` must fail; the code instead
treats the `None` flag as falsy and successfully builds an open right
ray. -/
theorem C5_counterexample :
    TimeInterval.from_boundaries (some 0) none none none =
      .ok (TimeInterval.rightopen 0) := by
  decide

/-- C5 (amended): construction fails whenever an inclusion flag is
present for an absent bound, and, when both bounds are present, whenever
either flag is absent; but a ray call whose present bound carries a
`None` flag succeeds, treating that bound as excluded (falsy `None`). -/
theorem C5_flag_bound_rules (s e : Ts) (si ei : Option Bool) (b : Bool) :
    (∃ m, TimeInterval.from_boundaries (some s) none si (some b) = .error m) ∧
    (∃ m, TimeInterval.from_boundaries none (some e) (some b) ei = .error m) ∧
    (si = none ∨ ei = none →
      ∃ m, TimeInterval.from_boundaries (some s) (some e) si ei = .error m) ∧
    (¬(si = none ∧ ei = none) →
      ∃ m, TimeInterval.from_boundaries none none si ei = .error m) ∧
    TimeInterval.from_boundaries (some s) none none none =
      .ok (TimeInterval.rightopen s) ∧
    TimeInterval.from_boundaries none (some e) none none =
      .ok (TimeInterval.leftopen e) := by
  refine ⟨⟨"from_boundaries: end absent but end_included given",
      by simp [TimeInterval.from_boundaries]⟩,
    ⟨"from_boundaries: start absent but start_included given",
      by simp [TimeInterval.from_boundaries]⟩, ?_, ?_,
    by simp [TimeInterval.from_boundaries],
    by simp [TimeInterval.from_boundaries]⟩
  · intro h
    rcases si with _ | si' <;> rcases ei with _ | ei' <;>
      simp_all [TimeInterval.from_boundaries]
  · intro h
    rcases si with _ | si' <;> rcases ei with _ | ei' <;>
      simp_all [TimeInterval.from_boundaries]

/-- Witness for the amended C5 at concrete inputs. -/
theorem C5_flag_bound_rules_witness :
    (∃ m, TimeInterval.from_boundaries (some (0 : Ts)) (some 1) none none = .error m) ∧
    TimeInterval.from_boundaries (some (0 : Ts)) none none none =
      .ok (TimeInterval.rightopen 0) :=
  ⟨(C5_flag_bound_rules 0 1 none none true).2.2.1 (Or.inl rfl),
    (C5_flag_bound_rules 0 1 none none true).2.2.2.2.1⟩

/-- C6 counterexample: the Empty interval is not Timeline, yet
round-tripping its boundary data through `from_boundaries` produces the
Timeline interval, not an interval equal to Empty. -/
theorem C6_counterexample :
    TimeInterval.emptyI.is_valid = true ∧
    TimeInterval.emptyI.kind ≠ Kind.timeline ∧
    TimeInterval.from_boundaries TimeInterval.emptyI.start TimeInterval.emptyI.endp
      TimeInterval.emptyI.is_start_included TimeInterval.emptyI.is_end_included =
      .ok TimeInterval.timelineI ∧
    TimeInterval.timelineI ≠ TimeInterval.emptyI := by
  refine ⟨by decide, by decide, by decide, by decide⟩

/-- C6 (amended): for every valid interval whose shape is neither
Timeline nor Empty, `from_boundaries(i.start, i.end, i.is_start_included,
i.is_end_included)` succeeds and returns an interval equal to `i`. -/
theorem C6_roundtrip (i : TimeInterval) (hv : i.is_valid = true)
    (ht : i.kind ≠ Kind.timeline) (he : i.kind ≠ Kind.empty) :
    TimeInterval.from_boundaries i.start i.endp
      i.is_start_included i.is_end_included = .ok i :=
  TimeInterval.from_boundaries_roundtrip hv he

/-- Witness for the amended C6 at a concrete interval. -/
theorem C6_roundtrip_witness :
    ((TimeInterval.point 5).is_valid = true ∧
      (TimeInterval.point 5).kind ≠ Kind.timeline ∧
      (TimeInterval.point 5).kind ≠ Kind.empty) ∧
    TimeInterval.from_boundaries (TimeInterval.point 5).start (TimeInterval.point 5).endp
      (TimeInterval.point 5).is_start_included (TimeInterval.point 5).is_end_included =
      .ok (TimeInterval.point 5) :=
  ⟨⟨by decide, by decide, by decide⟩,
    C6_roundtrip (TimeInterval.point 5) (by decide) (by decide) (by decide)⟩

/-- C7: for non-empty, non-Timeline intervals, the `&` operator takes the
later start (ties included only iff both starts included) and the earlier
end (same tie rule), returns Empty when both resulting bounds are
specified and start > end, or start == end with not both included, and
otherwise builds the result via `from_boundaries` (`inter_spec`
transcribes that wording from the spec); in particular, with moments in
hours from 2024-01-01T00:00Z,
`closed(2024-01-01T00:00Z, 2024-01-02T00:00Z) & rightopen(2024-01-01T12:00Z)`
is the OpenClosed interval from 12:00 (excluded) to 2024-01-02T00:00Z
(included). -/
theorem C7_inter_matches_spec (a b : TimeInterval)
    (ha : a.is_valid = true) (hb : b.is_valid = true)
    (hna : a.is_empty = false) (hnb : b.is_empty = false)
    (hta : a.is_timeline = false) (htb : b.is_timeline = false) :
    TimeInterval.inter a b = TimeInterval.inter_spec a b ∧
    TimeInterval.inter ⟨.closed, some 0, some 24⟩ (TimeInterval.rightopen 12) =
      .ok ⟨.openClosed, some 12, some 24⟩ := by
  refine ⟨?_, by decide⟩
  rw [TimeInterval.inter, TimeInterval.inter_spec,
    TimeInterval.interStart_eq_laterBound ha hb,
    TimeInterval.interEnd_eq_earlierBound ha hb]
  simp only [hna, hnb, hta, htb, Bool.false_eq_true, if_false, Bool.or_self,
    Bind.bind, Except.bind]
  obtain ⟨s, si⟩ :=
    TimeInterval.laterBound (a.start, a.is_start_included) (b.start, b.is_start_included)
  obtain ⟨e, ei⟩ :=
    TimeInterval.earlierBound (a.endp, a.is_end_included) (b.endp, b.is_end_included)
  rcases s with _ | sv <;> rcases e with _ | ev <;> simp only []
  · by_cases hf : (si == some true && ei == some true) = true
    · rw [if_pos hf]
      rcases lt_trichotomy sv ev with h | h | h
      · rw [if_neg (by linarith : ¬sv > ev), if_neg (by simp [hf]; linarith)]
      · subst h
        rw [if_neg (lt_irrefl sv), if_neg (by simp [hf])]
      · rw [if_pos h, if_pos (by simp [h])]
    · rw [if_neg hf]
      rcases lt_trichotomy sv ev with h | h | h
      · rw [if_neg (by linarith : ¬sv ≥ ev),
          if_neg (by
            simp [hf]
            constructor
            · linarith
            · intro hx
              linarith)]
      · subst h
        rw [if_pos (le_refl sv), if_pos (by simp [hf])]
      · rw [if_pos (by linarith : sv ≥ ev), if_pos (by simp [h])]

/-- Witness for C7 at concrete valid inputs. -/
theorem C7_inter_matches_spec_witness :
    ((⟨.closed, some 0, some 24⟩ : TimeInterval).is_valid = true ∧
      (TimeInterval.rightopen 12).is_valid = true ∧
      (⟨.closed, some 0, some 24⟩ : TimeInterval).is_empty = false ∧
      (TimeInterval.rightopen 12).is_empty = false ∧
      (⟨.closed, some 0, some 24⟩ : TimeInterval).is_timeline = false ∧
      (TimeInterval.rightopen 12).is_timeline = false) ∧
    (TimeInterval.inter ⟨.closed, some 0, some 24⟩ (TimeInterval.rightopen 12) =
        TimeInterval.inter_spec ⟨.closed, some 0, some 24⟩ (TimeInterval.rightopen 12) ∧
      TimeInterval.inter ⟨.closed, some 0, some 24⟩ (TimeInterval.rightopen 12) =
        .ok ⟨.openClosed, some 12, some 24⟩) :=
  ⟨⟨by decide, by decide, by decide, by decide, by decide, by decide⟩,
    C7_inter_matches_spec _ _ (by decide) (by decide) (by decide) (by decide)
      (by decide) (by decide)⟩

/-- C8: interval containment is reflexive and transitive:
`a.contains(a)` always holds, and `a.contains(b)` together with
`b.contains(c)` implies `a.contains(c)`. -/
theorem C8_contains_refl_trans (a b c : TimeInterval) :
    a.contains_ti a = true ∧
    (a.contains_ti b = true → b.contains_ti c = true → a.contains_ti c = true) := by
  constructor
  · by_cases hea : a.is_empty = true
    · simp [TimeInterval.contains_ti, hea]
    · simp [TimeInterval.contains_ti, hea, TimeInterval.containsLeft_refl,
        TimeInterval.containsRight_refl]
  · intro hab hbc
    by_cases hec : c.is_empty = true
    · simp [TimeInterval.contains_ti, hec]
    · by_cases heb : b.is_empty = true
      · simp [TimeInterval.contains_ti, hec, heb] at hbc
      · by_cases hea : a.is_empty = true
        · simp [TimeInterval.contains_ti, heb, hea] at hab
        · rw [Bool.not_eq_true] at hea heb hec
          simp only [TimeInterval.contains_ti, hea, heb, hec, Bool.false_eq_true,
            if_false, Bool.and_eq_true] at hab hbc ⊢
          exact ⟨TimeInterval.containsLeft_trans hab.1 hbc.1,
            TimeInterval.containsRight_trans hab.2 hbc.2⟩

/-- Witness for C8 at concrete intervals. -/
theorem C8_contains_refl_trans_witness :
    ((TimeInterval.rightclosed 0).contains_ti ⟨.closed, some 1, some 4⟩ = true ∧
      (⟨.closed, some 1, some 4⟩ : TimeInterval).contains_ti (TimeInterval.point 2) = true) ∧
    ((TimeInterval.rightclosed 0).contains_ti (TimeInterval.rightclosed 0) = true ∧
      (TimeInterval.rightclosed 0).contains_ti (TimeInterval.point 2) = true) :=
  ⟨⟨by decide, by decide⟩,
    ⟨(C8_contains_refl_trans (TimeInterval.rightclosed 0) ⟨.closed, some 1, some 4⟩
        (TimeInterval.point 2)).1,
      (C8_contains_refl_trans (TimeInterval.rightclosed 0) ⟨.closed, some 1, some 4⟩
        (TimeInterval.point 2)).2 (by decide) (by decide)⟩⟩

/-- C9: time-zone conversion preserves the absolute moment: for every
timestamp and every zone name the database resolves, `to_timezone`
succeeds and returns a timestamp equal to the original under the
UTC-normalised equality, and `to_utc` likewise equals the original. -/
theorem C9_conversion_preserves_moment (db : List String) (z : String)
    (t : Timestamp) (hz : z ∈ db) :
    ∃ t2, Timestamp.to_timezone db t z = .ok t2 ∧
      Timestamp.eqUTC t2 t = true ∧
      Timestamp.eqUTC (Timestamp.to_utc t) t = true := by
  refine ⟨⟨t.moment, z⟩, ?_, ?_, ?_⟩ <;>
    simp [Timestamp.to_timezone, hz, Timestamp.eqUTC, Timestamp.to_utc]

/-- Witness for C9 at a concrete timestamp and zone database. -/
theorem C9_conversion_preserves_moment_witness :
    ("America/New_York" ∈ ["Etc/UTC", "America/New_York"]) ∧
    ∃ t2, Timestamp.to_timezone ["Etc/UTC", "America/New_York"]
        ⟨720, "Etc/UTC"⟩ "America/New_York" = .ok t2 ∧
      Timestamp.eqUTC t2 ⟨720, "Etc/UTC"⟩ = true ∧
      Timestamp.eqUTC (Timestamp.to_utc ⟨720, "Etc/UTC"⟩) ⟨720, "Etc/UTC"⟩ = true :=
  ⟨by decide,
    C9_conversion_preserves_moment ["Etc/UTC", "America/New_York"] "America/New_York"
      ⟨720, "Etc/UTC"⟩ (by decide)⟩

/-- C10: `overlaps` and `touches` are symmetric predicates on
intervals. -/
theorem C10_overlaps_touches_symm (a b : TimeInterval) :
    a.overlaps b = b.overlaps a ∧ a.touches b = b.touches a := by
  constructor
  · by_cases h1 : a.is_empty = true <;> by_cases h2 : b.is_empty = true <;>
      by_cases h3 : a.is_left_of b = true <;> by_cases h4 : b.is_left_of a = true <;>
      simp_all [TimeInterval.overlaps]
  · by_cases h1 : a.is_empty = true <;> by_cases h2 : b.is_empty = true <;>
      by_cases h3 : a.is_left_of_disconnectedly b = true <;>
      by_cases h4 : b.is_left_of_disconnectedly a = true <;>
      simp_all [TimeInterval.touches]

end Diane
